import Mathlib

/-!
A verification development for a regular-expression compilation pipeline:
regex text → AST (shunting-yard parser) → NFA (Thompson construction)
→ DFA (subset construction) → minimized DFA (partition refinement).

The definitions below are a shallow embedding of the Python sources
(`regex_parser.py`, `ast_node.py`, `thompson_builder.py`, `nfa_classes.py`,
`dfa_classes.py`, `subset_construction.py`, `dfa_minimization.py`).
Strings are `List Char`; Python state objects become arena records addressed
by their integer id (references between state objects become ids); Python
`set`/`frozenset` of states become `Finset Nat` of ids, whose extensional
equality matches `frozenset` equality.  Diagnostic printing in the sources is
ignored.  Python exceptions become `Option` results (`none` = raised).
-/

namespace RegexLab

/-! ### Parser: `FixedRegexParser` from `regex_parser.py` -/

/-- The escape replacement chosen by `_expand_escape_sequences` for the
character following a backslash: brackets and braces are emitted verbatim,
`* + ? |` are replaced by multi-character marker words, anything else is
emitted with the backslash stripped. -/
def escMap (c : Char) : List Char :=
  if c = '(' then ['(']
  else if c = ')' then [')']
  else if c = Char.ofNat 123 then [Char.ofNat 123]
  else if c = Char.ofNat 125 then [Char.ofNat 125]
  else if c = '[' then ['[']
  else if c = ']' then [']']
  else if c = '*' then "STAR_LITERAL".toList
  else if c = '+' then "PLUS_LITERAL".toList
  else if c = '?' then "QUEST_LITERAL".toList
  else if c = '|' then "PIPE_LITERAL".toList
  else [c]

/-- `FixedRegexParser._expand_escape_sequences`: a backslash that is not the
last character consumes the next character and emits its `escMap` image; any
other character (including a trailing backslash) is copied. -/
def expand_escape_sequences : List Char → List Char
  | '\\' :: c :: rest => escMap c ++ expand_escape_sequences rest
  | c :: rest => c :: expand_escape_sequences rest
  | [] => []

/-- `FixedRegexParser._parse_character_class_content`: `x-y` ranges expand to
all code points from `x` to `y` inclusive when both endpoints satisfy
`isalpha` or both satisfy `isdigit` (embedded as the ASCII
`Char.isAlpha`/`Char.isDigit`); invalid ranges stay as the three literal
characters; everything else is a single literal character. -/
def parse_character_class_content : List Char → List Char
  | c1 :: '-' :: c2 :: rest =>
      (if (c1.isAlpha && c2.isAlpha) || (c1.isDigit && c2.isDigit) then
        (List.range' c1.toNat (c2.toNat + 1 - c1.toNat)).map Char.ofNat
      else [c1, '-', c2]) ++ parse_character_class_content rest
  | c :: rest => c :: parse_character_class_content rest
  | [] => []

/-- The replacement text `_expand_character_classes` substitutes for one
character class with the given content: a single alternative degenerates to
that character, otherwise the alternatives are parenthesized and joined
with `|`. -/
def classReplacement (content : List Char) : List Char :=
  match parse_character_class_content content with
  | [c] => [c]
  | cs => '(' :: List.intersperse '|' cs ++ [')']

/-- The scan for the closing `]` of a character class: splits the input
into the content before the first `]` and the remainder after it, or `none`
when the class never closes. -/
def splitOnClose : List Char → Option (List Char × List Char)
  | [] => none
  | c :: rest =>
      if c = ']' then some ([], rest)
      else
        match splitOnClose rest with
        | none => none
        | some (content, rest') => some (c :: content, rest')

/-- The scanning loop of `_expand_character_classes`, fuel-indexed so that
it computes by structural recursion.  Each step consumes at least one input
character, so the `l.length` fuel supplied by `expand_character_classes`
always suffices and the fuel-exhaustion default is never reached. -/
def expandClassesFuel : Nat → List Char → List Char
  | 0, l => l
  | _ + 1, [] => []
  | fuel + 1, '[' :: rest =>
      match splitOnClose rest with
      | some (content, rest') =>
          classReplacement content ++ expandClassesFuel fuel rest'
      | none => '[' :: rest
  | fuel + 1, c :: rest => c :: expandClassesFuel fuel rest

/-- `FixedRegexParser._expand_character_classes`: each `[...]` whose closing
bracket exists is replaced by `classReplacement` of its content; when no `]`
follows, the `[` is copied and scanning continues, which (since no later
class can close either) copies the remainder verbatim. -/
def expand_character_classes (l : List Char) : List Char :=
  expandClassesFuel l.length l

/-- The backward scan in `expand_extensions` that finds the `(` matching the
`)` just before a postfix operator.  `jp` encodes Python's cursor `j` shifted
by one (so `jp = 0` means `j = -1`); the returned value is Python's final
`j + 1`, the index where the parenthesized operand starts. -/
def findOpenAux (s : List Char) (jp count : Nat) : Nat :=
  if count = 0 then jp
  else
    match jp with
    | 0 => 0
    | jp' + 1 =>
        findOpenAux s jp'
          (if s.getD jp' ' ' = ')' then count + 1
           else if s.getD jp' ' ' = '(' then count - 1 else count)

/-- The `E? → (E|ε)` textual expansion loop of `expand_extensions` (step 3),
fuel-indexed so that it computes by structural recursion: scan for `?` at
position `i > 0`; the operand is the single previous character, or the
parenthesized group ending just before the `?`.  The quantity
`s.length - i` decreases by at least one per step (also across a
replacement, which rewrites `s` and moves `i` past the inserted group), so
the fuel supplied by `expandOptLoop` always suffices. -/
def optFuel : Nat → List Char → Nat → List Char
  | 0, s, _ => s
  | fuel + 1, s, i =>
      if i < s.length then
        if 0 < i ∧ s.getD i ' ' = '?' then
          let op_start :=
            if s.getD (i - 1) ' ' = ')' then findOpenAux s (i - 1) 1 else i - 1
          let operand := (s.take i).drop op_start
          optFuel fuel
            (s.take op_start ++ ['('] ++ operand ++ ['|', 'ε', ')'] ++ s.drop (i + 1))
            (op_start + operand.length + 4)
        else optFuel fuel s (i + 1)
      else s

/-- The `?` expansion loop started at position `i`. -/
def expandOptLoop (s : List Char) (i : Nat) : List Char :=
  optFuel (s.length - i) s i

/-- The `E+ → EE*` textual expansion loop of `expand_extensions` (step 4),
with the same fuel discipline as `optFuel`. -/
def plusFuel : Nat → List Char → Nat → List Char
  | 0, s, _ => s
  | fuel + 1, s, i =>
      if i < s.length then
        if 0 < i ∧ s.getD i ' ' = '+' then
          let op_start :=
            if s.getD (i - 1) ' ' = ')' then findOpenAux s (i - 1) 1 else i - 1
          let operand := (s.take i).drop op_start
          plusFuel fuel
            (s.take op_start ++ operand ++ operand ++ ['*'] ++ s.drop (i + 1))
            (op_start + operand.length + operand.length + 1)
        else plusFuel fuel s (i + 1)
      else s

/-- The `+` expansion loop started at position `i`. -/
def expandPlusLoop (s : List Char) (i : Nat) : List Char :=
  plusFuel (s.length - i) s i

/-- `FixedRegexParser.expand_extensions`: escape resolution, then character
class expansion, then `?` desugaring, then `+` desugaring. -/
def expand_extensions (regex : List Char) : List Char :=
  expandPlusLoop
    (expandOptLoop (expand_character_classes (expand_escape_sequences regex)) 0) 0

/-- `FixedRegexParser.tokenize`: one token per character. -/
def tokenize (regex : List Char) : List Char := regex

/-- The two concatenation-insertion rules of
`FixedRegexParser.insert_concatenation`. -/
def needConcat (prev curr : Char) : Bool :=
  (decide (prev ∉ ['|', '(']) && decide (curr ∉ ['|', '*', '+', '?', ')'])) ||
  (decide (prev ∈ [')', '*', '+', '?']) && decide (curr ∉ ['|', ')', '*', '+', '?']))

/-- Tail of `insert_concatenation`: walks adjacent token pairs inserting `.`
whenever `needConcat` holds. -/
def insertConcatAux : Char → List Char → List Char
  | _, [] => []
  | prev, c :: rest =>
      (if needConcat prev c then ['.', c] else [c]) ++ insertConcatAux c rest

/-- `FixedRegexParser.insert_concatenation`. -/
def insert_concatenation : List Char → List Char
  | [] => []
  | c :: rest => c :: insertConcatAux c rest

/-- The parser's operator precedence table (`self.precedence`). -/
def precedenceOf (c : Char) : Option Nat :=
  if c = '*' then some 4
  else if c = '+' then some 4
  else if c = '?' then some 4
  else if c = '.' then some 3
  else if c = '|' then some 2
  else if c = '(' then some 1
  else none

/-- The shunting-yard loop of `FixedRegexParser.to_postfix`; `stack` holds
the operator stack with its top at the head.  An unmatched `)` finds no `(`
on the stack and is silently dropped; a leftover `(` is flushed into the
output when the input ends. -/
def shuntGo : List Char → List Char → List Char → List Char
  | [], out, stack => out ++ stack
  | t :: rest, out, stack =>
      if (precedenceOf t).isNone && t ≠ ')' then
        shuntGo rest (out ++ [t]) stack
      else if t = '(' then
        shuntGo rest out ('(' :: stack)
      else if t = ')' then
        shuntGo rest (out ++ stack.takeWhile (fun x => x != '('))
          ((stack.dropWhile (fun x => x != '(')).tail)
      else
        shuntGo rest
          (out ++ stack.takeWhile (fun x =>
            (x != '(') && decide ((precedenceOf x).getD 0 ≥ (precedenceOf t).getD 0)))
          (t :: stack.dropWhile (fun x =>
            (x != '(') && decide ((precedenceOf x).getD 0 ≥ (precedenceOf t).getD 0)))

/-- `FixedRegexParser.to_postfix`: expand extensions, tokenize, insert
concatenation operators, and run shunting-yard. -/
def to_postfix_tokens (regex : List Char) : List Char :=
  shuntGo (insert_concatenation (tokenize (expand_extensions regex))) [] []

/-- `ASTNode` from `ast_node.py`, restricted to the three shapes
`postfix_to_ast` actually creates (`node_type` ∈ operand/unary_op/binary_op);
the `value` is the single-character token. -/
inductive ASTNode where
  | operand (value : Char)
  | unary_op (value : Char) (child : ASTNode)
  | binary_op (value : Char) (left : ASTNode) (right : ASTNode)
deriving DecidableEq

/-- The stack machine of `FixedRegexParser.postfix_to_ast`; `none` models the
`ValueError`s raised for an operator lacking operands or for a final stack
that does not hold exactly one node. -/
def postfixGo : List Char → List ASTNode → Option ASTNode
  | [], [a] => some a
  | [], _ => none
  | t :: rest, stack =>
      if t = '*' ∨ t = '+' ∨ t = '?' then
        match stack with
        | [] => none
        | child :: st => postfixGo rest (ASTNode.unary_op t child :: st)
      else if t = '|' ∨ t = '.' then
        match stack with
        | right :: left :: st => postfixGo rest (ASTNode.binary_op t left right :: st)
        | _ => none
      else
        postfixGo rest (ASTNode.operand t :: stack)

/-- `FixedRegexParser.postfix_to_ast`. -/
def postfix_to_ast (tokens : List Char) : Option ASTNode := postfixGo tokens []

/-- `FixedRegexParser.parse`: `none` models a raised parse error. -/
def parse (regex : List Char) : Option ASTNode :=
  postfix_to_ast (to_postfix_tokens regex)

/-! ### NFA model: `nfa_classes.py`

A Python `NFAState` is an arena record; references between states are ids.
An `NFA` object's derived data (`states`, alphabet) is recomputed on demand
from the arena instead of being cached by `__init__`. -/

/-- `NFAState`: id, finality flag, per-symbol transition targets and
epsilon-transition targets (sets of states become lists of ids; list order
and duplicates are irrelevant to every consumer, which reads them through
`Finset`s). -/
structure NFAStateRec where
  id : Nat
  is_final : Bool
  transitions : List (Char × List Nat)
  epsilon_transitions : List Nat
deriving DecidableEq

/-- `NFA`: the start and (top-level) final state of the arena. -/
structure NFAAut where
  arena : List NFAStateRec
  start : Nat
  final_ref : Nat
deriving DecidableEq

/-- Resolving a state id in the arena (a Python object reference can always
be resolved; on ids absent from the arena the functions below fall back to
an inert state, which is unreachable for arenas built by this pipeline). -/
def lookupState (arena : List NFAStateRec) (q : Nat) : Option NFAStateRec :=
  arena.find? (fun s => s.id == q)

/-- The `epsilon_transitions` set of a state. -/
def epsOf (nfa : NFAAut) (q : Nat) : List Nat :=
  match lookupState nfa.arena q with
  | some s => s.epsilon_transitions
  | none => []

/-- `NFAState.get_transitions_for_symbol`: `transitions.get(symbol, set())`. -/
def transOf (nfa : NFAAut) (q : Nat) (c : Char) : List Nat :=
  match lookupState nfa.arena q with
  | some s =>
      match s.transitions.find? (fun p => p.1 == c) with
      | some p => p.2
      | none => []
  | none => []

/-- The `is_final` flag of a state. -/
def isFinalOf (nfa : NFAAut) (q : Nat) : Bool :=
  match lookupState nfa.arena q with
  | some s => s.is_final
  | none => false

/-! #### Worklist closures as bounded iteration

`NFA.epsilon_closure`, `NFA._collect_states`, `DFA._collect_info` and
`DFAMinimizer._get_reachable_states` in the sources are all worklist loops
computing the least fixpoint of "add all successors".  We embed that least
fixpoint by iterating the one-step enlargement; iterating `(S ∪ T).card`
times, where `T` bounds every id a successor list can produce, is proved
below to reach the same fixpoint the worklist reaches. -/

/-- One enlargement step: add every successor of every member. -/
def stepWith (f : Nat → List Nat) (S : Finset Nat) : Finset Nat :=
  S ∪ S.biUnion (fun q => (f q).toFinset)

/-- Bounded iteration of `stepWith`. -/
def iterStep (f : Nat → List Nat) (bound : Nat) (S : Finset Nat) : Finset Nat :=
  (stepWith f)^[bound] S

/-- Every id appearing in some `epsilon_transitions` list of the arena. -/
def epsTargets (nfa : NFAAut) : Finset Nat :=
  ((nfa.arena.map (fun s => s.epsilon_transitions)).join).toFinset

/-- `NFA.epsilon_closure`: the worklist closure of `S` under epsilon
transitions, as a bounded fixpoint iteration (`closure = set(states)` grows
by `state.epsilon_transitions` until no change). -/
def epsilon_closure (nfa : NFAAut) (S : Finset Nat) : Finset Nat :=
  iterStep (epsOf nfa) ((S ∪ epsTargets nfa).card) S

/-- All successors of a state by any transition (symbol or epsilon), as
traversed by `NFA._collect_states`. -/
def succAll (nfa : NFAAut) (q : Nat) : List Nat :=
  match lookupState nfa.arena q with
  | some s => (s.transitions.map (fun p => p.2)).join ++ s.epsilon_transitions
  | none => []

/-- Every id appearing as any transition target in the arena. -/
def allTargets (nfa : NFAAut) : Finset Nat :=
  ((nfa.arena.map
      (fun s => (s.transitions.map (fun p => p.2)).join ++ s.epsilon_transitions)).join).toFinset

/-- `NFA.states` (computed by `_collect_states`): all states reachable from
the start state by any transition. -/
def NFAAut.statesF (nfa : NFAAut) : Finset Nat :=
  iterStep (succAll nfa) (({nfa.start} ∪ allTargets nfa).card) {nfa.start}

/-- `NFA.get_alphabet`: all transition symbols of reachable states, with
`'ε'` removed. -/
def get_alphabet (nfa : NFAAut) : Finset Char :=
  ((nfa.statesF).biUnion (fun q =>
    match lookupState nfa.arena q with
    | some s => (s.transitions.map (fun p => p.1)).toFinset
    | none => ∅)).erase 'ε'

/-- One move of `NFA.simulate`: the union of the per-state transition
targets for a symbol over the active set. -/
def moveSet (nfa : NFAAut) (S : Finset Nat) (c : Char) : Finset Nat :=
  S.biUnion (fun q => (transOf nfa q c).toFinset)

/-- `any(state.is_final for state in current_states)`. -/
def containsFinal (nfa : NFAAut) (S : Finset Nat) : Bool :=
  decide (∃ q ∈ S, isFinalOf nfa q = true)

/-- The per-symbol loop of `NFA.simulate`: move, epsilon-close, reject as
soon as the active set is empty, and accept at the end iff the active set
contains an accepting state. -/
def simulateFrom (nfa : NFAAut) (S : Finset Nat) : List Char → Bool
  | [] => containsFinal nfa S
  | c :: cs =>
      let S2 := epsilon_closure nfa (moveSet nfa S c)
      if S2 = ∅ then false else simulateFrom nfa S2 cs

/-- `NFA.simulate`: start from the epsilon closure of the start state. -/
def NFAAut.simulate (nfa : NFAAut) (w : List Char) : Bool :=
  simulateFrom nfa (epsilon_closure nfa {nfa.start}) w

/-- Modelled from the spec (§4.3, for claim C10): the same simulation
without the early empty-set rejection — run the move/epsilon-close step over
the whole input and test for an accepting state only at the end. -/
def simulateNoShortcut (nfa : NFAAut) (w : List Char) : Bool :=
  containsFinal nfa
    (w.foldl (fun S c => epsilon_closure nfa (moveSet nfa S c))
      (epsilon_closure nfa {nfa.start}))

/-! ### Thompson construction: `thompson_builder.py` -/

/-- The mutable builder state: the arena of states created so far and the
id counter (`ThompsonNFABuilder.state_counter`). -/
structure BuildSt where
  arena : List NFAStateRec
  counter : Nat
deriving DecidableEq

/-- `ThompsonNFABuilder.new_state`: create a state with the next id. -/
def newState (st : BuildSt) (fin : Bool) : BuildSt × Nat :=
  ({ arena := st.arena ++ [⟨st.counter, fin, [], []⟩], counter := st.counter + 1 },
   st.counter)

/-- Appending a target to the entry of symbol `c` in a transition map
(`defaultdict(set).add`; sets become lists read extensionally). -/
def addToTrans (l : List (Char × List Nat)) (c : Char) (t : Nat) : List (Char × List Nat) :=
  match l with
  | [] => [(c, [t])]
  | (c', ts) :: rest =>
      if c' == c then (c', ts ++ [t]) :: rest else (c', ts) :: addToTrans rest c t

/-- `NFAState.add_transition` on the arena: an `'ε'` symbol goes to the
state's `epsilon_transitions`, anything else to its per-symbol map. -/
def addTransitionA (arena : List NFAStateRec) (q : Nat) (c : Char) (t : Nat) :
    List NFAStateRec :=
  arena.map (fun s =>
    if s.id == q then
      if c == 'ε' then { s with epsilon_transitions := s.epsilon_transitions ++ [t] }
      else { s with transitions := addToTrans s.transitions c t }
    else s)

/-- Clearing the `is_final` flag of a state (`state.is_final = False`). -/
def setNonFinal (arena : List NFAStateRec) (q : Nat) : List NFAStateRec :=
  arena.map (fun s => if s.id == q then { s with is_final := false } else s)

/-- `ThompsonNFABuilder._build_nfa_recursive`, dispatching like the source:
operands build a basic NFA; otherwise the node's `value` selects
concatenation (`.`), union (`|`) or Kleene star (`*`); any other shape is
the `ValueError` path (`none`), as is a binary operator node missing a
child.  Returns the updated builder state with the sub-NFA's start and
final ids. -/
def build_rec : ASTNode → BuildSt → Option (BuildSt × Nat × Nat)
  | ASTNode.operand v, st =>
      -- `_build_basic_nfa`: start --v--> final (routed to the epsilon set
      -- when v = 'ε' by `add_transition`).
      let (st1, s) := newState st false
      let (st2, f) := newState st1 true
      some ({ st2 with arena := addTransitionA st2.arena s v f }, s, f)
  | ASTNode.unary_op v child, st =>
      if v = '.' ∨ v = '|' then none
      else if v = '*' then
        -- `_build_kleene_nfa` on the single child.
        match build_rec child st with
        | none => none
        | some (st1, s1, f1) =>
            let (st2, ns) := newState st1 false
            let (st3, nf) := newState st2 true
            let ar := addTransitionA st3.arena ns 'ε' nf
            let ar := addTransitionA ar ns 'ε' s1
            let ar := addTransitionA ar f1 'ε' nf
            let ar := addTransitionA ar f1 'ε' s1
            let ar := setNonFinal ar f1
            some ({ st3 with arena := ar }, ns, nf)
      else none
  | ASTNode.binary_op v l r, st =>
      if v = '.' then
        -- `_build_concatenation_nfa`.
        match build_rec l st with
        | none => none
        | some (st1, s1, f1) =>
            match build_rec r st1 with
            | none => none
            | some (st2, s2, f2) =>
                let ar := setNonFinal st2.arena f1
                let ar := addTransitionA ar f1 'ε' s2
                some ({ st2 with arena := ar }, s1, f2)
      else if v = '|' then
        -- `_build_union_nfa`.
        match build_rec l st with
        | none => none
        | some (st1, s1, f1) =>
            match build_rec r st1 with
            | none => none
            | some (st2, s2, f2) =>
                let (st3, ns) := newState st2 false
                let (st4, nf) := newState st3 true
                let ar := addTransitionA st4.arena ns 'ε' s1
                let ar := addTransitionA ar ns 'ε' s2
                let ar := setNonFinal ar f1
                let ar := setNonFinal ar f2
                let ar := addTransitionA ar f1 'ε' nf
                let ar := addTransitionA ar f2 'ε' nf
                some ({ st4 with arena := ar }, ns, nf)
      else if v = '*' then
        -- value-first dispatch: a binary node tagged `*` recurses on `left`.
        match build_rec l st with
        | none => none
        | some (st1, s1, f1) =>
            let (st2, ns) := newState st1 false
            let (st3, nf) := newState st2 true
            let ar := addTransitionA st3.arena ns 'ε' nf
            let ar := addTransitionA ar ns 'ε' s1
            let ar := addTransitionA ar f1 'ε' nf
            let ar := addTransitionA ar f1 'ε' s1
            let ar := setNonFinal ar f1
            some ({ st3 with arena := ar }, ns, nf)
      else none

/-- `ThompsonNFABuilder.build_nfa_from_ast`: reset the counter (a fresh
builder state) and build recursively. -/
def build_nfa_from_ast (ast : ASTNode) : Option NFAAut :=
  match build_rec ast ⟨[], 0⟩ with
  | some (st, s, f) => some ⟨st.arena, s, f⟩
  | none => none

/-! ### DFA model: `dfa_classes.py` -/

/-- `DFAState`: id, finality, and a single target per symbol (the
`nfa_states` origin field is construction/debug data and not part of the
language-defining structure, so it is not carried). -/
structure DFAStateRec where
  id : Nat
  is_final : Bool
  transitions : List (Char × Nat)
deriving DecidableEq

/-- `DFA`: start state id over an arena of states; `states`, `alphabet` and
`final_states` are derived by traversal (`_collect_info`) on demand. -/
structure DFAAut where
  arena : List DFAStateRec
  start : Nat
deriving DecidableEq

/-- Resolving a DFA state id in the arena. -/
def dLookup (arena : List DFAStateRec) (q : Nat) : Option DFAStateRec :=
  arena.find? (fun s => s.id == q)

/-- `DFAState.get_transition_for_symbol`: `transitions.get(symbol)`. -/
def dTransOf (dfa : DFAAut) (q : Nat) (c : Char) : Option Nat :=
  match dLookup dfa.arena q with
  | some s =>
      match s.transitions.find? (fun p => p.1 == c) with
      | some p => some p.2
      | none => none
  | none => none

/-- The `is_final` flag of a DFA state. -/
def dIsFinal (dfa : DFAAut) (q : Nat) : Bool :=
  match dLookup dfa.arena q with
  | some s => s.is_final
  | none => false

/-- All transition targets of one DFA state. -/
def dSucc (dfa : DFAAut) (q : Nat) : List Nat :=
  match dLookup dfa.arena q with
  | some s => s.transitions.map (fun p => p.2)
  | none => []

/-- Every id appearing as a transition target in the DFA arena. -/
def dAllTargets (dfa : DFAAut) : Finset Nat :=
  ((dfa.arena.map (fun s => s.transitions.map (fun p => p.2))).join).toFinset

/-- `DFA.states` as computed by `_collect_info` (and, identically, by
`DFAMinimizer._get_reachable_states`): all states reachable from `start`. -/
def DFAAut.statesF (dfa : DFAAut) : Finset Nat :=
  iterStep (dSucc dfa) (({dfa.start} ∪ dAllTargets dfa).card) {dfa.start}

/-- `DFA.alphabet` as collected by `_collect_info`: all transition symbols
of reachable states. -/
def dAlphabet (dfa : DFAAut) : Finset Char :=
  (dfa.statesF).biUnion (fun q =>
    match dLookup dfa.arena q with
    | some s => (s.transitions.map (fun p => p.1)).toFinset
    | none => ∅)

/-- `DFA.final_states` as recomputed by `_collect_info`. -/
def dFinalStates (dfa : DFAAut) : Finset Nat :=
  (dfa.statesF).filter (fun q => dIsFinal dfa q = true)

/-- The per-symbol loop of `DFA.simulate`: follow the unique transition,
rejecting when none exists; accept iff the last state is final. -/
def dSimulateFrom (dfa : DFAAut) (q : Nat) : List Char → Bool
  | [] => dIsFinal dfa q
  | c :: cs =>
      match dTransOf dfa q c with
      | none => false
      | some q2 => dSimulateFrom dfa q2 cs

/-- `DFA.simulate`. -/
def DFAAut.simulate (dfa : DFAAut) (w : List Char) : Bool :=
  dSimulateFrom dfa dfa.start w

/-! ### Sorted iteration over finite sets

Python iterates `sorted(set)` in several places.  The ascending enumeration
of a `Finset Nat` (respectively of a `Finset Char` through its code points)
is extracted by filtering an initial segment of `ℕ`, which computes by
structural recursion. -/

/-- The members of a `Finset Nat` in ascending order. -/
def sortedNats (s : Finset Nat) : List Nat :=
  (List.range (s.sup id + 1)).filter (fun q => decide (q ∈ s))

/-- The members of a `Finset Char` in ascending code-point order. -/
def sortedChars (s : Finset Char) : List Char :=
  ((List.range (s.sup (fun c => c.toNat) + 1)).filter
    (fun n => decide (Nat.isValidChar n) && decide (Char.ofNat n ∈ s))).map Char.ofNat

/-! ### State identity (`__eq__`/`__hash__` of `NFAState` and `DFAState`) -/

/-- `NFAState.__eq__`: equality is decided by the `id` field alone. -/
def NFAState_eq (s t : NFAStateRec) : Bool := s.id == t.id

/-- `NFAState.__hash__`: `hash(self.id)`, modelled as the id itself. -/
def NFAState_hash (s : NFAStateRec) : Nat := s.id

/-- `DFAState.__eq__`: equality is decided by the `id` field alone. -/
def DFAState_eq (s t : DFAStateRec) : Bool := s.id == t.id

/-- `DFAState.__hash__`: `hash(self.id)`, modelled as the id itself. -/
def DFAState_hash (s : DFAStateRec) : Nat := s.id

/-- Membership of an `NFAState` in a collection of states as Python's
`in` decides it, through `__eq__`. -/
def pyMemN (s : NFAStateRec) (l : List NFAStateRec) : Bool :=
  l.any (fun t => NFAState_eq t s)

/-- Membership of a `DFAState` in a collection of states through
`__eq__`. -/
def pyMemD (s : DFAStateRec) (l : List DFAStateRec) : Bool :=
  l.any (fun t => DFAState_eq t s)

/-! ### Subset construction: `subset_construction.py` -/

/-- A sorted list of the NFA's alphabet (`for symbol in sorted(alphabet)`). -/
def sortedAlphabet (nfa : NFAAut) : List Char :=
  sortedChars (get_alphabet nfa)

/-- One subset-construction move: the epsilon closure of the union of the
per-state transitions, empty when the union is empty. -/
def subsetStep (nfa : NFAAut) (S : Finset Nat) (c : Char) : Finset Nat :=
  let U := moveSet nfa S c
  if U = ∅ then ∅ else epsilon_closure nfa U

/-- The mutable state of `SubsetConstructor.nfa_to_dfa`: the
subset-to-DFA-state map (`subset_to_dfa_state`, keeping insertion order;
each entry records the subset, the assigned id and its finality), the id
counter, the completed DFA state records, and the processed subsets. -/
structure SubsetCtx where
  table : List (Finset Nat × Nat × Bool)
  counter : Nat
  doneList : List DFAStateRec
  processed : List (Finset Nat)
deriving DecidableEq

/-- Lookup in `subset_to_dfa_state` (keyed by `frozenset` equality, which
is `Finset` equality). -/
def lookupTable (t : List (Finset Nat × Nat × Bool)) (S : Finset Nat) :
    Option (Nat × Bool) :=
  (t.find? (fun e => e.1 == S)).map (fun e => e.2)

/-- The inner `for symbol in sorted(alphabet)` loop processing one subset
`S`: for each symbol compute `subsetStep`; skip empty results; look up or
create the target DFA state (newly created subsets are appended to the
table and to the pending-queue additions); record the transition. -/
def subsetSymbols (nfa : NFAAut) (S : Finset Nat) :
    List Char → SubsetCtx → List (Finset Nat) → List (Char × Nat) →
    SubsetCtx × List (Finset Nat) × List (Char × Nat)
  | [], ctx, adds, acc => (ctx, adds, acc)
  | c :: cs, ctx, adds, acc =>
      let T := subsetStep nfa S c
      if T = ∅ then subsetSymbols nfa S cs ctx adds acc
      else
        match lookupTable ctx.table T with
        | some (tid, _) => subsetSymbols nfa S cs ctx adds (acc ++ [(c, tid)])
        | none =>
            let fin := containsFinal nfa T
            let tid := ctx.counter
            subsetSymbols nfa S cs
              { ctx with table := ctx.table ++ [(T, tid, fin)], counter := ctx.counter + 1 }
              (adds ++ [T]) (acc ++ [(c, tid)])

/-- The work-queue loop of `nfa_to_dfa` (fuel-indexed; `subset_dfa_total`
below proves the fuel chosen in `nfa_to_dfa` always suffices): pop a
subset, skip it if already processed, otherwise process every alphabet
symbol, emit the completed DFA state record, and append newly created
subsets to the queue. -/
def subsetLoop (nfa : NFAAut) (alpha : List Char) :
    Nat → SubsetCtx → List (Finset Nat) → Option SubsetCtx
  | 0, _, _ => none
  | _ + 1, ctx, [] => some ctx
  | fuel + 1, ctx, S :: rest =>
      if S ∈ ctx.processed then subsetLoop nfa alpha fuel ctx rest
      else
        match lookupTable ctx.table S with
        | none => none  -- unreachable: every queued subset is in the table
        | some (sid, sfin) =>
            let (ctx1, adds, acc) := subsetSymbols nfa S alpha ctx [] []
            subsetLoop nfa alpha fuel
              { ctx1 with
                  doneList := ctx1.doneList ++ [⟨sid, sfin, acc⟩],
                  processed := ctx1.processed ++ [S] }
              (rest ++ adds)

/-- `SubsetConstructor.nfa_to_dfa`: seed the map and queue with the epsilon
closure of the NFA start state (DFA state 0) and run the work-queue loop;
the fuel `1 + 2 ^ |NFA.states|` is proved sufficient in
`subset_dfa_total`. -/
def nfa_to_dfa (nfa : NFAAut) : Option DFAAut :=
  let S0 := epsilon_closure nfa {nfa.start}
  let ctx0 : SubsetCtx := ⟨[(S0, 0, containsFinal nfa S0)], 1, [], []⟩
  match subsetLoop nfa (sortedAlphabet nfa) (1 + 2 ^ (NFAAut.statesF nfa).card) ctx0 [S0] with
  | some ctx => some ⟨ctx.doneList, 0⟩
  | none => none

/-! ### Invariants of the subset-construction loop (used by the proofs) -/

/-- An NFA whose per-symbol transition maps never use the key `'ε'` — true
of every arena built through `NFAState.add_transition`, which routes `'ε'`
to the separate `epsilon_transitions` set. -/
def epsFree (nfa : NFAAut) : Prop :=
  ∀ s ∈ nfa.arena, ∀ p ∈ s.transitions, p.1 ≠ 'ε'

/-- The same property of a bare arena (used while the builder is running). -/
def arenaEpsFree (arena : List NFAStateRec) : Prop :=
  ∀ s ∈ arena, ∀ p ∈ s.transitions, p.1 ≠ 'ε'

/-- The subsets registered in the subset-to-DFA-state map. -/
def tableKeys (t : List (Finset Nat × Nat × Bool)) : List (Finset Nat) :=
  t.map (fun e => e.1)

/-- Well-formedness of the subset map: every registered subset is a set of
reachable NFA states with the correct finality flag and an id below the
counter; subsets and ids are pairwise distinct. -/
def CtxWF (nfa : NFAAut) (ctx : SubsetCtx) : Prop :=
  (∀ e ∈ ctx.table, e.1 ⊆ NFAAut.statesF nfa ∧ e.2.2 = containsFinal nfa e.1 ∧
    e.2.1 < ctx.counter) ∧
  (tableKeys ctx.table).Nodup ∧
  (ctx.table.map (fun e => e.2.1)).Nodup

/-- Correctness of one completed DFA state record for the subset `S`: its
finality matches, it has no transition outside the alphabet, and per
alphabet symbol it has exactly the transition prescribed by `subsetStep`
(none when the step is empty, otherwise the id registered for the target
subset). -/
def RecOk (nfa : NFAAut) (alpha : List Char) (table : List (Finset Nat × Nat × Bool))
    (S : Finset Nat) (rec : DFAStateRec) : Prop :=
  rec.is_final = containsFinal nfa S ∧
  (∀ c, c ∉ alpha → rec.transitions.find? (fun p => p.1 == c) = none) ∧
  (∀ c ∈ alpha,
    (subsetStep nfa S c = ∅ → rec.transitions.find? (fun p => p.1 == c) = none) ∧
    (subsetStep nfa S c ≠ ∅ →
      ∃ i b, lookupTable table (subsetStep nfa S c) = some (i, b) ∧
        rec.transitions.find? (fun p => p.1 == c) = some (c, i)))

/-- The invariant of the work-queue loop: the map is well-formed, processed
subsets are unrepeated map keys with one completed record each, queued
subsets are map keys, and every map key is processed or queued. -/
def LoopInv (nfa : NFAAut) (alpha : List Char) (ctx : SubsetCtx)
    (queue : List (Finset Nat)) : Prop :=
  CtxWF nfa ctx ∧
  ctx.processed.Nodup ∧
  ctx.doneList.length = ctx.processed.length ∧
  (∀ S ∈ ctx.processed, S ∈ tableKeys ctx.table) ∧
  (∀ S ∈ queue, S ∈ tableKeys ctx.table) ∧
  (∀ S ∈ tableKeys ctx.table, S ∈ ctx.processed ∨ S ∈ queue) ∧
  (∀ rec ∈ ctx.doneList, ∃ S, S ∈ ctx.processed ∧
    lookupTable ctx.table S = some (rec.id, rec.is_final)) ∧
  (∀ S ∈ ctx.processed, ∃ i b, lookupTable ctx.table S = some (i, b) ∧
    ∃ rec, dLookup ctx.doneList i = some rec ∧ rec.id = i ∧
      RecOk nfa alpha ctx.table S rec)

/-! ### DFA minimization: `dfa_minimization.py`

Partitions are lists of blocks (`Finset Nat`).  Where the Python iterates
over a `set` in unspecified order (choosing group order inside
`_refine_partition` and the `next(iter(partition))` sample in
`_build_minimized_dfa`), the embedding iterates in sorted-id order; the
grouping itself is order-independent and, at the refinement fixpoint, all
members of a block agree on the data read off the sample. -/

/-- The index of the first block containing `t` (the linear scan in
`_refine_partition`; `None` when `t` is in no block). -/
def partIndexOf (parts : List (Finset Nat)) (t : Nat) : Option Nat :=
  ((parts.enum).find? (fun e => decide (t ∈ e.2))).map (fun e => e.1)

/-- The transition signature of a state: per alphabet symbol, the block of
the transition target (`None` for a missing transition, and also for a
target in no block, exactly as in the source). -/
def signatureOf (dfa : DFAAut) (parts : List (Finset Nat)) (alpha : List Char)
    (q : Nat) : List (Option Nat) :=
  alpha.map (fun c =>
    match dTransOf dfa q c with
    | none => none
    | some t => partIndexOf parts t)

/-- Adding a state to the group of its signature
(`transition_signatures[signature_tuple].add(state)`), new signatures in
first-appearance order. -/
def insertSig (sig : List (Option Nat)) (q : Nat) :
    List (List (Option Nat) × Finset Nat) → List (List (Option Nat) × Finset Nat)
  | [] => [(sig, {q})]
  | (s, grp) :: rest =>
      if s == sig then (s, insert q grp) :: rest
      else (s, grp) :: insertSig sig q rest

/-- `DFAMinimizer._refine_partition`: group the block's states by
signature. -/
def refine_partition (dfa : DFAAut) (block : Finset Nat)
    (parts : List (Finset Nat)) (alpha : List Char) : List (Finset Nat) :=
  if block.card = 1 then [block]
  else
    ((sortedNats block).foldl
      (fun groups q => insertSig (signatureOf dfa parts alpha q) q groups) []).map
      (fun e => e.2)

/-- One pass of the refinement loop: singleton blocks are kept, larger
blocks are refined; `changed` records whether any block split. -/
def refinePass (dfa : DFAAut) (alpha : List Char) (parts : List (Finset Nat)) :
    List (Finset Nat) × Bool :=
  parts.foldl
    (fun acc part =>
      if part.card = 1 then (acc.1 ++ [part], acc.2)
      else
        let sub := refine_partition dfa part parts alpha
        (acc.1 ++ sub, acc.2 || decide (1 < sub.length)))
    ([], false)

/-- The `while True` refinement loop of `minimize_dfa` (fuel-indexed; the
fuel chosen in `minimize_dfa` is proved sufficient for reaching the
fixpoint in the lemmas below). -/
def refineLoop (dfa : DFAAut) (alpha : List Char) :
    Nat → List (Finset Nat) → List (Finset Nat)
  | 0, parts => parts
  | fuel + 1, parts =>
      let next := refinePass dfa alpha parts
      if next.2 then refineLoop dfa alpha fuel next.1 else next.1

/-- The member from which a block's transitions are read
(`next(iter(partition))`, fixed here to the least id). -/
def sampleOf (B : Finset Nat) : Nat :=
  (sortedNats B).headD 0

/-- `DFAMinimizer._build_minimized_dfa`: one representative state per block
(ids in block order), final iff any member is final, transitions read from
the sample member and redirected to block representatives. -/
def build_minimized_dfa (dfa : DFAAut) (parts : List (Finset Nat)) : DFAAut :=
  { arena := parts.enum.map (fun e =>
      ({ id := e.1
         is_final := decide (∃ q ∈ e.2, dIsFinal dfa q = true)
         transitions := (sortedChars (dAlphabet dfa)).filterMap (fun c =>
           match dTransOf dfa (sampleOf e.2) c with
           | none => none
           | some t =>
               match partIndexOf parts t with
               | some j => some (c, j)
               | none => none) } : DFAStateRec))
    start := (partIndexOf parts dfa.start).getD 0 }

/-- Structural recursion equation for `partIndexOf` (proved equal to it in
`partIndexOf_eq_rec`), used by the proofs below. -/
def partIdxRec : List (Finset Nat) → Nat → Option Nat
  | [], _ => none
  | B :: rest, t =>
      if t ∈ B then some 0 else (partIdxRec rest t).map (fun j => j + 1)

/-- The invariant of the refinement loop: blocks are nonempty, pairwise
disjoint, cover exactly the reachable states, and are homogeneous in
finality. -/
def PartsInv (dfa : DFAAut) (parts : List (Finset Nat)) : Prop :=
  (∀ B ∈ parts, B.Nonempty) ∧
  parts.Pairwise (fun A B => ∀ x, x ∈ A → x ∈ B → False) ∧
  (∀ B ∈ parts, ∀ q ∈ B, q ∈ DFAAut.statesF dfa) ∧
  (∀ q ∈ DFAAut.statesF dfa, ∃ B ∈ parts, q ∈ B) ∧
  (∀ B ∈ parts, ∀ q ∈ B, ∀ q' ∈ B, dIsFinal dfa q = dIsFinal dfa q')

/-- Stability of a partition: all members of one block share their
transition signature. -/
def Stable (dfa : DFAAut) (alpha : List Char) (parts : List (Finset Nat)) : Prop :=
  ∀ B ∈ parts, ∀ q ∈ B, ∀ q' ∈ B,
    signatureOf dfa parts alpha q = signatureOf dfa parts alpha q'

/-- Two states lie in one common block. -/
def sameBlock (parts : List (Finset Nat)) (q q' : Nat) : Prop :=
  ∃ B ∈ parts, q ∈ B ∧ q' ∈ B

/-- Index-free stability of a partition-like family of blocks: states of a
common block agree, per symbol, on whether a transition exists, and their
targets again share a block. -/
def RelStable (dfa : DFAAut) (P : List (Finset Nat)) : Prop :=
  ∀ q q', sameBlock P q q' → ∀ c,
    (dTransOf dfa q c = none ↔ dTransOf dfa q' c = none) ∧
    (∀ t t', dTransOf dfa q c = some t → dTransOf dfa q' c = some t' →
      sameBlock P t t')

/-- One family of blocks refines another: states sharing a `Q`-block share
a `P`-block. -/
def Refines (Q P : List (Finset Nat)) : Prop :=
  ∀ q q', sameBlock Q q q' → sameBlock P q q'

/-- `DFAMinimizer.minimize_dfa`: return DFAs with at most one state
unchanged; otherwise restrict to reachable states, refine the
final/non-final partition to a fixpoint, and build the quotient DFA. -/
def minimize_dfa (dfa : DFAAut) : DFAAut :=
  if (DFAAut.statesF dfa).card ≤ 1 then dfa
  else
    let reach := DFAAut.statesF dfa
    let finals := reach.filter (fun q => dIsFinal dfa q = true)
    let nonfinals := reach \ finals
    let p0 := (if nonfinals = ∅ then [] else [nonfinals]) ++
              (if finals = ∅ then [] else [finals])
    build_minimized_dfa dfa
      (refineLoop dfa (sortedChars (dAlphabet dfa)) (reach.card + 1) p0)

/-! ## Theorems

### Bounded iteration computes the worklist fixpoint -/

theorem mem_stepWith {f : Nat → List Nat} {X : Finset Nat} {q : Nat} :
    q ∈ stepWith f X ↔ q ∈ X ∨ ∃ p ∈ X, q ∈ f p := by
  simp [stepWith]

theorem subset_stepWith (f : Nat → List Nat) (X : Finset Nat) : X ⊆ stepWith f X :=
  Finset.subset_union_left

theorem stepWith_subset_of_closed {f : Nat → List Nat} {C X : Finset Nat}
    (hX : X ⊆ C) (hC : ∀ q ∈ C, ∀ t ∈ f q, t ∈ C) : stepWith f X ⊆ C := by
  intro q hq
  rcases mem_stepWith.mp hq with h | ⟨p, hp, hqf⟩
  · exact hX h
  · exact hC p (hX hp) q hqf

theorem iterStep_subset_of_closed {f : Nat → List Nat} {C X : Finset Nat}
    (hX : X ⊆ C) (hC : ∀ q ∈ C, ∀ t ∈ f q, t ∈ C) (b : Nat) :
    iterStep f b X ⊆ C := by
  induction b with
  | zero => exact hX
  | succ b ih =>
      show (stepWith f)^[b + 1] X ⊆ C
      rw [Function.iterate_succ_apply']
      exact stepWith_subset_of_closed ih hC

theorem subset_iterStep (f : Nat → List Nat) (b : Nat) (X : Finset Nat) :
    X ⊆ iterStep f b X := by
  induction b with
  | zero => exact Finset.Subset.refl X
  | succ b ih =>
      show X ⊆ (stepWith f)^[b + 1] X
      rw [Function.iterate_succ_apply']
      exact ih.trans (subset_stepWith f _)

theorem iterStep_subset_union {f : Nat → List Nat} {T : Finset Nat}
    (hf : ∀ q, ∀ t ∈ f q, t ∈ T) (b : Nat) (X : Finset Nat) :
    iterStep f b X ⊆ X ∪ T :=
  iterStep_subset_of_closed Finset.subset_union_left
    (fun q _ t ht => Finset.mem_union_right _ (hf q t ht)) b

theorem iterStep_isFix {f : Nat → List Nat} {T : Finset Nat}
    (hf : ∀ q, ∀ t ∈ f q, t ∈ T) (X : Finset Nat) :
    stepWith f (iterStep f ((X ∪ T).card) X) = iterStep f ((X ∪ T).card) X := by
  by_cases hex : ∃ j ≤ (X ∪ T).card, (stepWith f)^[j] X = (stepWith f)^[j + 1] X
  · obtain ⟨j, hjB, hj⟩ := hex
    have hfix : stepWith f ((stepWith f)^[j] X) = (stepWith f)^[j] X := by
      rw [← Function.iterate_succ_apply' (stepWith f) j X]
      exact hj.symm
    have hstab : (stepWith f)^[(X ∪ T).card] X = (stepWith f)^[j] X := by
      conv_lhs => rw [show (X ∪ T).card = ((X ∪ T).card - j) + j by omega]
      rw [Function.iterate_add_apply]
      exact Function.iterate_fixed hfix _
    show stepWith f ((stepWith f)^[(X ∪ T).card] X) = (stepWith f)^[(X ∪ T).card] X
    rw [hstab, hfix]
  · push_neg at hex
    have grow : ∀ k, k ≤ (X ∪ T).card + 1 → X.card + k ≤ ((stepWith f)^[k] X).card := by
      intro k
      induction k with
      | zero => simp
      | succ k ih =>
          intro hk
          have h1 := ih (by omega)
          have hne := hex k (by omega)
          have hsub : (stepWith f)^[k] X ⊆ (stepWith f)^[k + 1] X := by
            rw [Function.iterate_succ_apply']
            exact subset_stepWith f _
          have hlt : ((stepWith f)^[k] X).card < ((stepWith f)^[k + 1] X).card :=
            Finset.card_lt_card (Finset.ssubset_iff_subset_ne.mpr ⟨hsub, hne⟩)
          omega
    have hb : (((stepWith f)^[(X ∪ T).card + 1]) X).card ≤ (X ∪ T).card :=
      Finset.card_le_card (iterStep_subset_union hf ((X ∪ T).card + 1) X)
    have := grow ((X ∪ T).card + 1) le_rfl
    omega

/-! ### Epsilon closure -/

theorem epsOf_mem_epsTargets (nfa : NFAAut) (q : Nat) :
    ∀ t ∈ epsOf nfa q, t ∈ epsTargets nfa := by
  intro t ht
  unfold epsOf at ht
  cases hfind : lookupState nfa.arena q with
  | none => rw [hfind] at ht; simp at ht
  | some s =>
      rw [hfind] at ht
      have hs : s ∈ nfa.arena := List.mem_of_find?_eq_some hfind
      simp only [epsTargets, List.mem_toFinset, List.mem_join]
      exact ⟨s.epsilon_transitions, List.mem_map_of_mem _ hs, ht⟩

theorem epsilon_closure_isFix (nfa : NFAAut) (S : Finset Nat) :
    stepWith (epsOf nfa) (epsilon_closure nfa S) = epsilon_closure nfa S :=
  iterStep_isFix (epsOf_mem_epsTargets nfa) S

theorem subset_epsilon_closure (nfa : NFAAut) (S : Finset Nat) :
    S ⊆ epsilon_closure nfa S :=
  subset_iterStep _ _ S

theorem epsilon_closure_closed (nfa : NFAAut) {S : Finset Nat} {q t : Nat}
    (hq : q ∈ epsilon_closure nfa S) (ht : t ∈ epsOf nfa q) :
    t ∈ epsilon_closure nfa S := by
  have : t ∈ stepWith (epsOf nfa) (epsilon_closure nfa S) :=
    mem_stepWith.mpr (Or.inr ⟨q, hq, ht⟩)
  rwa [epsilon_closure_isFix] at this

theorem epsilon_closure_subset_of_closed (nfa : NFAAut) {S C : Finset Nat}
    (hS : S ⊆ C) (hC : ∀ q ∈ C, ∀ t ∈ epsOf nfa q, t ∈ C) :
    epsilon_closure nfa S ⊆ C :=
  iterStep_subset_of_closed hS hC _

theorem stepWith_empty (f : Nat → List Nat) : stepWith f ∅ = ∅ := by
  simp [stepWith]

theorem epsilon_closure_empty (nfa : NFAAut) : epsilon_closure nfa ∅ = ∅ :=
  Function.iterate_fixed (stepWith_empty (epsOf nfa)) _

theorem epsilon_closure_idem (nfa : NFAAut) (S : Finset Nat) :
    epsilon_closure nfa (epsilon_closure nfa S) = epsilon_closure nfa S :=
  Function.iterate_fixed (epsilon_closure_isFix nfa S) _

/-! ### NFA simulation: the early-rejection shortcut -/

theorem containsFinal_empty (nfa : NFAAut) : containsFinal nfa ∅ = false := by
  simp [containsFinal]

theorem moveSet_empty (nfa : NFAAut) (c : Char) : moveSet nfa ∅ c = ∅ := by
  simp [moveSet]

theorem foldl_simStep_empty (nfa : NFAAut) (cs : List Char) :
    cs.foldl (fun S c => epsilon_closure nfa (moveSet nfa S c)) ∅ = ∅ := by
  induction cs with
  | nil => rfl
  | cons c cs ih => simpa [moveSet_empty, epsilon_closure_empty] using ih

theorem simulateFrom_eq_foldl (nfa : NFAAut) (w : List Char) (S : Finset Nat) :
    simulateFrom nfa S w =
      containsFinal nfa
        (w.foldl (fun S c => epsilon_closure nfa (moveSet nfa S c)) S) := by
  induction w generalizing S with
  | nil => rfl
  | cons c cs ih =>
      show (if epsilon_closure nfa (moveSet nfa S c) = ∅ then false
            else simulateFrom nfa (epsilon_closure nfa (moveSet nfa S c)) cs) = _
      by_cases h : epsilon_closure nfa (moveSet nfa S c) = ∅
      · simp [h, foldl_simStep_empty, containsFinal_empty]
      · simp only [if_neg h, List.foldl_cons, ih]

/-! ### Claims C4, C10, C9 -/

/-- C4: Epsilon-closure is idempotent: for every NFA and every set `S` of
its states, `epsilon_closure (epsilon_closure S) = epsilon_closure S`
(the closure is a fixpoint of the enlargement step, so closing it again
adds nothing; this in fact holds for arbitrary `S`). -/
theorem c4_epsilon_closure_idempotent (nfa : NFAAut) (S : Finset Nat)
    (_hS : S ⊆ NFAAut.statesF nfa) :
    epsilon_closure nfa (epsilon_closure nfa S) = epsilon_closure nfa S :=
  epsilon_closure_idem nfa S

/-- Witness for C4 on the Thompson NFA of the regex `a` and the state set
`{0}`. -/
theorem c4_witness :
    ({0} : Finset Nat) ⊆
      NFAAut.statesF ⟨[⟨0, false, [('a', [1])], []⟩, ⟨1, true, [], []⟩], 0, 1⟩ ∧
    epsilon_closure ⟨[⟨0, false, [('a', [1])], []⟩, ⟨1, true, [], []⟩], 0, 1⟩
        (epsilon_closure ⟨[⟨0, false, [('a', [1])], []⟩, ⟨1, true, [], []⟩], 0, 1⟩ {0}) =
      epsilon_closure ⟨[⟨0, false, [('a', [1])], []⟩, ⟨1, true, [], []⟩], 0, 1⟩ {0} :=
  ⟨by decide, c4_epsilon_closure_idempotent _ {0} (by decide)⟩

/-- C10: The early-rejection shortcut in `NFA.simulate` is sound: the empty
active set is a fixpoint of the move-then-close step and contains no
accepting state, so simulation with the early `return False` agrees with
running the per-symbol loop over the whole input and checking for an
accepting state only at the end. -/
theorem c10_early_rejection_sound (nfa : NFAAut) (w : List Char) :
    NFAAut.simulate nfa w = simulateNoShortcut nfa w :=
  simulateFrom_eq_foldl nfa w _

/-- C9: state identity is decided by the integer id alone: `__eq__` (and
hence set membership) and `__hash__` of `NFAState` and `DFAState` depend
only on the `id` field, so two states with equal ids are interchangeable as
elements of state sets even when their transitions or finality differ. -/
theorem c9_state_identity_by_id :
    (∀ s t : NFAStateRec, NFAState_eq s t = true ↔ s.id = t.id) ∧
    (∀ s t : DFAStateRec, DFAState_eq s t = true ↔ s.id = t.id) ∧
    (∀ s t : NFAStateRec, s.id = t.id →
      NFAState_hash s = NFAState_hash t ∧ ∀ l, pyMemN s l = pyMemN t l) ∧
    (∀ s t : DFAStateRec, s.id = t.id →
      DFAState_hash s = DFAState_hash t ∧ ∀ l, pyMemD s l = pyMemD t l) := by
  refine ⟨fun s t => ?_, fun s t => ?_, fun s t h => ⟨h, fun l => ?_⟩,
    fun s t h => ⟨h, fun l => ?_⟩⟩
  · simp [NFAState_eq]
  · simp [DFAState_eq]
  · simp [pyMemN, NFAState_eq, h]
  · simp [pyMemD, DFAState_eq, h]

/-- Witness for C9: two `NFAState`s sharing id `0` but with different
finality and transitions are equal under `__eq__` and occupy the same role
in membership tests. -/
theorem c9_witness :
    NFAState_eq ⟨0, true, [], []⟩ ⟨0, false, [('a', [1])], [2]⟩ = true ∧
    pyMemN ⟨0, true, [], []⟩ [⟨0, false, [], []⟩] =
      pyMemN ⟨0, false, [('a', [1])], [2]⟩ [⟨0, false, [], []⟩] :=
  ⟨(c9_state_identity_by_id.1 _ _).mpr rfl,
   (c9_state_identity_by_id.2.2.1 ⟨0, true, [], []⟩ ⟨0, false, [('a', [1])], [2]⟩ rfl).2 _⟩

/-! ### Claims C2, C6, C7 (parser behavior) -/

/-- C2 counterexample: the regex `a)` has unbalanced parentheses, yet
`parse` silently returns an AST (the literal `a`): the unmatched `)` finds
no `(` on the operator stack and is dropped. -/
theorem c2_counterexample : parse "a)".toList = some (ASTNode.operand 'a') := by
  decide

/-- C2 amended: `parse` fails when an operator lacks a required operand
(in particular whenever the postfix sequence starts with an operator) and
when postfix evaluation does not end with exactly one node (which also
catches an unmatched `(`), but it does not fail on every unbalanced or
malformed input: an unmatched `)` is silently dropped and an unclosed `[`
is treated as literal text, so `parse` returns an AST for such regexes. -/
theorem c2_amended_error_detection :
    (∀ (t : Char) (rest : List Char),
      t = '*' ∨ t = '+' ∨ t = '?' ∨ t = '|' ∨ t = '.' →
      postfix_to_ast (t :: rest) = none) ∧
    parse "*a".toList = none ∧
    parse "a|".toList = none ∧
    parse "(a".toList = none ∧
    (parse "a)".toList).isSome = true ∧
    (parse "[ab".toList).isSome = true := by
  refine ⟨fun t rest h => ?_, by decide, by decide, by decide, by decide, by decide⟩
  rcases h with h | h | h | h | h <;> subst h <;> rfl

/-- Witness for C2 (amended): the general operator-first clause applied to
the concrete postfix sequence `* a`. -/
theorem c2_amended_witness : postfix_to_ast ['*', 'a'] = none :=
  c2_amended_error_detection.1 '*' ['a'] (Or.inl rfl)

/-- C6 counterexample: the escape `\*` does not yield the single literal
`*`: `_expand_escape_sequences` replaces it by the twelve-character marker
`STAR_LITERAL`, and the parsed expression is accordingly not the operand
`*`. -/
theorem c6_counterexample :
    expand_escape_sequences "\\*".toList = "STAR_LITERAL".toList ∧
    parse "\\*".toList ≠ some (ASTNode.operand '*') := by
  exact ⟨by decide, by decide⟩

/-- C6 amended: a backslash before `( ) { } [ ]` yields that character
textually (later phases then re-interpret parentheses as grouping); a
backslash before `* + ? |` yields the marker words `STAR_LITERAL`,
`PLUS_LITERAL`, `QUEST_LITERAL`, `PIPE_LITERAL` (tokenized later as
separate literal characters); a backslash before any other character
strips the backslash. -/
theorem c6_amended_escape_resolution :
    (∀ rest : List Char,
      expand_escape_sequences ('\\' :: '(' :: rest) = '(' :: expand_escape_sequences rest) ∧
    (∀ rest : List Char,
      expand_escape_sequences ('\\' :: ')' :: rest) = ')' :: expand_escape_sequences rest) ∧
    (∀ rest : List Char,
      expand_escape_sequences ('\\' :: '[' :: rest) = '[' :: expand_escape_sequences rest) ∧
    (∀ rest : List Char,
      expand_escape_sequences ('\\' :: ']' :: rest) = ']' :: expand_escape_sequences rest) ∧
    (∀ rest : List Char,
      expand_escape_sequences ('\\' :: '*' :: rest) =
        "STAR_LITERAL".toList ++ expand_escape_sequences rest) ∧
    (∀ rest : List Char,
      expand_escape_sequences ('\\' :: '+' :: rest) =
        "PLUS_LITERAL".toList ++ expand_escape_sequences rest) ∧
    (∀ rest : List Char,
      expand_escape_sequences ('\\' :: '?' :: rest) =
        "QUEST_LITERAL".toList ++ expand_escape_sequences rest) ∧
    (∀ rest : List Char,
      expand_escape_sequences ('\\' :: '|' :: rest) =
        "PIPE_LITERAL".toList ++ expand_escape_sequences rest) ∧
    (∀ (c : Char) (rest : List Char),
      c ∉ ['(', ')', Char.ofNat 123, Char.ofNat 125, '[', ']', '*', '+', '?', '|'] →
      expand_escape_sequences ('\\' :: c :: rest) = c :: expand_escape_sequences rest) := by
  refine ⟨fun rest => rfl, fun rest => rfl, fun rest => rfl, fun rest => rfl,
    fun rest => rfl, fun rest => rfl, fun rest => rfl, fun rest => rfl,
    fun c rest h => ?_⟩
  simp only [List.mem_cons, List.not_mem_nil, or_false, not_or] at h
  obtain ⟨h1, h2, h3, h4, h5, h6, h7, h8, h9, h10⟩ := h
  show escMap c ++ expand_escape_sequences rest = c :: expand_escape_sequences rest
  simp [escMap, h1, h2, h3, h4, h5, h6, h7, h8, h9, h10]

/-- Witness for C6 (amended): the stripped-backslash clause at `\n`, and a
marker clause at `\*`. -/
theorem c6_amended_witness :
    expand_escape_sequences ['\\', 'n'] = ['n'] ∧
    expand_escape_sequences ['\\', '*'] = "STAR_LITERAL".toList := by
  constructor
  · have h := (c6_amended_escape_resolution.2.2.2.2.2.2.2.2) 'n' [] (by decide)
    simpa using h
  · have h := (c6_amended_escape_resolution.2.2.2.2.1) []
    simpa using h

/-- C7 counterexample: the class range `!-#` is not expanded to the code
points between `!` and `#` (the endpoints are neither both letters nor both
digits); it stays as the three literal characters, and in particular the
intermediate code point `"` is absent. -/
theorem c7_counterexample :
    parse_character_class_content ['!', '-', '#'] = ['!', '-', '#'] ∧
    '"' ∉ parse_character_class_content ['!', '-', '#'] := by
  exact ⟨by decide, by decide⟩

/-- C7 amended: a class range `x-y` expands to one literal alternative per
code point from `x` to `y` inclusive only when both endpoints are letters
or both are digits; any other range is kept as the three literal characters
`x`, `-`, `y`.  In the expanding cases with `x ≤ y` both endpoints are
included. -/
theorem c7_amended_range_expansion :
    (∀ (c1 c2 : Char) (rest : List Char),
      (c1.isAlpha = true ∧ c2.isAlpha = true) ∨ (c1.isDigit = true ∧ c2.isDigit = true) →
      parse_character_class_content (c1 :: '-' :: c2 :: rest) =
        (List.range' c1.toNat (c2.toNat + 1 - c1.toNat)).map Char.ofNat ++
          parse_character_class_content rest) ∧
    (∀ (c1 c2 : Char) (rest : List Char),
      ¬((c1.isAlpha = true ∧ c2.isAlpha = true) ∨ (c1.isDigit = true ∧ c2.isDigit = true)) →
      parse_character_class_content (c1 :: '-' :: c2 :: rest) =
        c1 :: '-' :: c2 :: parse_character_class_content rest) ∧
    (∀ (c1 c2 : Char) (rest : List Char),
      (c1.isAlpha = true ∧ c2.isAlpha = true) ∨ (c1.isDigit = true ∧ c2.isDigit = true) →
      c1.toNat ≤ c2.toNat →
      c1 ∈ parse_character_class_content (c1 :: '-' :: c2 :: rest) ∧
      c2 ∈ parse_character_class_content (c1 :: '-' :: c2 :: rest)) := by
  have heq : ∀ (c1 c2 : Char) (rest : List Char),
      parse_character_class_content (c1 :: '-' :: c2 :: rest) =
        (if (c1.isAlpha && c2.isAlpha) || (c1.isDigit && c2.isDigit) then
          (List.range' c1.toNat (c2.toNat + 1 - c1.toNat)).map Char.ofNat
        else [c1, '-', c2]) ++ parse_character_class_content rest := by
    intro c1 c2 rest
    rfl
  refine ⟨fun c1 c2 rest h => ?_, fun c1 c2 rest h => ?_, fun c1 c2 rest h hle => ?_⟩
  · rw [heq, if_pos (by simpa using h)]
  · rw [heq, if_neg (by simpa using h)]
    rfl
  · rw [heq, if_pos (by simpa using h)]
    constructor
    · refine List.mem_append_left _ ?_
      refine List.mem_map.mpr ⟨c1.toNat, ?_, Char.ofNat_toNat c1⟩
      simp only [List.mem_range'_1]
      omega
    · refine List.mem_append_left _ ?_
      refine List.mem_map.mpr ⟨c2.toNat, ?_, Char.ofNat_toNat c2⟩
      simp only [List.mem_range'_1]
      omega

/-- Witness for C7 (amended): the expanding clause at `a-c`, the literal
clause at `!-#`, and endpoint inclusion for `a-c`. -/
theorem c7_amended_witness :
    parse_character_class_content ['a', '-', 'c', 'd'] =
      ['a', 'b', 'c'] ++ parse_character_class_content ['d'] ∧
    parse_character_class_content ['!', '-', '#'] =
      '!' :: '-' :: '#' :: parse_character_class_content [] ∧
    'a' ∈ parse_character_class_content ['a', '-', 'c'] := by
  refine ⟨?_, ?_, ?_⟩
  · have h := c7_amended_range_expansion.1 'a' 'c' ['d'] (Or.inl (by decide))
    simpa using h
  · exact c7_amended_range_expansion.2.1 '!' '#' [] (by decide)
  · exact (c7_amended_range_expansion.2.2 'a' 'c' [] (Or.inl (by decide)) (by decide)).1

/-! ### List and lookup utilities -/

theorem find?_append_some {α : Type} {p : α → Bool} {l₁ l₂ : List α} {x : α}
    (h : l₁.find? p = some x) : (l₁ ++ l₂).find? p = some x := by
  induction l₁ with
  | nil => simp at h
  | cons a l ih =>
      rw [List.cons_append]
      by_cases hp : p a
      · rw [List.find?_cons_of_pos _ hp] at h ⊢
        exact h
      · rw [List.find?_cons_of_neg _ (by simpa using hp)] at h ⊢
        exact ih h

theorem find?_append_none {α : Type} {p : α → Bool} {l₁ l₂ : List α}
    (h : l₁.find? p = none) : (l₁ ++ l₂).find? p = l₂.find? p := by
  induction l₁ with
  | nil => simp
  | cons a l ih =>
      rw [List.cons_append]
      by_cases hp : p a
      · rw [List.find?_cons_of_pos _ hp] at h
        simp at h
      · rw [List.find?_cons_of_neg _ (by simpa using hp)] at h
        rw [List.find?_cons_of_neg _ (by simpa using hp)]
        exact ih h

theorem lookupTable_mem {t : List (Finset Nat × Nat × Bool)} {S : Finset Nat}
    {i : Nat} {b : Bool} (h : lookupTable t S = some (i, b)) : (S, i, b) ∈ t := by
  unfold lookupTable at h
  cases hf : t.find? (fun e => e.1 == S) with
  | none => simp only [hf, Option.map_none'] at h; exact absurd h (by simp)
  | some e =>
      simp only [hf, Option.map_some'] at h
      have hkey : e.1 = S := by simpa using List.find?_some hf
      have hmem := List.mem_of_find?_eq_some hf
      obtain ⟨e1, e2⟩ := e
      have h2 : e2 = (i, b) := Option.some.inj h
      simp only at hkey
      rw [hkey, h2] at hmem
      exact hmem

theorem lookupTable_isSome_iff {t : List (Finset Nat × Nat × Bool)} {S : Finset Nat} :
    (lookupTable t S).isSome = true ↔ S ∈ tableKeys t := by
  unfold lookupTable tableKeys
  constructor
  · intro h
    cases hf : t.find? (fun e => e.1 == S) with
    | none => simp only [hf, Option.map_none', Option.isSome_none] at h; exact absurd h (by simp)
    | some e =>
        have hkey : e.1 = S := by simpa using List.find?_some hf
        exact hkey ▸ List.mem_map_of_mem _ (List.mem_of_find?_eq_some hf)
  · intro h
    obtain ⟨e, he, hes⟩ := List.mem_map.mp h
    have hsome : (t.find? (fun e => e.1 == S)).isSome :=
      List.find?_isSome.mpr ⟨e, he, by simpa using hes⟩
    cases hf : t.find? (fun e => e.1 == S) with
    | none => rw [hf] at hsome; simp at hsome
    | some e' => simp [hf]

theorem lookupTable_none_iff {t : List (Finset Nat × Nat × Bool)} {S : Finset Nat} :
    lookupTable t S = none ↔ S ∉ tableKeys t := by
  rw [← lookupTable_isSome_iff]
  cases lookupTable t S <;> simp

theorem lookupTable_append_some {t ext : List (Finset Nat × Nat × Bool)}
    {S : Finset Nat} {r : Nat × Bool} (h : lookupTable t S = some r) :
    lookupTable (t ++ ext) S = some r := by
  unfold lookupTable at h ⊢
  cases hf : t.find? (fun e => e.1 == S) with
  | none => simp only [hf, Option.map_none'] at h; exact absurd h (by simp)
  | some e =>
      rw [find?_append_some hf]
      rw [hf] at h
      exact h

theorem lookupTable_append_right {t ext : List (Finset Nat × Nat × Bool)}
    {S : Finset Nat} (h : lookupTable t S = none) :
    lookupTable (t ++ ext) S = lookupTable ext S := by
  unfold lookupTable at h ⊢
  cases hf : t.find? (fun e => e.1 == S) with
  | none => rw [find?_append_none hf]
  | some e => simp only [hf, Option.map_some'] at h; exact absurd h (by simp)

theorem lookupTable_single {S : Finset Nat} {i : Nat} {b : Bool} :
    lookupTable [(S, i, b)] S = some (i, b) := by
  simp [lookupTable]

theorem lookupTable_id_inj {t : List (Finset Nat × Nat × Bool)}
    (hids : (t.map (fun e => e.2.1)).Nodup) {S S' : Finset Nat} {i : Nat}
    {b b' : Bool} (h : lookupTable t S = some (i, b))
    (h' : lookupTable t S' = some (i, b')) : S = S' := by
  have hm := lookupTable_mem h
  have hm' := lookupTable_mem h'
  have heq : ((S, i, b) : Finset Nat × Nat × Bool) = (S', i, b') :=
    List.inj_on_of_nodup_map hids hm hm' rfl
  exact congrArg Prod.fst heq

/-! ### Reachable NFA states and the alphabet -/

theorem succAll_mem_allTargets (nfa : NFAAut) (q : Nat) :
    ∀ t ∈ succAll nfa q, t ∈ allTargets nfa := by
  intro t ht
  unfold succAll at ht
  cases hfind : lookupState nfa.arena q with
  | none => simp only [hfind] at ht; simp at ht
  | some s =>
      simp only [hfind] at ht
      have hs : s ∈ nfa.arena := List.mem_of_find?_eq_some hfind
      simp only [allTargets, List.mem_toFinset, List.mem_join]
      exact ⟨_, List.mem_map_of_mem _ hs, ht⟩

theorem statesF_isFix (nfa : NFAAut) :
    stepWith (succAll nfa) (NFAAut.statesF nfa) = NFAAut.statesF nfa :=
  iterStep_isFix (succAll_mem_allTargets nfa) {nfa.start}

theorem statesF_closed_succ (nfa : NFAAut) {q t : Nat}
    (hq : q ∈ NFAAut.statesF nfa) (ht : t ∈ succAll nfa q) :
    t ∈ NFAAut.statesF nfa := by
  have : t ∈ stepWith (succAll nfa) (NFAAut.statesF nfa) :=
    mem_stepWith.mpr (Or.inr ⟨q, hq, ht⟩)
  rwa [statesF_isFix] at this

theorem epsOf_subset_succAll (nfa : NFAAut) (q : Nat) :
    ∀ t ∈ epsOf nfa q, t ∈ succAll nfa q := by
  intro t ht
  unfold epsOf at ht
  unfold succAll
  cases hfind : lookupState nfa.arena q with
  | none => simp only [hfind] at ht; simp at ht
  | some s =>
      simp only [hfind] at ht ⊢
      exact List.mem_append_right _ ht

theorem transOf_subset_succAll (nfa : NFAAut) (q : Nat) (c : Char) :
    ∀ t ∈ transOf nfa q c, t ∈ succAll nfa q := by
  intro t ht
  unfold transOf at ht
  unfold succAll
  cases hfind : lookupState nfa.arena q with
  | none => simp only [hfind] at ht; simp at ht
  | some s =>
      simp only [hfind] at ht ⊢
      refine List.mem_append_left _ ?_
      cases hp : s.transitions.find? (fun p => p.1 == c) with
      | none => simp only [hp] at ht; simp at ht
      | some p =>
          simp only [hp] at ht
          have hpm : p ∈ s.transitions := List.mem_of_find?_eq_some hp
          exact List.mem_join.mpr ⟨p.2, List.mem_map_of_mem _ hpm, ht⟩

theorem start_mem_statesF (nfa : NFAAut) : nfa.start ∈ NFAAut.statesF nfa :=
  subset_iterStep _ _ _ (Finset.mem_singleton_self _)

theorem epsilon_closure_subset_statesF (nfa : NFAAut) {S : Finset Nat}
    (hS : S ⊆ NFAAut.statesF nfa) :
    epsilon_closure nfa S ⊆ NFAAut.statesF nfa :=
  epsilon_closure_subset_of_closed nfa hS
    (fun q hq t ht => statesF_closed_succ nfa hq (epsOf_subset_succAll nfa q t ht))

theorem moveSet_subset_statesF (nfa : NFAAut) {S : Finset Nat} (c : Char)
    (hS : S ⊆ NFAAut.statesF nfa) :
    moveSet nfa S c ⊆ NFAAut.statesF nfa := by
  intro t ht
  obtain ⟨q, hq, htq⟩ := Finset.mem_biUnion.mp ht
  exact statesF_closed_succ nfa (hS hq)
    (transOf_subset_succAll nfa q c t (List.mem_toFinset.mp htq))

theorem subsetStep_eq_closure_move (nfa : NFAAut) (S : Finset Nat) (c : Char) :
    subsetStep nfa S c = epsilon_closure nfa (moveSet nfa S c) := by
  unfold subsetStep
  by_cases h : moveSet nfa S c = ∅
  · rw [if_pos h, h, epsilon_closure_empty]
  · rw [if_neg h]

theorem subsetStep_subset_statesF (nfa : NFAAut) {S : Finset Nat} (c : Char)
    (hS : S ⊆ NFAAut.statesF nfa) :
    subsetStep nfa S c ⊆ NFAAut.statesF nfa := by
  rw [subsetStep_eq_closure_move]
  exact epsilon_closure_subset_statesF nfa (moveSet_subset_statesF nfa c hS)

theorem mem_sortedChars {s : Finset Char} {c : Char} :
    c ∈ sortedChars s ↔ c ∈ s := by
  unfold sortedChars
  constructor
  · intro h
    obtain ⟨n, hn, hc⟩ := List.mem_map.mp h
    have := (List.mem_filter.mp hn).2
    simp only [Bool.and_eq_true, decide_eq_true_eq] at this
    exact hc ▸ this.2
  · intro h
    refine List.mem_map.mpr ⟨c.toNat, List.mem_filter.mpr ⟨?_, ?_⟩, Char.ofNat_toNat c⟩
    · refine List.mem_range.mpr ?_
      have : c.toNat ≤ s.sup (fun c => c.toNat) := Finset.le_sup h
      omega
    · simp only [Bool.and_eq_true, decide_eq_true_eq]
      refine ⟨?_, by rw [Char.ofNat_toNat]; exact h⟩
      have := c.valid
      simpa [Char.toNat, UInt32.isValidChar] using this

theorem char_toNat_ofNat {n : Nat} (h : n.isValidChar) : (Char.ofNat n).toNat = n := by
  unfold Char.ofNat
  rw [dif_pos h]
  unfold Char.ofNatAux Char.toNat
  simp [UInt32.toNat]

theorem sortedChars_nodup (s : Finset Char) : (sortedChars s).Nodup := by
  unfold sortedChars
  refine List.Nodup.map_on ?_ ((List.nodup_range _).filter _)
  intro x hx y hy hxy
  have hxv := (List.mem_filter.mp hx).2
  have hyv := (List.mem_filter.mp hy).2
  simp only [Bool.and_eq_true, decide_eq_true_eq] at hxv hyv
  have : (Char.ofNat x).toNat = (Char.ofNat y).toNat := by rw [hxy]
  rwa [char_toNat_ofNat hxv.1, char_toNat_ofNat hyv.1] at this

theorem mem_sortedNats {s : Finset Nat} {q : Nat} :
    q ∈ sortedNats s ↔ q ∈ s := by
  unfold sortedNats
  rw [List.mem_filter]
  simp only [List.mem_range, decide_eq_true_eq]
  constructor
  · exact fun h => h.2
  · intro h
    refine ⟨?_, h⟩
    have : q ≤ s.sup id := Finset.le_sup (f := id) h
    omega

theorem sortedNats_nodup (s : Finset Nat) : (sortedNats s).Nodup :=
  (List.nodup_range _).filter _

theorem sampleOf_mem {B : Finset Nat} (h : B.Nonempty) : sampleOf B ∈ B := by
  obtain ⟨q, hq⟩ := h
  have hmem : q ∈ sortedNats B := mem_sortedNats.mpr hq
  have hne : sortedNats B ≠ [] := by
    intro hnil
    rw [hnil] at hmem
    simp at hmem
  unfold sampleOf
  cases hl : sortedNats B with
  | nil => exact absurd hl hne
  | cons a l =>
      have : a ∈ sortedNats B := by rw [hl]; exact List.mem_cons_self a l
      simpa using mem_sortedNats.mp this

theorem transOf_ne_nil_mem_alphabet (nfa : NFAAut) (hfree : epsFree nfa)
    {q : Nat} {c : Char} (hq : q ∈ NFAAut.statesF nfa)
    (hne : transOf nfa q c ≠ []) : c ∈ get_alphabet nfa := by
  unfold transOf at hne
  cases hfind : lookupState nfa.arena q with
  | none => simp only [hfind] at hne; simp at hne
  | some s =>
      simp only [hfind] at hne
      cases hp : s.transitions.find? (fun p => p.1 == c) with
      | none => simp only [hp] at hne; simp at hne
      | some p =>
          have hpm : p ∈ s.transitions := List.mem_of_find?_eq_some hp
          have hpc : p.1 = c := by simpa using List.find?_some hp
          have hsmem : s ∈ nfa.arena := List.mem_of_find?_eq_some hfind
          have hcne : c ≠ 'ε' := hpc ▸ hfree s hsmem p hpm
          unfold get_alphabet
          refine Finset.mem_erase.mpr ⟨hcne, ?_⟩
          refine Finset.mem_biUnion.mpr ⟨q, hq, ?_⟩
          simp only [hfind]
          exact List.mem_toFinset.mpr (hpc ▸ List.mem_map_of_mem _ hpm)

theorem subsetStep_ne_empty_mem_alpha (nfa : NFAAut) (hfree : epsFree nfa)
    {S : Finset Nat} {c : Char} (hS : S ⊆ NFAAut.statesF nfa)
    (hne : subsetStep nfa S c ≠ ∅) : c ∈ sortedAlphabet nfa := by
  unfold subsetStep at hne
  have hmv : moveSet nfa S c ≠ ∅ := by
    intro h
    rw [h] at hne
    simp at hne
  obtain ⟨t, ht⟩ := Finset.nonempty_iff_ne_empty.mpr hmv
  obtain ⟨q, hq, htq⟩ := Finset.mem_biUnion.mp ht
  have htrans : transOf nfa q c ≠ [] := by
    intro h
    rw [h] at htq
    simp at htq
  exact mem_sortedChars.mpr
    (transOf_ne_nil_mem_alphabet nfa hfree (hS hq) htrans)

theorem subsetStep_empty_of_not_alpha (nfa : NFAAut) (hfree : epsFree nfa)
    {S : Finset Nat} {c : Char} (hS : S ⊆ NFAAut.statesF nfa)
    (hc : c ∉ sortedAlphabet nfa) : subsetStep nfa S c = ∅ := by
  by_contra h
  exact hc (subsetStep_ne_empty_mem_alpha nfa hfree hS h)

/-! ### The inner symbol loop of the subset construction -/

theorem subsetSymbols_spec (nfa : NFAAut) {S : Finset Nat}
    (hS : S ⊆ NFAAut.statesF nfa) :
    ∀ (cs : List Char) (ctx : SubsetCtx) (adds : List (Finset Nat))
      (acc : List (Char × Nat)) (ctxO : SubsetCtx) (addsO : List (Finset Nat))
      (accO : List (Char × Nat)),
    subsetSymbols nfa S cs ctx adds acc = (ctxO, addsO, accO) →
    CtxWF nfa ctx →
    (∀ c ∈ cs, acc.find? (fun p => p.1 == c) = none) →
    cs.Nodup →
    (∃ ext, ctxO.table = ctx.table ++ ext) ∧
    ctxO.doneList = ctx.doneList ∧
    ctxO.processed = ctx.processed ∧
    CtxWF nfa ctxO ∧
    (∃ newAdds, addsO = adds ++ newAdds ∧
      tableKeys ctxO.table = tableKeys ctx.table ++ newAdds) ∧
    (∀ c, c ∉ cs → accO.find? (fun p => p.1 == c) = acc.find? (fun p => p.1 == c)) ∧
    (∀ c ∈ cs,
      (subsetStep nfa S c = ∅ → accO.find? (fun p => p.1 == c) = none) ∧
      (subsetStep nfa S c ≠ ∅ →
        ∃ i b, lookupTable ctxO.table (subsetStep nfa S c) = some (i, b) ∧
          accO.find? (fun p => p.1 == c) = some (c, i))) := by
  intro cs
  induction cs with
  | nil =>
      intro ctx adds acc ctxO addsO accO heq hwf _hacc _hnd
      obtain ⟨rfl, rfl, rfl⟩ : ctx = ctxO ∧ adds = addsO ∧ acc = accO := by
        simpa [subsetSymbols, Prod.ext_iff] using heq
      refine ⟨⟨[], by simp⟩, rfl, rfl, hwf, ⟨[], by simp, by simp⟩,
        fun c _ => rfl, fun c hc => absurd hc (by simp)⟩
  | cons c cs ih =>
      intro ctx adds acc ctxO addsO accO heq hwf hacc hnd
      have hcnotcs : c ∉ cs := (List.nodup_cons.mp hnd).1
      have hndcs : cs.Nodup := (List.nodup_cons.mp hnd).2
      by_cases hT : subsetStep nfa S c = ∅
      · -- empty step: skip the symbol
        have heq' : subsetSymbols nfa S cs ctx adds acc = (ctxO, addsO, accO) := by
          rw [subsetSymbols, if_pos hT] at heq
          exact heq
        obtain ⟨hext, hdone, hproc, hwfO, hadds, hkeep, hcs⟩ :=
          ih ctx adds acc ctxO addsO accO heq' hwf
            (fun c' hc' => hacc c' (List.mem_cons_of_mem _ hc')) hndcs
        refine ⟨hext, hdone, hproc, hwfO, hadds, ?_, ?_⟩
        · intro c' hc'
          exact hkeep c' (fun h => hc' (List.mem_cons_of_mem _ h))
        · intro c' hc'
          rcases List.mem_cons.mp hc' with rfl | hc'
          · refine ⟨fun _ => ?_, fun hne => absurd hT hne⟩
            rw [hkeep c' hcnotcs]
            exact hacc c' (List.mem_cons_self _ _)
          · exact hcs c' hc'
      · cases hlk : lookupTable ctx.table (subsetStep nfa S c) with
        | some r =>
            obtain ⟨tid, b⟩ := r
            have heq' : subsetSymbols nfa S cs ctx adds (acc ++ [(c, tid)]) =
                (ctxO, addsO, accO) := by
              rw [subsetSymbols, if_neg hT, hlk] at heq
              exact heq
            have hacc' : ∀ c' ∈ cs, (acc ++ [(c, tid)]).find? (fun p => p.1 == c') = none := by
              intro c' hc'
              rw [find?_append_none (hacc c' (List.mem_cons_of_mem _ hc'))]
              have : c ≠ c' := fun h => hcnotcs (h ▸ hc')
              simp [this]
            obtain ⟨hext, hdone, hproc, hwfO, hadds, hkeep, hcs⟩ :=
              ih ctx adds (acc ++ [(c, tid)]) ctxO addsO accO heq' hwf hacc' hndcs
            have haccsame : ∀ c', c' ≠ c →
                (acc ++ [(c, tid)]).find? (fun p => p.1 == c') =
                  acc.find? (fun p => p.1 == c') := by
              intro c' hne
              cases hf : acc.find? (fun p => p.1 == c') with
              | some x => exact find?_append_some hf
              | none =>
                  rw [find?_append_none hf]
                  simp [Ne.symm hne]
            refine ⟨hext, hdone, hproc, hwfO, hadds, ?_, ?_⟩
            · intro c' hc'
              have hne : c' ≠ c := fun h => hc' (h ▸ List.mem_cons_self _ _)
              rw [hkeep c' (fun h => hc' (List.mem_cons_of_mem _ h)), haccsame c' hne]
            · intro c' hc'
              rcases List.mem_cons.mp hc' with rfl | hc'
              · refine ⟨fun h => absurd h hT, fun _ => ?_⟩
                obtain ⟨ext, hextq⟩ := hext
                refine ⟨tid, b, by rw [hextq]; exact lookupTable_append_some hlk, ?_⟩
                rw [hkeep c' hcnotcs, find?_append_none (hacc c' (List.mem_cons_self _ _))]
                simp
              · exact hcs c' hc'
        | none =>
            have heq' : subsetSymbols nfa S cs
                { ctx with
                    table := ctx.table ++ [(subsetStep nfa S c, ctx.counter,
                      containsFinal nfa (subsetStep nfa S c))],
                    counter := ctx.counter + 1 }
                (adds ++ [subsetStep nfa S c]) (acc ++ [(c, ctx.counter)]) =
                (ctxO, addsO, accO) := by
              rw [subsetSymbols, if_neg hT, hlk] at heq
              exact heq
            have hTnotin : subsetStep nfa S c ∉ tableKeys ctx.table :=
              lookupTable_none_iff.mp hlk
            have hwf' : CtxWF nfa
                { ctx with
                    table := ctx.table ++ [(subsetStep nfa S c, ctx.counter,
                      containsFinal nfa (subsetStep nfa S c))],
                    counter := ctx.counter + 1 } := by
              obtain ⟨hent, hkeys, hids⟩ := hwf
              refine ⟨?_, ?_, ?_⟩
              · intro e he
                rcases List.mem_append.mp he with he | he
                · obtain ⟨h1, h2, h3⟩ := hent e he
                  refine ⟨h1, h2, ?_⟩
                  show e.2.1 < ctx.counter + 1
                  omega
                · rcases List.mem_singleton.mp he with rfl
                  refine ⟨subsetStep_subset_statesF nfa c hS, rfl, ?_⟩
                  show ctx.counter < ctx.counter + 1
                  omega
              · show (tableKeys (ctx.table ++ [(subsetStep nfa S c, ctx.counter,
                  containsFinal nfa (subsetStep nfa S c))])).Nodup
                unfold tableKeys at hkeys ⊢
                rw [List.map_append, List.nodup_append]
                refine ⟨hkeys, List.nodup_singleton _, ?_⟩
                intro a ha hb
                have hb' : a = subsetStep nfa S c := by simpa using hb
                exact hTnotin (hb' ▸ ha)
              · show ((ctx.table ++ [(subsetStep nfa S c, ctx.counter,
                  containsFinal nfa (subsetStep nfa S c))]).map (fun e => e.2.1)).Nodup
                rw [List.map_append, List.nodup_append]
                refine ⟨hids, List.nodup_singleton _, ?_⟩
                intro a ha hb
                obtain ⟨e, he, hea⟩ := List.mem_map.mp ha
                have hlt : e.2.1 < ctx.counter := (hent e he).2.2
                have ha' : a = ctx.counter := by simpa using hb
                omega
            have hacc' : ∀ c' ∈ cs,
                (acc ++ [(c, ctx.counter)]).find? (fun p => p.1 == c') = none := by
              intro c' hc'
              rw [find?_append_none (hacc c' (List.mem_cons_of_mem _ hc'))]
              have : c ≠ c' := fun h => hcnotcs (h ▸ hc')
              simp [this]
            obtain ⟨hext, hdone, hproc, hwfO, hadds, hkeep, hcs⟩ :=
              ih _ _ _ ctxO addsO accO heq' hwf' hacc' hndcs
            have haccsame : ∀ c', c' ≠ c →
                (acc ++ [(c, ctx.counter)]).find? (fun p => p.1 == c') =
                  acc.find? (fun p => p.1 == c') := by
              intro c' hne
              cases hf : acc.find? (fun p => p.1 == c') with
              | some x => exact find?_append_some hf
              | none =>
                  rw [find?_append_none hf]
                  simp [Ne.symm hne]
            obtain ⟨ext, hextq⟩ := hext
            obtain ⟨newAdds, hnadds, hnkeys⟩ := hadds
            refine ⟨⟨(subsetStep nfa S c, ctx.counter,
                containsFinal nfa (subsetStep nfa S c)) :: ext, by rw [hextq]; simp⟩,
              hdone, hproc, hwfO,
              ⟨subsetStep nfa S c :: newAdds, by rw [hnadds]; simp, ?_⟩, ?_, ?_⟩
            · rw [hnkeys]
              show _ = tableKeys ctx.table ++ _
              unfold tableKeys
              simp
            · intro c' hc'
              have hne : c' ≠ c := fun h => hc' (h ▸ List.mem_cons_self _ _)
              rw [hkeep c' (fun h => hc' (List.mem_cons_of_mem _ h)), haccsame c' hne]
            · intro c' hc'
              rcases List.mem_cons.mp hc' with rfl | hc'
              · refine ⟨fun h => absurd h hT, fun _ => ?_⟩
                have hlk' : lookupTable (ctx.table ++ [(subsetStep nfa S c', ctx.counter,
                    containsFinal nfa (subsetStep nfa S c'))]) (subsetStep nfa S c') =
                    some (ctx.counter, containsFinal nfa (subsetStep nfa S c')) := by
                  rw [lookupTable_append_right hlk, lookupTable_single]
                refine ⟨ctx.counter, containsFinal nfa (subsetStep nfa S c'), ?_, ?_⟩
                · rw [hextq]
                  exact lookupTable_append_some hlk'
                · rw [hkeep c' hcnotcs, find?_append_none (hacc c' (List.mem_cons_self _ _))]
                  simp
              · exact hcs c' hc'

/-! ### The work-queue loop of the subset construction -/

theorem CtxWF_key_props {nfa : NFAAut} {ctx : SubsetCtx} (hwf : CtxWF nfa ctx)
    {S : Finset Nat} {i : Nat} {b : Bool}
    (hlk : lookupTable ctx.table S = some (i, b)) :
    S ⊆ NFAAut.statesF nfa ∧ b = containsFinal nfa S := by
  have hmem := lookupTable_mem hlk
  obtain ⟨h1, h2, _⟩ := hwf.1 _ hmem
  exact ⟨h1, h2⟩

theorem RecOk_mono {nfa : NFAAut} {alpha : List Char}
    {t ext : List (Finset Nat × Nat × Bool)} {S : Finset Nat} {rec : DFAStateRec}
    (h : RecOk nfa alpha t S rec) : RecOk nfa alpha (t ++ ext) S rec := by
  obtain ⟨h1, h2, h3⟩ := h
  refine ⟨h1, h2, fun c hc => ⟨(h3 c hc).1, fun hne => ?_⟩⟩
  obtain ⟨i, b, hlk, hfd⟩ := (h3 c hc).2 hne
  exact ⟨i, b, lookupTable_append_some hlk, hfd⟩

theorem tableKeys_length (t : List (Finset Nat × Nat × Bool)) :
    (tableKeys t).length = t.length := by
  simp [tableKeys]

theorem table_length_le {nfa : NFAAut} {ctx : SubsetCtx} (hwf : CtxWF nfa ctx) :
    ctx.table.length ≤ 2 ^ (NFAAut.statesF nfa).card := by
  have hnd : (tableKeys ctx.table).Nodup := hwf.2.1
  have hcard : (tableKeys ctx.table).toFinset.card = ctx.table.length := by
    rw [List.toFinset_card_of_nodup hnd, tableKeys_length]
  have hsub : (tableKeys ctx.table).toFinset ⊆ (NFAAut.statesF nfa).powerset := by
    intro K hK
    obtain ⟨e, he, hek⟩ := List.mem_map.mp (List.mem_toFinset.mp hK)
    exact Finset.mem_powerset.mpr (hek ▸ (hwf.1 e he).1)
  have := Finset.card_le_card hsub
  rw [hcard, Finset.card_powerset] at this
  exact this

theorem subsetLoop_sound (nfa : NFAAut) :
    ∀ (fuel : Nat) (ctx : SubsetCtx) (queue : List (Finset Nat)),
    LoopInv nfa (sortedAlphabet nfa) ctx queue →
    queue.length + (2 ^ (NFAAut.statesF nfa).card - ctx.table.length) < fuel →
    ∃ ctxO, subsetLoop nfa (sortedAlphabet nfa) fuel ctx queue = some ctxO ∧
      (∃ ext, ctxO.table = ctx.table ++ ext) ∧
      LoopInv nfa (sortedAlphabet nfa) ctxO [] := by
  intro fuel
  induction fuel with
  | zero => intro ctx queue _ hfuel; omega
  | succ fuel ih =>
      intro ctx queue hinv hfuel
      cases queue with
      | nil => exact ⟨ctx, rfl, ⟨[], by simp⟩, hinv⟩
      | cons S rest =>
          obtain ⟨hwf, hpnd, hlen, hpk, hqk, hcov, hdrec, hprec⟩ := hinv
          by_cases hp : S ∈ ctx.processed
          · have hinv' : LoopInv nfa (sortedAlphabet nfa) ctx rest := by
              refine ⟨hwf, hpnd, hlen, hpk, ?_, ?_, hdrec, hprec⟩
              · exact fun K hK => hqk K (List.mem_cons_of_mem _ hK)
              · intro K hK
                rcases hcov K hK with h | h
                · exact Or.inl h
                · rcases List.mem_cons.mp h with rfl | h
                  · exact Or.inl hp
                  · exact Or.inr h
            obtain ⟨ctxO, hloop, hext, hinvO⟩ :=
              ih ctx rest hinv' (by simp at hfuel ⊢; omega)
            refine ⟨ctxO, ?_, hext, hinvO⟩
            rw [subsetLoop, if_pos hp]
            exact hloop
          · have hSk : S ∈ tableKeys ctx.table := hqk S (List.mem_cons_self _ _)
            have hSsome : (lookupTable ctx.table S).isSome :=
              lookupTable_isSome_iff.mpr hSk
            cases hlk : lookupTable ctx.table S with
            | none => rw [hlk] at hSsome; simp at hSsome
            | some r =>
                obtain ⟨sid, sfin⟩ := r
                have hSsub : S ⊆ NFAAut.statesF nfa := (CtxWF_key_props hwf hlk).1
                have hsfin : sfin = containsFinal nfa S := (CtxWF_key_props hwf hlk).2
                obtain ⟨⟨ctx1, adds, acc⟩, hsym⟩ :
                    ∃ x, subsetSymbols nfa S (sortedAlphabet nfa) ctx [] [] = x :=
                  ⟨_, rfl⟩
                obtain ⟨⟨ext1, hext1⟩, hdone1, hproc1, hwf1,
                    ⟨newAdds, hnadds, hnkeys⟩, hkeep, hcs⟩ :=
                  subsetSymbols_spec nfa hSsub (sortedAlphabet nfa) ctx [] []
                    ctx1 adds acc hsym hwf (fun c _ => rfl)
                    (sortedChars_nodup _)
                have haddseq : adds = newAdds := by simpa using hnadds
                -- the record completed for S
                have hnewlk : lookupTable ctx1.table S = some (sid, sfin) := by
                  rw [hext1]; exact lookupTable_append_some hlk
                have hfreshid : (ctx.doneList.find? (fun s => s.id == sid)) = none := by
                  cases hfd : ctx.doneList.find? (fun s => s.id == sid) with
                  | none => rfl
                  | some rec' =>
                      have hmem := List.mem_of_find?_eq_some hfd
                      have hid : rec'.id = sid := by simpa using List.find?_some hfd
                      obtain ⟨S'', hS''p, hlk''⟩ := hdrec rec' hmem
                      rw [hid] at hlk''
                      have : S'' = S := lookupTable_id_inj hwf.2.2 hlk'' hlk
                      exact absurd (this ▸ hS''p) hp
                set ctx2 : SubsetCtx :=
                  { ctx1 with
                      doneList := ctx1.doneList ++ [⟨sid, sfin, acc⟩],
                      processed := ctx1.processed ++ [S] } with hctx2
                have hinv2 : LoopInv nfa (sortedAlphabet nfa) ctx2 (rest ++ adds) := by
                  refine ⟨hwf1, ?_, ?_, ?_, ?_, ?_, ?_, ?_⟩
                  · show (ctx1.processed ++ [S]).Nodup
                    rw [hproc1, List.nodup_append]
                    refine ⟨hpnd, List.nodup_singleton _, ?_⟩
                    intro a ha hb
                    exact hp ((List.mem_singleton.mp hb) ▸ ha)
                  · show (ctx1.doneList ++ _).length = (ctx1.processed ++ _).length
                    rw [hdone1, hproc1]
                    simp [hlen]
                  · intro K hK
                    have hK' : K ∈ ctx1.processed ++ [S] := hK
                    show K ∈ tableKeys ctx1.table
                    rcases List.mem_append.mp hK' with hK1 | hK1
                    · rw [hnkeys]
                      exact List.mem_append_left _ (hpk K (hproc1 ▸ hK1))
                    · have hKS : K = S := by simpa using hK1
                      rw [hnkeys, hKS]
                      exact List.mem_append_left _ hSk
                  · intro K hK
                    show K ∈ tableKeys ctx1.table
                    rcases List.mem_append.mp hK with hK1 | hK1
                    · rw [hnkeys]
                      exact List.mem_append_left _ (hqk K (List.mem_cons_of_mem _ hK1))
                    · rw [hnkeys]
                      exact List.mem_append_right _ (haddseq ▸ hK1)
                  · intro K hK
                    have hK' : K ∈ tableKeys ctx1.table := hK
                    rw [hnkeys] at hK'
                    rcases List.mem_append.mp hK' with hK1 | hK1
                    · rcases hcov K hK1 with h | h
                      · exact Or.inl (show K ∈ ctx1.processed ++ [S] from
                          List.mem_append_left _ (hproc1 ▸ h))
                      · rcases List.mem_cons.mp h with rfl | h
                        · exact Or.inl (show K ∈ ctx1.processed ++ [K] from
                            List.mem_append_right _ (by simp))
                        · exact Or.inr (List.mem_append_left _ h)
                    · exact Or.inr (List.mem_append_right _ (haddseq ▸ hK1))
                  · intro rec hrec
                    rcases List.mem_append.mp hrec with hrec | hrec
                    · obtain ⟨S', hS'p, hlk'⟩ := hdrec rec (hdone1 ▸ hrec)
                      refine ⟨S', List.mem_append_left _ (hproc1 ▸ hS'p), ?_⟩
                      rw [hext1]
                      exact lookupTable_append_some hlk'
                    · have hrS : rec = ⟨sid, sfin, acc⟩ := by simpa using hrec
                      subst hrS
                      exact ⟨S, List.mem_append_right _ (by simp), hnewlk⟩
                  · intro S' hS'
                    rcases List.mem_append.mp hS' with hS' | hS'
                    · obtain ⟨i, b, hlk', rec, hdl, hrid, hrok⟩ := hprec S' (hproc1 ▸ hS')
                      refine ⟨i, b, by rw [hext1]; exact lookupTable_append_some hlk',
                        rec, ?_, hrid, ?_⟩
                      · show dLookup (ctx1.doneList ++ _) i = some rec
                        rw [hdone1]
                        exact find?_append_some hdl
                      · rw [hext1]
                        exact RecOk_mono hrok
                    · rcases List.mem_singleton.mp hS' with rfl
                      refine ⟨sid, sfin, hnewlk, ⟨sid, sfin, acc⟩, ?_, rfl, ?_, ?_, ?_⟩
                      · show dLookup (ctx1.doneList ++ _) sid = some _
                        rw [hdone1]
                        unfold dLookup
                        rw [find?_append_none hfreshid]
                        simp
                      · exact hsfin
                      · intro c hc
                        have := hkeep c hc
                        simpa using this
                      · exact fun c hc => hcs c hc
                have hk : newAdds.length = ctx1.table.length - ctx.table.length := by
                  have h1 : (tableKeys ctx1.table).length =
                      (tableKeys ctx.table).length + newAdds.length := by
                    rw [hnkeys]; simp
                  rw [tableKeys_length, tableKeys_length] at h1
                  omega
                have hbound : ctx1.table.length ≤ 2 ^ (NFAAut.statesF nfa).card :=
                  table_length_le hwf1
                have hfuel2 : (rest ++ adds).length +
                    (2 ^ (NFAAut.statesF nfa).card - ctx2.table.length) < fuel := by
                  have hc2t : ctx2.table.length = ctx1.table.length := rfl
                  have h1 : ctx1.table.length = ctx.table.length + newAdds.length := by
                    rw [hext1] at hk ⊢
                    simp at hk ⊢
                    omega
                  have hql : (rest ++ adds).length = rest.length + newAdds.length := by
                    rw [haddseq]; simp
                  simp only [List.length_cons] at hfuel
                  omega
                obtain ⟨ctxO, hloop, ⟨ext2, hext2⟩, hinvO⟩ :=
                  ih ctx2 (rest ++ adds) hinv2 hfuel2
                refine ⟨ctxO, ?_, ⟨ext1 ++ ext2, ?_⟩, hinvO⟩
                · rw [subsetLoop, if_neg hp, hlk, hsym]
                  exact hloop
                · rw [hext2]
                  show ctx1.table ++ ext2 = _
                  rw [hext1, List.append_assoc]

theorem nfa_to_dfa_run (nfa : NFAAut) :
    ∃ ctxO, subsetLoop nfa (sortedAlphabet nfa) (1 + 2 ^ (NFAAut.statesF nfa).card)
        ⟨[(epsilon_closure nfa {nfa.start}, 0,
            containsFinal nfa (epsilon_closure nfa {nfa.start}))], 1, [], []⟩
        [epsilon_closure nfa {nfa.start}] = some ctxO ∧
      lookupTable ctxO.table (epsilon_closure nfa {nfa.start}) =
        some (0, containsFinal nfa (epsilon_closure nfa {nfa.start})) ∧
      LoopInv nfa (sortedAlphabet nfa) ctxO [] ∧
      nfa_to_dfa nfa = some ⟨ctxO.doneList, 0⟩ := by
  have hS0 : epsilon_closure nfa {nfa.start} ⊆ NFAAut.statesF nfa :=
    epsilon_closure_subset_statesF nfa
      (Finset.singleton_subset_iff.mpr (start_mem_statesF nfa))
  have hinv0 : LoopInv nfa (sortedAlphabet nfa)
      ⟨[(epsilon_closure nfa {nfa.start}, 0,
          containsFinal nfa (epsilon_closure nfa {nfa.start}))], 1, [], []⟩
      [epsilon_closure nfa {nfa.start}] := by
    refine ⟨⟨?_, ?_, ?_⟩, ?_, ?_, ?_, ?_, ?_, ?_, ?_⟩
    · intro e he
      have : e = (epsilon_closure nfa {nfa.start}, 0,
          containsFinal nfa (epsilon_closure nfa {nfa.start})) := by simpa using he
      subst this
      exact ⟨hS0, rfl, by show (0 : Nat) < 1; omega⟩
    · exact List.nodup_singleton _
    · exact List.nodup_singleton _
    · exact List.nodup_nil
    · rfl
    · intro K hK
      simp at hK
    · intro K hK
      have hK' : K ∈ [epsilon_closure nfa {nfa.start}] := hK
      simp only [List.mem_singleton] at hK'
      subst hK'
      simp [tableKeys]
    · intro K hK
      simp only [tableKeys, List.map_cons, List.map_nil, List.mem_singleton] at hK
      exact Or.inr (by simp [hK])
    · intro rec hrec
      simp at hrec
    · intro S hS
      simp at hS
  have hfuel : [epsilon_closure nfa {nfa.start}].length +
      (2 ^ (NFAAut.statesF nfa).card - 1) < 1 + 2 ^ (NFAAut.statesF nfa).card := by
    have : 1 ≤ 2 ^ (NFAAut.statesF nfa).card := Nat.one_le_two_pow
    simp only [List.length_singleton]
    omega
  obtain ⟨ctxO, hloop, ⟨ext, hext⟩, hinvO⟩ :=
    subsetLoop_sound nfa (1 + 2 ^ (NFAAut.statesF nfa).card) _ _ hinv0 hfuel
  refine ⟨ctxO, hloop, ?_, hinvO, ?_⟩
  · rw [hext]
    exact lookupTable_append_some lookupTable_single
  · show (match subsetLoop nfa (sortedAlphabet nfa) (1 + 2 ^ (NFAAut.statesF nfa).card)
        ⟨[(epsilon_closure nfa {nfa.start}, 0,
            containsFinal nfa (epsilon_closure nfa {nfa.start}))], 1, [], []⟩
        [epsilon_closure nfa {nfa.start}] with
      | some ctx => some (⟨ctx.doneList, 0⟩ : DFAAut)
      | none => none) = some ⟨ctxO.doneList, 0⟩
    rw [hloop]

/-! ### Claim C3 -/

/-- C3: Subset construction terminates for every input NFA: the work-queue
loop processes each distinct epsilon-closed subset at most once (processed
subsets are never re-entered and every created subset is a distinct key of
the subset map), so `nfa_to_dfa` always returns a DFA whose number of
states is at most `2 ^ |NFA.states|`. -/
theorem c3_subset_construction_terminates (nfa : NFAAut) :
    ∃ dfa, nfa_to_dfa nfa = some dfa ∧
      dfa.arena.length ≤ 2 ^ (NFAAut.statesF nfa).card := by
  obtain ⟨ctxO, _, _, hinvO, hdfa⟩ := nfa_to_dfa_run nfa
  refine ⟨_, hdfa, ?_⟩
  obtain ⟨hwf, hpnd, hlen, hpk, _, _, _, _⟩ := hinvO
  show ctxO.doneList.length ≤ _
  have h1 : ctxO.processed.toFinset.card = ctxO.processed.length :=
    List.toFinset_card_of_nodup hpnd
  have hsub : ctxO.processed.toFinset ⊆ (tableKeys ctxO.table).toFinset := by
    intro K hK
    exact List.mem_toFinset.mpr (hpk K (List.mem_toFinset.mp hK))
  have h2 := Finset.card_le_card hsub
  have h3 : (tableKeys ctxO.table).toFinset.card ≤ (tableKeys ctxO.table).length :=
    List.toFinset_card_le _
  have h4 := table_length_le hwf
  rw [tableKeys_length] at h3
  omega

/-! ### NFA/DFA simulation correspondence (claim C1, first equality) -/

theorem dIsFinal_eq {dfa : DFAAut} {q : Nat} {rec : DFAStateRec}
    (hdl : dLookup dfa.arena q = some rec) : dIsFinal dfa q = rec.is_final := by
  unfold dIsFinal
  simp only [hdl]

theorem dTransOf_eq {dfa : DFAAut} {q : Nat} {rec : DFAStateRec}
    (hdl : dLookup dfa.arena q = some rec) (c : Char) :
    dTransOf dfa q c =
      (rec.transitions.find? (fun p => p.1 == c)).map (fun p => p.2) := by
  unfold dTransOf
  simp only [hdl]
  cases rec.transitions.find? (fun p => p.1 == c) <;> rfl

theorem dSimulateFrom_cons (dfa : DFAAut) (q : Nat) (c : Char) (cs : List Char) :
    dSimulateFrom dfa q (c :: cs) =
      match dTransOf dfa q c with
      | none => false
      | some q2 => dSimulateFrom dfa q2 cs := rfl

theorem simulateFrom_cons (nfa : NFAAut) (S : Finset Nat) (c : Char)
    (cs : List Char) :
    simulateFrom nfa S (c :: cs) =
      if subsetStep nfa S c = ∅ then false
      else simulateFrom nfa (subsetStep nfa S c) cs := by
  show (if epsilon_closure nfa (moveSet nfa S c) = ∅ then false
        else simulateFrom nfa (epsilon_closure nfa (moveSet nfa S c)) cs) = _
  rw [← subsetStep_eq_closure_move]

theorem corrDfa (nfa : NFAAut) (hfree : epsFree nfa) (ctxO : SubsetCtx)
    (hinv : LoopInv nfa (sortedAlphabet nfa) ctxO []) :
    ∀ (w : List Char) (S : Finset Nat) (i : Nat) (b : Bool),
    lookupTable ctxO.table S = some (i, b) →
    simulateFrom nfa S w = dSimulateFrom ⟨ctxO.doneList, 0⟩ i w := by
  obtain ⟨hwf, _, _, _, _, hcov, _, hprec⟩ := hinv
  intro w
  induction w with
  | nil =>
      intro S i b hlk
      have hSk : S ∈ tableKeys ctxO.table :=
        lookupTable_isSome_iff.mp (by rw [hlk]; rfl)
      have hSp : S ∈ ctxO.processed := by
        rcases hcov S hSk with h | h
        · exact h
        · simp at h
      obtain ⟨i', b', hlk', rec, hdl, hrid, hrok⟩ := hprec S hSp
      rw [hlk] at hlk'
      obtain rfl : i = i' := congrArg Prod.fst (Option.some.inj hlk')
      show containsFinal nfa S = dIsFinal ⟨ctxO.doneList, 0⟩ i
      rw [@dIsFinal_eq ⟨ctxO.doneList, 0⟩ _ _ hdl]
      exact hrok.1.symm
  | cons c cs ih =>
      intro S i b hlk
      have hSk : S ∈ tableKeys ctxO.table :=
        lookupTable_isSome_iff.mp (by rw [hlk]; rfl)
      have hSp : S ∈ ctxO.processed := by
        rcases hcov S hSk with h | h
        · exact h
        · simp at h
      have hSsub : S ⊆ NFAAut.statesF nfa := (CtxWF_key_props hwf hlk).1
      obtain ⟨i', b', hlk', rec, hdl, hrid, hrok⟩ := hprec S hSp
      rw [hlk] at hlk'
      obtain rfl : i = i' := congrArg Prod.fst (Option.some.inj hlk')
      have htr := @dTransOf_eq ⟨ctxO.doneList, 0⟩ _ _ hdl c
      rw [simulateFrom_cons, dSimulateFrom_cons]
      by_cases hT : subsetStep nfa S c = ∅
      · have hfd : rec.transitions.find? (fun p => p.1 == c) = none := by
          by_cases hca : c ∈ sortedAlphabet nfa
          · exact (hrok.2.2 c hca).1 hT
          · exact hrok.2.1 c hca
        have hdt : dTransOf ⟨ctxO.doneList, 0⟩ i c = none := by
          rw [htr, hfd]; rfl
        rw [if_pos hT]
        simp only [hdt]
      · have hca : c ∈ sortedAlphabet nfa :=
          subsetStep_ne_empty_mem_alpha nfa hfree hSsub hT
        obtain ⟨i2, b2, hlk2, hfd⟩ := (hrok.2.2 c hca).2 hT
        have hdt : dTransOf ⟨ctxO.doneList, 0⟩ i c = some i2 := by
          rw [htr, hfd]; rfl
        rw [if_neg hT]
        simp only [hdt]
        exact ih (subsetStep nfa S c) i2 b2 hlk2

theorem nfa_to_dfa_simulate (nfa : NFAAut) (hfree : epsFree nfa) {dfa : DFAAut}
    (h : nfa_to_dfa nfa = some dfa) (w : List Char) :
    NFAAut.simulate nfa w = DFAAut.simulate dfa w := by
  obtain ⟨ctxO, _, hlk0, hinvO, hdfa⟩ := nfa_to_dfa_run nfa
  rw [h] at hdfa
  obtain rfl := Option.some.inj hdfa
  unfold NFAAut.simulate DFAAut.simulate
  exact corrDfa nfa hfree ctxO hinvO w _ 0 _ hlk0

/-! ### Reachable DFA states and block indexing -/

theorem dSucc_mem_dAllTargets (dfa : DFAAut) (q : Nat) :
    ∀ t ∈ dSucc dfa q, t ∈ dAllTargets dfa := by
  intro t ht
  unfold dSucc at ht
  cases hfind : dLookup dfa.arena q with
  | none => simp only [hfind] at ht; simp at ht
  | some s =>
      simp only [hfind] at ht
      have hs : s ∈ dfa.arena := List.mem_of_find?_eq_some hfind
      simp only [dAllTargets, List.mem_toFinset, List.mem_join]
      exact ⟨_, List.mem_map_of_mem _ hs, ht⟩

theorem dStatesF_isFix (dfa : DFAAut) :
    stepWith (dSucc dfa) (DFAAut.statesF dfa) = DFAAut.statesF dfa :=
  iterStep_isFix (dSucc_mem_dAllTargets dfa) {dfa.start}

theorem dStatesF_closed (dfa : DFAAut) {q t : Nat}
    (hq : q ∈ DFAAut.statesF dfa) (ht : t ∈ dSucc dfa q) :
    t ∈ DFAAut.statesF dfa := by
  have : t ∈ stepWith (dSucc dfa) (DFAAut.statesF dfa) :=
    mem_stepWith.mpr (Or.inr ⟨q, hq, ht⟩)
  rwa [dStatesF_isFix] at this

theorem dTransOf_mem_dSucc {dfa : DFAAut} {q t : Nat} {c : Char}
    (h : dTransOf dfa q c = some t) : t ∈ dSucc dfa q := by
  unfold dTransOf at h
  unfold dSucc
  cases hfind : dLookup dfa.arena q with
  | none => simp only [hfind] at h; exact absurd h (by simp)
  | some s =>
      simp only [hfind] at h ⊢
      cases hp : s.transitions.find? (fun p => p.1 == c) with
      | none => simp only [hp] at h; exact absurd h (by simp)
      | some p =>
          simp only [hp] at h
          obtain rfl := Option.some.inj h
          exact List.mem_map_of_mem _ (List.mem_of_find?_eq_some hp)

theorem dStatesF_closed_trans (dfa : DFAAut) {q t : Nat} {c : Char}
    (hq : q ∈ DFAAut.statesF dfa) (h : dTransOf dfa q c = some t) :
    t ∈ DFAAut.statesF dfa :=
  dStatesF_closed dfa hq (dTransOf_mem_dSucc h)

theorem dStart_mem_statesF (dfa : DFAAut) : dfa.start ∈ DFAAut.statesF dfa :=
  subset_iterStep _ _ _ (Finset.mem_singleton_self _)

theorem dTransOf_mem_alphabet {dfa : DFAAut} {q t : Nat} {c : Char}
    (hq : q ∈ DFAAut.statesF dfa) (h : dTransOf dfa q c = some t) :
    c ∈ dAlphabet dfa := by
  unfold dTransOf at h
  cases hfind : dLookup dfa.arena q with
  | none => simp only [hfind] at h; exact absurd h (by simp)
  | some s =>
      simp only [hfind] at h
      cases hp : s.transitions.find? (fun p => p.1 == c) with
      | none => simp only [hp] at h; exact absurd h (by simp)
      | some p =>
          have hpm : p ∈ s.transitions := List.mem_of_find?_eq_some hp
          have hpc : p.1 = c := by simpa using List.find?_some hp
          unfold dAlphabet
          refine Finset.mem_biUnion.mpr ⟨q, hq, ?_⟩
          simp only [hfind]
          exact List.mem_toFinset.mpr (hpc ▸ List.mem_map_of_mem _ hpm)

theorem dTransOf_none_of_not_alpha {dfa : DFAAut} {q : Nat} {c : Char}
    (hq : q ∈ DFAAut.statesF dfa) (hc : c ∉ sortedChars (dAlphabet dfa)) :
    dTransOf dfa q c = none := by
  cases h : dTransOf dfa q c with
  | none => rfl
  | some t =>
      exact absurd (mem_sortedChars.mpr (dTransOf_mem_alphabet hq h)) hc

theorem partIndexOf_eq_rec (parts : List (Finset Nat)) (t : Nat) :
    partIndexOf parts t = partIdxRec parts t := by
  suffices h : ∀ (l : List (Finset Nat)) (n : Nat),
      ((l.enumFrom n).find? (fun e => decide (t ∈ e.2))).map (fun e => e.1) =
        (partIdxRec l t).map (fun j => j + n) by
    have := h parts 0
    simpa [partIndexOf, List.enum] using this
  intro l
  induction l with
  | nil => intro n; rfl
  | cons B rest ih =>
      intro n
      show ((((n, B) :: rest.enumFrom (n + 1)).find?
        (fun e => decide (t ∈ e.2))).map (fun e => e.1)) = _
      by_cases hB : t ∈ B
      · rw [List.find?_cons_of_pos _ (by simpa using hB)]
        simp [partIdxRec, hB]
      · rw [List.find?_cons_of_neg _ (by simpa using hB)]
        rw [ih (n + 1)]
        simp only [partIdxRec, if_neg hB]
        cases partIdxRec rest t with
        | none => rfl
        | some j =>
            show some (j + (n + 1)) = some (j + 1 + n)
            congr 1
            omega

theorem partIdxRec_some {parts : List (Finset Nat)} {t i : Nat}
    (h : partIdxRec parts t = some i) :
    i < parts.length ∧ t ∈ parts.getD i ∅ := by
  induction parts generalizing i with
  | nil => simp [partIdxRec] at h
  | cons B rest ih =>
      by_cases hB : t ∈ B
      · simp only [partIdxRec, if_pos hB] at h
        obtain rfl := Option.some.inj h
        exact ⟨by simp, hB⟩
      · simp only [partIdxRec, if_neg hB] at h
        cases hr : partIdxRec rest t with
        | none => rw [hr] at h; simp at h
        | some j =>
            rw [hr] at h
            obtain rfl : j + 1 = i := by simpa using h
            obtain ⟨h1, h2⟩ := ih hr
            exact ⟨by simpa using h1, by simpa using h2⟩

theorem partIdxRec_isSome_of_mem {parts : List (Finset Nat)} {t : Nat}
    {B : Finset Nat} (hB : B ∈ parts) (ht : t ∈ B) :
    (partIdxRec parts t).isSome := by
  induction parts with
  | nil => simp at hB
  | cons A rest ih =>
      by_cases hA : t ∈ A
      · simp [partIdxRec, hA]
      · rcases List.mem_cons.mp hB with rfl | hB'
        · exact absurd ht hA
        · simp only [partIdxRec, if_neg hA]
          have := ih hB'
          cases hr : partIdxRec rest t with
          | none => rw [hr] at this; simp at this
          | some j => simp

theorem getD_mem_of_lt {l : List (Finset Nat)} {i : Nat} (h : i < l.length) :
    l.getD i ∅ ∈ l := by
  rw [List.getD_eq_getElem l ∅ h]
  exact List.getElem_mem h

theorem pairwise_disjoint_getD {parts : List (Finset Nat)}
    (hpw : parts.Pairwise (fun A B => ∀ x, x ∈ A → x ∈ B → False))
    {i j : Nat} (hi : i < parts.length) (hj : j < parts.length) (hij : i ≠ j)
    {t : Nat} (hti : t ∈ parts.getD i ∅) (htj : t ∈ parts.getD j ∅) : False := by
  induction parts generalizing i j with
  | nil => simp at hi
  | cons B rest ih =>
      obtain ⟨hhead, htail⟩ := List.pairwise_cons.mp hpw
      cases i with
      | zero =>
          cases j with
          | zero => exact hij rfl
          | succ j =>
              have htj' : t ∈ rest.getD j ∅ := htj
              have hjlen : j < rest.length := by simpa using hj
              exact hhead _ (getD_mem_of_lt hjlen) t hti htj'
      | succ i =>
          cases j with
          | zero =>
              have hti' : t ∈ rest.getD i ∅ := hti
              have hilen : i < rest.length := by simpa using hi
              exact hhead _ (getD_mem_of_lt hilen) t htj hti'
          | succ j =>
              exact ih htail (by simpa using hi) (by simpa using hj)
                (fun h => hij (by omega)) hti htj

theorem partIdxRec_unique {parts : List (Finset Nat)}
    (hpw : parts.Pairwise (fun A B => ∀ x, x ∈ A → x ∈ B → False))
    {t i : Nat} (hi : i < parts.length) (ht : t ∈ parts.getD i ∅) :
    partIdxRec parts t = some i := by
  cases h : partIdxRec parts t with
  | none =>
      have hB : parts.getD i ∅ ∈ parts := getD_mem_of_lt hi
      have := partIdxRec_isSome_of_mem hB ht
      rw [h] at this
      simp at this
  | some j =>
      obtain ⟨hj, htj⟩ := partIdxRec_some h
      by_cases hij : i = j
      · rw [hij]
      · exact absurd (pairwise_disjoint_getD hpw hi hj hij ht htj) not_false

/-! ### Grouping by signature -/

theorem insertSig_mem {gs : List (List (Option Nat) × Finset Nat)}
    {sig : List (Option Nat)} {q x : Nat} :
    (∃ e ∈ insertSig sig q gs, x ∈ e.2) ↔ (∃ e ∈ gs, x ∈ e.2) ∨ x = q := by
  induction gs with
  | nil =>
      constructor
      · rintro ⟨e, he, hx⟩
        have : e = (sig, {q}) := by simpa [insertSig] using he
        subst this
        simp at hx
        exact Or.inr hx
      · rintro (⟨e, he, _⟩ | rfl)
        · simp at he
        · exact ⟨(sig, {x}), by simp [insertSig], by simp⟩
  | cons g rest ih =>
      obtain ⟨s, G⟩ := g
      show (∃ e ∈ (if s == sig then (s, insert q G) :: rest
        else (s, G) :: insertSig sig q rest), x ∈ e.2) ↔ _
      by_cases hs : s == sig
      · rw [if_pos hs]
        constructor
        · rintro ⟨e, he, hx⟩
          rcases List.mem_cons.mp he with rfl | he
          · rcases Finset.mem_insert.mp hx with rfl | hx
            · exact Or.inr rfl
            · exact Or.inl ⟨(s, G), List.mem_cons_self _ _, hx⟩
          · exact Or.inl ⟨e, List.mem_cons_of_mem _ he, hx⟩
        · rintro (⟨e, he, hx⟩ | hxq)
          · rcases List.mem_cons.mp he with rfl | he
            · exact ⟨(s, insert q G), List.mem_cons_self _ _,
                Finset.mem_insert_of_mem hx⟩
            · exact ⟨e, List.mem_cons_of_mem _ he, hx⟩
          · exact ⟨(s, insert q G), List.mem_cons_self _ _,
              by rw [hxq]; exact Finset.mem_insert_self _ _⟩
      · rw [if_neg hs]
        constructor
        · rintro ⟨e, he, hx⟩
          rcases List.mem_cons.mp he with rfl | he
          · exact Or.inl ⟨(s, G), List.mem_cons_self _ _, hx⟩
          · rcases ih.mp ⟨e, he, hx⟩ with ⟨e', he', hx'⟩ | rfl
            · exact Or.inl ⟨e', List.mem_cons_of_mem _ he', hx'⟩
            · exact Or.inr rfl
        · rintro (⟨e, he, hx⟩ | rfl)
          · rcases List.mem_cons.mp he with rfl | he
            · exact ⟨(s, G), List.mem_cons_self _ _, hx⟩
            · obtain ⟨e', he', hx'⟩ := ih.mpr (Or.inl ⟨e, he, hx⟩)
              exact ⟨e', List.mem_cons_of_mem _ he', hx'⟩
          · obtain ⟨e', he', hx'⟩ := ih.mpr (Or.inr rfl)
            exact ⟨e', List.mem_cons_of_mem _ he', hx'⟩

theorem insertSig_sig {dfa : DFAAut} {parts : List (Finset Nat)}
    {alpha : List Char} {gs : List (List (Option Nat) × Finset Nat)} {q : Nat}
    (H1 : ∀ e ∈ gs, ∀ x ∈ e.2, signatureOf dfa parts alpha x = e.1) :
    ∀ e ∈ insertSig (signatureOf dfa parts alpha q) q gs,
      ∀ x ∈ e.2, signatureOf dfa parts alpha x = e.1 := by
  induction gs with
  | nil =>
      intro e he x hx
      have : e = (signatureOf dfa parts alpha q, {q}) := by simpa [insertSig] using he
      subst this
      have : x = q := by simpa using hx
      subst this
      rfl
  | cons g rest ih =>
      obtain ⟨s, G⟩ := g
      intro e he x hx
      show signatureOf dfa parts alpha x = e.1
      by_cases hs : s == signatureOf dfa parts alpha q
      · have he' : e ∈ (s, insert q G) :: rest := by
          simp only [insertSig] at he; rwa [if_pos hs] at he
        rcases List.mem_cons.mp he' with rfl | he''
        · rcases Finset.mem_insert.mp hx with rfl | hx'
          · simpa using (eq_of_beq hs).symm
          · exact H1 (s, G) (List.mem_cons_self _ _) x hx'
        · exact H1 e (List.mem_cons_of_mem _ he'') x hx
      · have he' : e ∈ (s, G) :: insertSig (signatureOf dfa parts alpha q) q rest := by
          simp only [insertSig] at he; rwa [if_neg hs] at he
        rcases List.mem_cons.mp he' with rfl | he''
        · exact H1 (s, G) (List.mem_cons_self _ _) x hx
        · exact ih (fun e' he' => H1 e' (List.mem_cons_of_mem _ he')) e he'' x hx

theorem insertSig_keys {gs : List (List (Option Nat) × Finset Nat)}
    {sig : List (Option Nat)} {q : Nat} :
    (insertSig sig q gs).map (fun e => e.1) =
      if sig ∈ gs.map (fun e => e.1) then gs.map (fun e => e.1)
      else gs.map (fun e => e.1) ++ [sig] := by
  induction gs with
  | nil => simp [insertSig]
  | cons g rest ih =>
      obtain ⟨s, G⟩ := g
      show List.map _ (if s == sig then (s, insert q G) :: rest
        else (s, G) :: insertSig sig q rest) = _
      by_cases hs : s == sig
      · rw [if_pos hs]
        have : sig ∈ (s :: rest.map (fun e => e.1)) := by
          simp [eq_of_beq hs]
        simp only [List.map_cons]
        rw [if_pos this]
      · rw [if_neg hs]
        simp only [List.map_cons, ih]
        have hne : s ≠ sig := fun h => hs (by simp [h])
        by_cases hmem : sig ∈ rest.map (fun e => e.1)
        · rw [if_pos hmem, if_pos (by simp [hmem])]
        · rw [if_neg hmem, if_neg (by simp [hmem, Ne.symm hne])]
          simp

theorem insertSig_nonempty {gs : List (List (Option Nat) × Finset Nat)}
    {sig : List (Option Nat)} {q : Nat}
    (H2 : ∀ e ∈ gs, e.2.Nonempty) :
    ∀ e ∈ insertSig sig q gs, e.2.Nonempty := by
  induction gs with
  | nil =>
      intro e he
      have : e = (sig, {q}) := by simpa [insertSig] using he
      subst this
      exact ⟨q, by simp⟩
  | cons g rest ih =>
      obtain ⟨s, G⟩ := g
      intro e he
      by_cases hs : s == sig
      · have he' : e ∈ (s, insert q G) :: rest := by
          simp only [insertSig] at he; rwa [if_pos hs] at he
        rcases List.mem_cons.mp he' with rfl | he''
        · exact ⟨q, Finset.mem_insert_self _ _⟩
        · exact H2 e (List.mem_cons_of_mem _ he'')
      · have he' : e ∈ (s, G) :: insertSig sig q rest := by
          simp only [insertSig] at he; rwa [if_neg hs] at he
        rcases List.mem_cons.mp he' with rfl | he''
        · exact H2 (s, G) (List.mem_cons_self _ _)
        · exact ih (fun e' he' => H2 e' (List.mem_cons_of_mem _ he')) e he''

theorem insertSig_keys_nodup {gs : List (List (Option Nat) × Finset Nat)}
    {sig : List (Option Nat)} {q : Nat}
    (H3 : (gs.map (fun e => e.1)).Nodup) :
    ((insertSig sig q gs).map (fun e => e.1)).Nodup := by
  rw [insertSig_keys]
  by_cases hmem : sig ∈ gs.map (fun e => e.1)
  · rwa [if_pos hmem]
  · rw [if_neg hmem]
    rw [List.nodup_append]
    exact ⟨H3, List.nodup_singleton _, fun a ha hb => hmem ((List.mem_singleton.mp hb) ▸ ha)⟩

theorem foldGroups_spec (dfa : DFAAut) (parts : List (Finset Nat))
    (alpha : List Char) :
    ∀ (l : List Nat) (gs : List (List (Option Nat) × Finset Nat)),
    (∀ e ∈ gs, ∀ x ∈ e.2, signatureOf dfa parts alpha x = e.1) →
    (∀ e ∈ gs, e.2.Nonempty) →
    ((gs.map (fun e => e.1)).Nodup) →
    (∀ e ∈ l.foldl (fun groups q => insertSig (signatureOf dfa parts alpha q) q groups) gs,
      ∀ x ∈ e.2, signatureOf dfa parts alpha x = e.1) ∧
    (∀ e ∈ l.foldl (fun groups q => insertSig (signatureOf dfa parts alpha q) q groups) gs,
      e.2.Nonempty) ∧
    (((l.foldl (fun groups q => insertSig (signatureOf dfa parts alpha q) q groups) gs).map
      (fun e => e.1)).Nodup) ∧
    (∀ x, (∃ e ∈ l.foldl (fun groups q => insertSig (signatureOf dfa parts alpha q) q groups) gs,
        x ∈ e.2) ↔ (∃ e ∈ gs, x ∈ e.2) ∨ x ∈ l) := by
  intro l
  induction l with
  | nil =>
      intro gs H1 H2 H3
      exact ⟨H1, H2, H3, fun x => by simp⟩
  | cons q l ih =>
      intro gs H1 H2 H3
      obtain ⟨C1, C2, C3, C4⟩ :=
        ih (insertSig (signatureOf dfa parts alpha q) q gs)
          (insertSig_sig H1) (insertSig_nonempty H2) (insertSig_keys_nodup H3)
      refine ⟨C1, C2, C3, fun x => ?_⟩
      rw [List.foldl_cons]
      rw [C4 x, insertSig_mem]
      constructor
      · rintro ((h | rfl) | h)
        · exact Or.inl h
        · exact Or.inr (List.mem_cons_self _ _)
        · exact Or.inr (List.mem_cons_of_mem _ h)
      · rintro (h | h)
        · exact Or.inl (Or.inl h)
        · rcases List.mem_cons.mp h with rfl | h
          · exact Or.inl (Or.inr rfl)
          · exact Or.inr h

theorem refine_partition_spec (dfa : DFAAut) (parts : List (Finset Nat))
    (alpha : List Char) (B : Finset Nat) :
    (∀ S ∈ refine_partition dfa B parts alpha, S.Nonempty) ∧
    (∀ S ∈ refine_partition dfa B parts alpha, S ⊆ B) ∧
    (∀ q ∈ B, ∃ S ∈ refine_partition dfa B parts alpha, q ∈ S) ∧
    (refine_partition dfa B parts alpha).Pairwise
      (fun A C => ∀ x, x ∈ A → x ∈ C → False) ∧
    (∀ S ∈ refine_partition dfa B parts alpha, ∀ q ∈ S, ∀ q' ∈ S,
      signatureOf dfa parts alpha q = signatureOf dfa parts alpha q') ∧
    (B.Nonempty → ¬ 1 < (refine_partition dfa B parts alpha).length →
      refine_partition dfa B parts alpha = [B]) := by
  by_cases hcard : B.card = 1
  · obtain ⟨a, ha⟩ := Finset.card_eq_one.mp hcard
    subst ha
    refine ⟨?_, ?_, ?_, ?_, ?_, ?_⟩ <;>
      simp [refine_partition]
  · have hrw : refine_partition dfa B parts alpha =
        ((sortedNats B).foldl
          (fun groups q => insertSig (signatureOf dfa parts alpha q) q groups) []).map
          (fun e => e.2) := by
      unfold refine_partition
      rw [if_neg hcard]
    obtain ⟨C1, C2, C3, C4⟩ :=
      foldGroups_spec dfa parts alpha (sortedNats B) []
        (by simp) (by simp) (by simp)
    have hmem : ∀ x, (∃ e ∈ (sortedNats B).foldl
        (fun groups q => insertSig (signatureOf dfa parts alpha q) q groups) [],
        x ∈ e.2) ↔ x ∈ B := by
      intro x
      rw [C4 x]
      simp [mem_sortedNats]
    rw [hrw]
    have hsubset : ∀ S ∈ ((sortedNats B).foldl
        (fun groups q => insertSig (signatureOf dfa parts alpha q) q groups) []).map
        (fun e => e.2), S ⊆ B := by
      intro S hS x hx
      obtain ⟨e, he, hSe⟩ := List.mem_map.mp hS
      exact (hmem x).mp ⟨e, he, hSe ▸ hx⟩
    have hcover : ∀ q ∈ B, ∃ S ∈ ((sortedNats B).foldl
        (fun groups q => insertSig (signatureOf dfa parts alpha q) q groups) []).map
        (fun e => e.2), q ∈ S := by
      intro q hq
      obtain ⟨e, he, hqe⟩ := (hmem q).mpr hq
      exact ⟨e.2, List.mem_map.mpr ⟨e, he, rfl⟩, hqe⟩
    refine ⟨?_, hsubset, hcover, ?_, ?_, ?_⟩
    · intro S hS
      obtain ⟨e, he, hSe⟩ := List.mem_map.mp hS
      exact hSe ▸ C2 e he
    · rw [List.pairwise_map]
      have hne : ((sortedNats B).foldl
          (fun groups q => insertSig (signatureOf dfa parts alpha q) q groups) []).Pairwise
          (fun e e' => e.1 ≠ e'.1) := by
        exact List.pairwise_map.mp C3
      refine hne.imp_of_mem ?_
      intro e e' he he' hkey x hx hx'
      exact hkey ((C1 e he x hx).symm.trans (C1 e' he' x hx'))
    · intro S hS q hq q' hq'
      obtain ⟨e, he, hSe⟩ := List.mem_map.mp hS
      rw [(C1 e he q (hSe ▸ hq)), (C1 e he q' (hSe ▸ hq'))]
    · intro hBne hlen
      set gl := ((sortedNats B).foldl
        (fun groups q => insertSig (signatureOf dfa parts alpha q) q groups) []).map
        (fun e => e.2) with hgl
      obtain ⟨q0, hq0⟩ := hBne
      obtain ⟨S0, hS0, _⟩ := hcover q0 hq0
      have hglne : gl ≠ [] := fun h => by rw [h] at hS0; simp at hS0
      have hlen1 : gl.length = 1 := by
        have := List.length_pos.mpr hglne
        omega
      obtain ⟨S, hSeq⟩ := List.length_eq_one.mp hlen1
      rw [hSeq]
      congr 1
      apply Finset.ext
      intro x
      constructor
      · intro hx
        exact hsubset S (by rw [hSeq]; exact List.mem_cons_self _ _) hx
      · intro hx
        obtain ⟨S', hS', hxS'⟩ := hcover x hx
        rw [hSeq] at hS'
        rcases List.mem_cons.mp hS' with rfl | h
        · exact hxS'
        · simp at h

theorem refinePass_eq (dfa : DFAAut) (alpha : List Char) (parts : List (Finset Nat)) :
    refinePass dfa alpha parts =
      ((parts.map (fun p => refine_partition dfa p parts alpha)).join,
        parts.any (fun p => decide (1 < (refine_partition dfa p parts alpha).length))) := by
  have key : ∀ (l : List (Finset Nat)) (acc : List (Finset Nat)) (b : Bool),
      l.foldl (fun acc part =>
        if part.card = 1 then (acc.1 ++ [part], acc.2)
        else
          let sub := refine_partition dfa part parts alpha
          (acc.1 ++ sub, acc.2 || decide (1 < sub.length)))
        (acc, b) =
      (acc ++ (l.map (fun p => refine_partition dfa p parts alpha)).join,
        b || l.any (fun p => decide (1 < (refine_partition dfa p parts alpha).length))) := by
    intro l
    induction l with
    | nil => intro acc b; simp
    | cons p l ih =>
        intro acc b
        rw [List.foldl_cons]
        by_cases hc : p.card = 1
        · have hrp : refine_partition dfa p parts alpha = [p] := by
            unfold refine_partition; rw [if_pos hc]
          simp only [if_pos hc]
          rw [ih]
          simp [hrp]
        · simp only [if_neg hc]
          rw [ih]
          simp [Bool.or_assoc]
  unfold refinePass
  rw [key]
  simp

theorem mem_refinePass_fst {dfa : DFAAut} {alpha : List Char}
    {parts : List (Finset Nat)} {S : Finset Nat} :
    S ∈ (refinePass dfa alpha parts).1 ↔
      ∃ B ∈ parts, S ∈ refine_partition dfa B parts alpha := by
  rw [refinePass_eq]
  simp only [List.mem_join, List.mem_map]
  constructor
  · rintro ⟨l, ⟨B, hB, rfl⟩, hS⟩
    exact ⟨B, hB, hS⟩
  · rintro ⟨B, hB, hS⟩
    exact ⟨_, ⟨B, hB, rfl⟩, hS⟩

theorem refinePass_inv {dfa : DFAAut} {alpha : List Char} {parts : List (Finset Nat)}
    (hinv : PartsInv dfa parts) :
    PartsInv dfa (refinePass dfa alpha parts).1 := by
  obtain ⟨hne, hpw, hsub, hcov, hfin⟩ := hinv
  refine ⟨?_, ?_, ?_, ?_, ?_⟩
  · intro S hS
    obtain ⟨B, hB, hSB⟩ := mem_refinePass_fst.mp hS
    exact (refine_partition_spec dfa parts alpha B).1 S hSB
  · rw [refinePass_eq]
    dsimp only
    rw [List.pairwise_join]
    refine ⟨?_, ?_⟩
    · intro l hl
      obtain ⟨B, hB, rfl⟩ := List.mem_map.mp hl
      exact (refine_partition_spec dfa parts alpha B).2.2.2.1
    · rw [List.pairwise_map]
      refine hpw.imp_of_mem ?_
      intro A B hA hB hdisj S hS S' hS' x hxS hxS'
      exact hdisj x ((refine_partition_spec dfa parts alpha A).2.1 S hS hxS)
        ((refine_partition_spec dfa parts alpha B).2.1 S' hS' hxS')
  · intro S hS q hq
    obtain ⟨B, hB, hSB⟩ := mem_refinePass_fst.mp hS
    exact hsub B hB q ((refine_partition_spec dfa parts alpha B).2.1 S hSB hq)
  · intro q hq
    obtain ⟨B, hB, hqB⟩ := hcov q hq
    obtain ⟨S, hS, hqS⟩ := (refine_partition_spec dfa parts alpha B).2.2.1 q hqB
    exact ⟨S, mem_refinePass_fst.mpr ⟨B, hB, hS⟩, hqS⟩
  · intro S hS q hq q' hq'
    obtain ⟨B, hB, hSB⟩ := mem_refinePass_fst.mp hS
    exact hfin B hB q ((refine_partition_spec dfa parts alpha B).2.1 S hSB hq)
      q' ((refine_partition_spec dfa parts alpha B).2.1 S hSB hq')

theorem refinePass_unchanged {dfa : DFAAut} {alpha : List Char}
    {parts : List (Finset Nat)} (hinv : PartsInv dfa parts)
    (hch : (refinePass dfa alpha parts).2 = false) :
    (refinePass dfa alpha parts).1 = parts ∧ Stable dfa alpha parts := by
  have hb2 : (refinePass dfa alpha parts).2 = parts.any
      (fun p => decide (1 < (refine_partition dfa p parts alpha).length)) := by
    rw [refinePass_eq]
  rw [hb2] at hch
  have hns : ∀ B ∈ parts, refine_partition dfa B parts alpha = [B] := by
    intro B hB
    have hfl := List.any_eq_false.mp hch B hB
    have hfl' : ¬ 1 < (refine_partition dfa B parts alpha).length := by
      simpa using hfl
    exact (refine_partition_spec dfa parts alpha B).2.2.2.2.2 (hinv.1 B hB) hfl'
  constructor
  · rw [refinePass_eq]
    dsimp only
    rw [List.map_congr_left hns]
    exact parts.bind_singleton'
  · intro B hB q hq q' hq'
    have h1 := (refine_partition_spec dfa parts alpha B).2.2.2.2.1
    rw [hns B hB] at h1
    exact h1 B (List.mem_cons_self _ _) q hq q' hq'

theorem parts_length_le {dfa : DFAAut} {parts : List (Finset Nat)}
    (hinv : PartsInv dfa parts) : parts.length ≤ (DFAAut.statesF dfa).card := by
  obtain ⟨hne, hpw, hsub, -, -⟩ := hinv
  have hmapnd : (parts.map sampleOf).Nodup := by
    have hp : List.Pairwise (fun a b => a ≠ b) (parts.map sampleOf) := by
      rw [List.pairwise_map]
      refine hpw.imp_of_mem ?_
      intro A B hA hB hdisj hAB
      exact hdisj (sampleOf A) (sampleOf_mem (hne A hA))
        (hAB ▸ sampleOf_mem (hne B hB))
    exact hp
  have hsubF : (parts.map sampleOf).toFinset ⊆ DFAAut.statesF dfa := by
    intro x hx
    obtain ⟨B, hB, rfl⟩ := List.mem_map.mp (List.mem_toFinset.mp hx)
    exact hsub B hB _ (sampleOf_mem (hne B hB))
  have hcard := List.toFinset_card_of_nodup hmapnd
  calc parts.length = (parts.map sampleOf).toFinset.card := by
        rw [hcard, List.length_map]
    _ ≤ _ := Finset.card_le_card hsubF

theorem join_length_le {rp : Finset Nat → List (Finset Nat)} :
    ∀ (l : List (Finset Nat)), (∀ B ∈ l, rp B ≠ []) →
    l.length ≤ ((l.map rp).join).length := by
  intro l
  induction l with
  | nil => intro _; simp
  | cons B l ih =>
      intro h
      have hj : ((B :: l).map rp).join = rp B ++ (l.map rp).join := by simp
      rw [hj, List.length_append]
      rw [List.length_cons]
      have h1 : 1 ≤ (rp B).length :=
        List.length_pos.mpr (h B (List.mem_cons_self _ _))
      have h2 := ih (fun B' hB' => h B' (List.mem_cons_of_mem _ hB'))
      omega

theorem join_length_lt {rp : Finset Nat → List (Finset Nat)} :
    ∀ (l : List (Finset Nat)), (∀ B ∈ l, rp B ≠ []) →
    (∃ B ∈ l, 1 < (rp B).length) →
    l.length < ((l.map rp).join).length := by
  intro l
  induction l with
  | nil => rintro _ ⟨B, hB, -⟩; simp at hB
  | cons B l ih =>
      rintro h ⟨B', hB', hB'len⟩
      have hj : ((B :: l).map rp).join = rp B ++ (l.map rp).join := by simp
      rw [hj, List.length_append, List.length_cons]
      rcases List.mem_cons.mp hB' with rfl | hB'mem
      · have h2 := join_length_le l (fun C hC => h C (List.mem_cons_of_mem _ hC))
        omega
      · have h1 : 1 ≤ (rp B).length :=
          List.length_pos.mpr (h B (List.mem_cons_self _ _))
        have h2 := ih (fun C hC => h C (List.mem_cons_of_mem _ hC)) ⟨B', hB'mem, hB'len⟩
        omega

theorem refinePass_changed {dfa : DFAAut} {alpha : List Char}
    {parts : List (Finset Nat)} (hinv : PartsInv dfa parts)
    (hch : (refinePass dfa alpha parts).2 = true) :
    parts.length < (refinePass dfa alpha parts).1.length := by
  have hb2 : (refinePass dfa alpha parts).2 = parts.any
      (fun p => decide (1 < (refine_partition dfa p parts alpha).length)) := by
    rw [refinePass_eq]
  rw [hb2] at hch
  obtain ⟨B, hB, hBlen⟩ := List.any_eq_true.mp hch
  rw [refinePass_eq]
  dsimp only
  apply join_length_lt
  · intro B' hB' hnil
    obtain ⟨q, hq⟩ := hinv.1 B' hB'
    obtain ⟨S, hS, -⟩ := (refine_partition_spec dfa parts alpha B').2.2.1 q hq
    rw [hnil] at hS
    simp at hS
  · exact ⟨B, hB, by simpa using hBlen⟩

theorem refineLoop_sound {dfa : DFAAut} {alpha : List Char} :
    ∀ (fuel : Nat) (parts : List (Finset Nat)), PartsInv dfa parts →
    (DFAAut.statesF dfa).card + 1 ≤ fuel + parts.length →
    PartsInv dfa (refineLoop dfa alpha fuel parts) ∧
      Stable dfa alpha (refineLoop dfa alpha fuel parts) := by
  intro fuel
  induction fuel with
  | zero =>
      intro parts hinv hfuel
      have := parts_length_le hinv
      omega
  | succ fuel ih =>
      intro parts hinv hfuel
      cases hch : (refinePass dfa alpha parts).2 with
      | false =>
          obtain ⟨heq, hstab⟩ := refinePass_unchanged hinv hch
          have hred : refineLoop dfa alpha (fuel + 1) parts =
              (refinePass dfa alpha parts).1 := by
            simp [refineLoop, hch]
          rw [hred, heq]
          exact ⟨hinv, hstab⟩
      | true =>
          have hlt := refinePass_changed hinv hch
          have hinv' := @refinePass_inv dfa alpha parts hinv
          have hred : refineLoop dfa alpha (fuel + 1) parts =
              refineLoop dfa alpha fuel (refinePass dfa alpha parts).1 := by
            simp [refineLoop, hch]
          rw [hred]
          exact ih _ hinv' (by omega)

theorem initParts_inv (dfa : DFAAut) (F N : Finset Nat)
    (hF : F = (DFAAut.statesF dfa).filter (fun q => dIsFinal dfa q = true))
    (hN : N = DFAAut.statesF dfa \ F) :
    PartsInv dfa ((if N = ∅ then [] else [N]) ++ (if F = ∅ then [] else [F])) := by
  have hFsub : F ⊆ DFAAut.statesF dfa := by rw [hF]; exact Finset.filter_subset _ _
  have hNsub : N ⊆ DFAAut.statesF dfa := by rw [hN]; exact Finset.sdiff_subset
  have hmem : ∀ B ∈ (if N = ∅ then [] else [N]) ++ (if F = ∅ then [] else [F]),
      (B = N ∧ N ≠ ∅) ∨ (B = F ∧ F ≠ ∅) := by
    intro B hB
    rcases List.mem_append.mp hB with h | h
    · by_cases hNe : N = ∅
      · rw [if_pos hNe] at h; simp at h
      · rw [if_neg hNe] at h
        exact Or.inl ⟨by simpa using h, hNe⟩
    · by_cases hFe : F = ∅
      · rw [if_pos hFe] at h; simp at h
      · rw [if_neg hFe] at h
        exact Or.inr ⟨by simpa using h, hFe⟩
  have hNF : ∀ x, x ∈ N → x ∈ F → False := by
    intro x hxN hxF
    rw [hN] at hxN
    exact (Finset.mem_sdiff.mp hxN).2 hxF
  refine ⟨?_, ?_, ?_, ?_, ?_⟩
  · intro B hB
    rcases hmem B hB with ⟨rfl, hne⟩ | ⟨rfl, hne⟩ <;>
      exact Finset.nonempty_iff_ne_empty.mpr hne
  · by_cases hNe : N = ∅ <;> by_cases hFe : F = ∅ <;>
      simp only [hNe, hFe, if_pos, if_neg, ite_true, ite_false, List.nil_append,
        List.append_nil, if_true, if_false]
    · simp
    · simp
    · simp
    · refine List.pairwise_cons.mpr ⟨?_, by simp⟩
      intro B hB
      rw [List.mem_singleton.mp hB]
      exact hNF
  · intro B hB q hq
    rcases hmem B hB with ⟨rfl, -⟩ | ⟨rfl, -⟩
    · exact hNsub hq
    · exact hFsub hq
  · intro q hq
    by_cases hqF : q ∈ F
    · have hFne : F ≠ ∅ := fun h => by rw [h] at hqF; simp at hqF
      refine ⟨F, ?_, hqF⟩
      rw [List.mem_append]
      right
      rw [if_neg hFne]
      exact List.mem_singleton_self _
    · have hqN : q ∈ N := by
        rw [hN]
        exact Finset.mem_sdiff.mpr ⟨hq, hqF⟩
      have hNne : N ≠ ∅ := fun h => by rw [h] at hqN; simp at hqN
      refine ⟨N, ?_, hqN⟩
      rw [List.mem_append]
      left
      rw [if_neg hNne]
      exact List.mem_singleton_self _
  · intro B hB q hq q' hq'
    rcases hmem B hB with ⟨rfl, -⟩ | ⟨rfl, -⟩
    · have h1 : q ∉ F := fun h => hNF q hq h
      have h2 : q' ∉ F := fun h => hNF q' hq' h
      rw [hF] at h1 h2
      have e1 : dIsFinal dfa q ≠ true := fun h =>
        h1 (Finset.mem_filter.mpr ⟨hNsub hq, h⟩)
      have e2 : dIsFinal dfa q' ≠ true := fun h =>
        h2 (Finset.mem_filter.mpr ⟨hNsub hq', h⟩)
      have e1' : dIsFinal dfa q = false := by simpa using e1
      have e2' : dIsFinal dfa q' = false := by simpa using e2
      rw [e1', e2']
    · rw [hF] at hq hq'
      rw [(Finset.mem_filter.mp hq).2, (Finset.mem_filter.mp hq').2]

/-! ### The quotient DFA built by `_build_minimized_dfa` -/

theorem dLookup_enumFrom_map (f : Nat × Finset Nat → DFAStateRec)
    (hf : ∀ e, (f e).id = e.1) :
    ∀ (l : List (Finset Nat)) (n i : Nat), i < l.length →
    dLookup ((l.enumFrom n).map f) (n + i) = some (f (n + i, l.getD i ∅)) := by
  intro l
  induction l with
  | nil => intro n i hi; simp at hi
  | cons B l ih =>
      intro n i hi
      cases i with
      | zero =>
          show ((f (n, B)) :: (l.enumFrom (n + 1)).map f).find?
            (fun s => s.id == n + 0) = some (f (n + 0, (B :: l).getD 0 ∅))
          rw [List.find?_cons_of_pos _ (by simp [hf])]
          simp
      | succ i =>
          show ((f (n, B)) :: (l.enumFrom (n + 1)).map f).find?
            (fun s => s.id == n + (i + 1)) = some (f (n + (i + 1), (B :: l).getD (i + 1) ∅))
          rw [List.find?_cons_of_neg _ (by simp [hf])]
          have h := ih (n + 1) i (by simpa using hi)
          unfold dLookup at h
          rw [show n + 1 + i = n + (i + 1) by omega] at h
          rw [h]
          simp

theorem dLookup_build {dfa : DFAAut} {parts : List (Finset Nat)} {i : Nat}
    (hi : i < parts.length) :
    dLookup (build_minimized_dfa dfa parts).arena i =
      some ({ id := i
              is_final := decide (∃ q ∈ parts.getD i ∅, dIsFinal dfa q = true)
              transitions := (sortedChars (dAlphabet dfa)).filterMap (fun c =>
                match dTransOf dfa (sampleOf (parts.getD i ∅)) c with
                | none => none
                | some t =>
                    match partIndexOf parts t with
                    | some j => some (c, j)
                    | none => none) } : DFAStateRec) := by
  have h := dLookup_enumFrom_map
    (fun e => ({ id := e.1
                 is_final := decide (∃ q ∈ e.2, dIsFinal dfa q = true)
                 transitions := (sortedChars (dAlphabet dfa)).filterMap (fun c =>
                   match dTransOf dfa (sampleOf e.2) c with
                   | none => none
                   | some t =>
                       match partIndexOf parts t with
                       | some j => some (c, j)
                       | none => none) } : DFAStateRec))
    (fun e => rfl) parts 0 i hi
  simpa using h

theorem dIsFinal_build {dfa : DFAAut} {parts : List (Finset Nat)} {i : Nat}
    (hi : i < parts.length) :
    dIsFinal (build_minimized_dfa dfa parts) i =
      decide (∃ q ∈ parts.getD i ∅, dIsFinal dfa q = true) := by
  rw [dIsFinal_eq (dLookup_build hi)]

theorem find?_filterMap_of_not_mem {g : Char → Option (Char × Nat)}
    (hg : ∀ c' p, g c' = some p → p.1 = c') :
    ∀ (l : List Char) (c : Char), c ∉ l →
    (l.filterMap g).find? (fun p => p.1 == c) = none := by
  intro l
  induction l with
  | nil => intro c _; simp
  | cons a l ih =>
      intro c hc
      have hca : c ≠ a := fun h => hc (h ▸ List.mem_cons_self _ _)
      have hcl : c ∉ l := fun h => hc (List.mem_cons_of_mem _ h)
      cases hga : g a with
      | none =>
          have heq : (a :: l).filterMap g = l.filterMap g := by
            simp [List.filterMap_cons, hga]
          rw [heq]
          exact ih c hcl
      | some p =>
          have heq : (a :: l).filterMap g = p :: l.filterMap g := by
            simp [List.filterMap_cons, hga]
          rw [heq, List.find?_cons_of_neg]
          · exact ih c hcl
          · have hp := hg a p hga
            simp only [hp, beq_iff_eq, Bool.not_eq_true, decide_eq_false_iff_not]
            exact fun h => hca h.symm

theorem find?_filterMap_of_mem {g : Char → Option (Char × Nat)}
    (hg : ∀ c' p, g c' = some p → p.1 = c') :
    ∀ (l : List Char), l.Nodup → ∀ c ∈ l,
    (l.filterMap g).find? (fun p => p.1 == c) = g c := by
  intro l
  induction l with
  | nil => intro _ c hc; simp at hc
  | cons a l ih =>
      intro hnd c hc
      obtain ⟨hal, hndl⟩ := List.nodup_cons.mp hnd
      by_cases hca : c = a
      · subst hca
        cases hga : g c with
        | none =>
            have heq : (c :: l).filterMap g = l.filterMap g := by
              simp [List.filterMap_cons, hga]
            rw [heq, find?_filterMap_of_not_mem hg l c hal]
        | some p =>
            have heq : (c :: l).filterMap g = p :: l.filterMap g := by
              simp [List.filterMap_cons, hga]
            rw [heq, List.find?_cons_of_pos _ (by simp [hg c p hga])]
      · have hcl : c ∈ l := by
          rcases List.mem_cons.mp hc with rfl | h
          · exact absurd rfl hca
          · exact h
        cases hga : g a with
        | none =>
            have heq : (a :: l).filterMap g = l.filterMap g := by
              simp [List.filterMap_cons, hga]
            rw [heq]
            exact ih hndl c hcl
        | some p =>
            have heq : (a :: l).filterMap g = p :: l.filterMap g := by
              simp [List.filterMap_cons, hga]
            rw [heq, List.find?_cons_of_neg]
            · exact ih hndl c hcl
            · have hp := hg a p hga
              simp only [hp, beq_iff_eq, Bool.not_eq_true, decide_eq_false_iff_not]
              exact fun h => hca h.symm

theorem buildG_key (dfa : DFAAut) (parts : List (Finset Nat)) (B : Finset Nat) :
    ∀ c' p, (match dTransOf dfa (sampleOf B) c' with
      | none => none
      | some t =>
          match partIndexOf parts t with
          | some j => some (c', j)
          | none => (none : Option (Char × Nat))) = some p → p.1 = c' := by
  intro c' p h
  cases ht : dTransOf dfa (sampleOf B) c' with
  | none => simp [ht] at h
  | some t =>
      simp only [ht] at h
      cases hj : partIndexOf parts t with
      | none => simp [hj] at h
      | some j =>
          simp only [hj] at h
          obtain rfl := Option.some.inj h
          rfl

theorem dTransOf_build {dfa : DFAAut} {parts : List (Finset Nat)} {i : Nat}
    (hi : i < parts.length) (c : Char) (hc : c ∈ sortedChars (dAlphabet dfa)) :
    dTransOf (build_minimized_dfa dfa parts) i c =
      (match dTransOf dfa (sampleOf (parts.getD i ∅)) c with
       | none => none
       | some t =>
           match partIndexOf parts t with
           | some j => some j
           | none => none) := by
  rw [dTransOf_eq (dLookup_build hi) c]
  show (((sortedChars (dAlphabet dfa)).filterMap (fun c =>
      match dTransOf dfa (sampleOf (parts.getD i ∅)) c with
      | none => none
      | some t =>
          match partIndexOf parts t with
          | some j => some (c, j)
          | none => none)).find? (fun p => p.1 == c)).map (fun p => p.2) = _
  rw [find?_filterMap_of_mem (buildG_key dfa parts (parts.getD i ∅)) _
    (sortedChars_nodup _) c hc]
  cases ht : dTransOf dfa (sampleOf (parts.getD i ∅)) c with
  | none => rfl
  | some t =>
      cases hj : partIndexOf parts t with
      | none => simp [hj]
      | some j => simp [hj]

theorem dTransOf_build_none {dfa : DFAAut} {parts : List (Finset Nat)} {i : Nat}
    (hi : i < parts.length) (c : Char) (hc : c ∉ sortedChars (dAlphabet dfa)) :
    dTransOf (build_minimized_dfa dfa parts) i c = none := by
  rw [dTransOf_eq (dLookup_build hi) c]
  show (((sortedChars (dAlphabet dfa)).filterMap (fun c =>
      match dTransOf dfa (sampleOf (parts.getD i ∅)) c with
      | none => none
      | some t =>
          match partIndexOf parts t with
      | some j => some (c, j)
          | none => none)).find? (fun p => p.1 == c)).map (fun p => p.2) = _
  rw [find?_filterMap_of_not_mem (buildG_key dfa parts (parts.getD i ∅)) _ c hc]
  rfl

theorem map_apply_eq_of_map_eq {f g : Char → Option Nat} :
    ∀ (l : List Char), l.map f = l.map g → ∀ c ∈ l, f c = g c := by
  intro l
  induction l with
  | nil => intro _ c hc; simp at hc
  | cons a l ih =>
      intro h c hc
      rw [List.map_cons, List.map_cons] at h
      obtain ⟨h1, h2⟩ := List.cons.inj h
      rcases List.mem_cons.mp hc with rfl | hcl
      · exact h1
      · exact ih h2 c hcl

theorem min_corr {dfa : DFAAut} {parts : List (Finset Nat)}
    (hinv : PartsInv dfa parts)
    (hstab : Stable dfa (sortedChars (dAlphabet dfa)) parts) :
    ∀ (w : List Char) (q i : Nat), q ∈ DFAAut.statesF dfa →
      i < parts.length → q ∈ parts.getD i ∅ →
      dSimulateFrom (build_minimized_dfa dfa parts) i w = dSimulateFrom dfa q w := by
  obtain ⟨hne, hpw, hsub, hcov, hfin⟩ := hinv
  intro w
  induction w with
  | nil =>
      intro q i hq hi hqB
      have hB := getD_mem_of_lt hi
      show dIsFinal (build_minimized_dfa dfa parts) i = dIsFinal dfa q
      rw [dIsFinal_build hi]
      cases hfq : dIsFinal dfa q with
      | true =>
          rw [decide_eq_true (⟨q, hqB, hfq⟩ : ∃ x ∈ parts.getD i ∅,
            dIsFinal dfa x = true)]
      | false =>
          rw [decide_eq_false]
          rintro ⟨q', hq', hfq'⟩
          have h := hfin _ hB q hqB q' hq'
          rw [hfq, hfq'] at h
          exact absurd h (by simp)
  | cons c w ih =>
      intro q i hq hi hqB
      have hB := getD_mem_of_lt hi
      have hsample : sampleOf (parts.getD i ∅) ∈ parts.getD i ∅ :=
        sampleOf_mem (hne _ hB)
      have hsampleF : sampleOf (parts.getD i ∅) ∈ DFAAut.statesF dfa :=
        hsub _ hB _ hsample
      rw [dSimulateFrom_cons, dSimulateFrom_cons]
      by_cases hca : c ∈ sortedChars (dAlphabet dfa)
      · have hsig := hstab _ hB q hqB _ hsample
        have hpt := map_apply_eq_of_map_eq _ hsig c hca
        rw [dTransOf_build hi c hca]
        cases hq1 : dTransOf dfa q c with
        | none =>
            simp only [hq1] at hpt ⊢
            cases hq2 : dTransOf dfa (sampleOf (parts.getD i ∅)) c with
            | none => rfl
            | some t' =>
                simp only [hq2] at hpt ⊢
                rw [← hpt]
        | some t =>
            simp only [hq1] at hpt
            have htF : t ∈ DFAAut.statesF dfa := dStatesF_closed_trans dfa hq hq1
            obtain ⟨Bt, hBt, htBt⟩ := hcov t htF
            have hsome := partIdxRec_isSome_of_mem hBt htBt
            cases hj : partIdxRec parts t with
            | none => rw [hj] at hsome; simp at hsome
            | some j =>
                obtain ⟨hjlt, htj⟩ := partIdxRec_some hj
                have hpio : partIndexOf parts t = some j := by
                  rw [partIndexOf_eq_rec, hj]
                rw [hpio] at hpt
                cases hq2 : dTransOf dfa (sampleOf (parts.getD i ∅)) c with
                | none =>
                    simp only [hq2] at hpt
                    exact absurd hpt (by simp)
                | some t' =>
                    simp only [hq2] at hpt ⊢
                    rw [← hpt]
                    exact ih t j htF hjlt htj
      · rw [dTransOf_build_none hi c hca, dTransOf_none_of_not_alpha hq hca]

theorem build_simulate {dfa : DFAAut} {parts : List (Finset Nat)}
    (hinv : PartsInv dfa parts)
    (hstab : Stable dfa (sortedChars (dAlphabet dfa)) parts) (w : List Char) :
    DFAAut.simulate (build_minimized_dfa dfa parts) w = DFAAut.simulate dfa w := by
  have hstart : dfa.start ∈ DFAAut.statesF dfa := dStart_mem_statesF dfa
  obtain ⟨B, hB, hsB⟩ := hinv.2.2.2.1 dfa.start hstart
  have hsome := partIdxRec_isSome_of_mem hB hsB
  cases hj : partIdxRec parts dfa.start with
  | none => rw [hj] at hsome; simp at hsome
  | some i0 =>
      obtain ⟨hi0, hsi0⟩ := partIdxRec_some hj
      have hpio : partIndexOf parts dfa.start = some i0 := by
        rw [partIndexOf_eq_rec, hj]
      unfold DFAAut.simulate
      have hstartEq : (build_minimized_dfa dfa parts).start = i0 := by
        show (partIndexOf parts dfa.start).getD 0 = i0
        rw [hpio]
        rfl
      rw [hstartEq]
      exact min_corr hinv hstab w dfa.start i0 hstart hi0 hsi0

theorem minimize_dfa_simulate (dfa : DFAAut) (w : List Char) :
    DFAAut.simulate (minimize_dfa dfa) w = DFAAut.simulate dfa w := by
  unfold minimize_dfa
  by_cases hcard : (DFAAut.statesF dfa).card ≤ 1
  · rw [if_pos hcard]
  · rw [if_neg hcard]
    dsimp only
    obtain ⟨hinv, hstab⟩ := @refineLoop_sound dfa (sortedChars (dAlphabet dfa))
      ((DFAAut.statesF dfa).card + 1) _
      (initParts_inv dfa _ _ rfl rfl) (by omega)
    exact build_simulate hinv hstab w

/-! ### The Thompson builder produces `'ε'`-free transition maps -/

theorem arenaEpsFree_newState {st : BuildSt} {fin : Bool}
    (h : arenaEpsFree st.arena) : arenaEpsFree (newState st fin).1.arena := by
  intro s hs p hp
  rcases List.mem_append.mp hs with hs' | hs'
  · exact h s hs' p hp
  · have hse : s = ⟨st.counter, fin, [], []⟩ := by simpa using hs'
    rw [hse] at hp
    simp at hp

theorem arenaEpsFree_setNonFinal {arena : List NFAStateRec} {q : Nat}
    (h : arenaEpsFree arena) : arenaEpsFree (setNonFinal arena q) := by
  intro s hs p hp
  obtain ⟨s0, hs0, rfl⟩ := List.mem_map.mp hs
  refine h s0 hs0 p ?_
  by_cases hid : s0.id == q
  · simpa [hid] using hp
  · simpa [hid] using hp

theorem arenaEpsFree_addEps {arena : List NFAStateRec} {q t : Nat}
    (h : arenaEpsFree arena) : arenaEpsFree (addTransitionA arena q 'ε' t) := by
  intro s hs p hp
  obtain ⟨s0, hs0, rfl⟩ := List.mem_map.mp hs
  refine h s0 hs0 p ?_
  by_cases hid : s0.id == q
  · simpa [addTransitionA, hid] using hp
  · simpa [addTransitionA, hid] using hp

theorem addToTrans_key_mem {c : Char} {t : Nat} :
    ∀ (l : List (Char × List Nat)), ∀ p ∈ addToTrans l c t,
      p.1 = c ∨ ∃ q ∈ l, p.1 = q.1 := by
  intro l
  induction l with
  | nil =>
      intro p hp
      have hpe : p = (c, [t]) := by simpa [addToTrans] using hp
      exact Or.inl (by rw [hpe])
  | cons e rest ih =>
      obtain ⟨c', ts⟩ := e
      intro p hp
      by_cases hc : c' == c
      · have hp' : p ∈ (c', ts ++ [t]) :: rest := by
          simpa [addToTrans, hc] using hp
        rcases List.mem_cons.mp hp' with rfl | hp''
        · exact Or.inr ⟨(c', ts), List.mem_cons_self _ _, rfl⟩
        · exact Or.inr ⟨p, List.mem_cons_of_mem _ hp'', rfl⟩
      · have hp' : p ∈ (c', ts) :: addToTrans rest c t := by
          simpa [addToTrans, hc] using hp
        rcases List.mem_cons.mp hp' with rfl | hp''
        · exact Or.inr ⟨(c', ts), List.mem_cons_self _ _, rfl⟩
        · rcases ih p hp'' with h1 | ⟨q', hq', hpq⟩
          · exact Or.inl h1
          · exact Or.inr ⟨q', List.mem_cons_of_mem _ hq', hpq⟩

theorem arenaEpsFree_addNonEps {arena : List NFAStateRec} {q t : Nat} {c : Char}
    (hc : c ≠ 'ε') (h : arenaEpsFree arena) :
    arenaEpsFree (addTransitionA arena q c t) := by
  intro s hs p hp
  obtain ⟨s0, hs0, rfl⟩ := List.mem_map.mp hs
  by_cases hid : s0.id == q
  · have hceps : (c == 'ε') = false := by simpa using hc
    have hp' : p ∈ addToTrans s0.transitions c t := by
      simpa [addTransitionA, hid, hceps] using hp
    rcases addToTrans_key_mem s0.transitions p hp' with h1 | ⟨q', hq', hpq⟩
    · rw [h1]; exact hc
    · rw [hpq]; exact h s0 hs0 q' hq'
  · exact h s0 hs0 p (by simpa [addTransitionA, hid] using hp)

theorem build_rec_epsFree :
    ∀ (ast : ASTNode) (st : BuildSt) (res : BuildSt × Nat × Nat),
    build_rec ast st = some res → arenaEpsFree st.arena →
    arenaEpsFree res.1.arena := by
  intro ast
  induction ast with
  | operand v =>
      intro st res h hfree
      unfold build_rec at h
      obtain rfl := Option.some.inj h
      by_cases hv : v = 'ε'
      · subst hv
        exact arenaEpsFree_addEps
          (arenaEpsFree_newState (arenaEpsFree_newState hfree))
      · exact arenaEpsFree_addNonEps hv
          (arenaEpsFree_newState (arenaEpsFree_newState hfree))
  | unary_op v child ih =>
      intro st res h hfree
      unfold build_rec at h
      by_cases h1 : v = '.' ∨ v = '|'
      · rw [if_pos h1] at h; exact absurd h (by simp)
      · rw [if_neg h1] at h
        by_cases h2 : v = '*'
        · rw [if_pos h2] at h
          cases hb : build_rec child st with
          | none => rw [hb] at h; exact absurd h (by simp)
          | some r1 =>
              obtain ⟨st1, s1, f1⟩ := r1
              simp only [hb] at h
              obtain rfl := Option.some.inj h
              exact arenaEpsFree_setNonFinal (arenaEpsFree_addEps
                (arenaEpsFree_addEps (arenaEpsFree_addEps (arenaEpsFree_addEps
                  (arenaEpsFree_newState (arenaEpsFree_newState
                    (ih st (st1, s1, f1) hb hfree)))))))
        · rw [if_neg h2] at h; exact absurd h (by simp)
  | binary_op v l r ihl ihr =>
      intro st res h hfree
      unfold build_rec at h
      by_cases h1 : v = '.'
      · rw [if_pos h1] at h
        cases hb : build_rec l st with
        | none => rw [hb] at h; exact absurd h (by simp)
        | some r1 =>
            obtain ⟨st1, s1, f1⟩ := r1
            simp only [hb] at h
            cases hb2 : build_rec r st1 with
            | none => rw [hb2] at h; exact absurd h (by simp)
            | some r2 =>
                obtain ⟨st2, s2, f2⟩ := r2
                simp only [hb2] at h
                obtain rfl := Option.some.inj h
                exact arenaEpsFree_addEps (arenaEpsFree_setNonFinal
                  (ihr st1 (st2, s2, f2) hb2 (ihl st (st1, s1, f1) hb hfree)))
      · rw [if_neg h1] at h
        by_cases h2 : v = '|'
        · rw [if_pos h2] at h
          cases hb : build_rec l st with
          | none => rw [hb] at h; exact absurd h (by simp)
          | some r1 =>
              obtain ⟨st1, s1, f1⟩ := r1
              simp only [hb] at h
              cases hb2 : build_rec r st1 with
              | none => rw [hb2] at h; exact absurd h (by simp)
              | some r2 =>
                  obtain ⟨st2, s2, f2⟩ := r2
                  simp only [hb2] at h
                  obtain rfl := Option.some.inj h
                  exact arenaEpsFree_addEps (arenaEpsFree_addEps
                    (arenaEpsFree_setNonFinal (arenaEpsFree_setNonFinal
                      (arenaEpsFree_addEps (arenaEpsFree_addEps
                        (arenaEpsFree_newState (arenaEpsFree_newState
                          (ihr st1 (st2, s2, f2) hb2
                            (ihl st (st1, s1, f1) hb hfree)))))))))
        · rw [if_neg h2] at h
          by_cases h3 : v = '*'
          · rw [if_pos h3] at h
            cases hb : build_rec l st with
            | none => rw [hb] at h; exact absurd h (by simp)
            | some r1 =>
                obtain ⟨st1, s1, f1⟩ := r1
                simp only [hb] at h
                obtain rfl := Option.some.inj h
                exact arenaEpsFree_setNonFinal (arenaEpsFree_addEps
                  (arenaEpsFree_addEps (arenaEpsFree_addEps (arenaEpsFree_addEps
                    (arenaEpsFree_newState (arenaEpsFree_newState
                      (ihl st (st1, s1, f1) hb hfree)))))))
          · rw [if_neg h3] at h; exact absurd h (by simp)

theorem build_nfa_epsFree {ast : ASTNode} {nfa : NFAAut}
    (h : build_nfa_from_ast ast = some nfa) : epsFree nfa := by
  unfold build_nfa_from_ast at h
  cases hb : build_rec ast ⟨[], 0⟩ with
  | none => rw [hb] at h; exact absurd h (by simp)
  | some r =>
      obtain ⟨st, s, f⟩ := r
      simp only [hb] at h
      obtain rfl := Option.some.inj h
      intro s' hs' p hp
      exact build_rec_epsFree ast ⟨[], 0⟩ (st, s, f) hb
        (by intro x hx; simp at hx) s' hs' p hp

/-- C1: Language preservation across the pipeline: for every NFA produced
by the Thompson builder from a parsed AST and the DFA obtained from it by
subset construction, the NFA simulation, the DFA simulation and the
minimized DFA's simulation agree on every input string. -/
theorem c1_language_preservation {ast : ASTNode} {nfa : NFAAut} {dfa : DFAAut}
    (hn : build_nfa_from_ast ast = some nfa) (hd : nfa_to_dfa nfa = some dfa)
    (w : List Char) :
    NFAAut.simulate nfa w = DFAAut.simulate dfa w ∧
    DFAAut.simulate dfa w = DFAAut.simulate (minimize_dfa dfa) w :=
  ⟨nfa_to_dfa_simulate nfa (build_nfa_epsFree hn) hd w,
   (minimize_dfa_simulate dfa w).symm⟩

/-- Witness for C1 at the regex `a`: the Thompson NFA and subset-construction
DFA are the displayed two-state machines and the three simulations agree on
the input `"a"`. -/
theorem c1_witness :
    build_nfa_from_ast (ASTNode.operand 'a') =
      some (⟨[⟨0, false, [('a', [1])], []⟩, ⟨1, true, [], []⟩], 0, 1⟩ : NFAAut) ∧
    nfa_to_dfa (⟨[⟨0, false, [('a', [1])], []⟩, ⟨1, true, [], []⟩], 0, 1⟩ : NFAAut) =
      some (⟨[⟨0, false, [('a', 1)]⟩, ⟨1, true, []⟩], 0⟩ : DFAAut) ∧
    (NFAAut.simulate (⟨[⟨0, false, [('a', [1])], []⟩, ⟨1, true, [], []⟩], 0, 1⟩ : NFAAut) ['a'] =
        DFAAut.simulate (⟨[⟨0, false, [('a', 1)]⟩, ⟨1, true, []⟩], 0⟩ : DFAAut) ['a'] ∧
      DFAAut.simulate (⟨[⟨0, false, [('a', 1)]⟩, ⟨1, true, []⟩], 0⟩ : DFAAut) ['a'] =
        DFAAut.simulate (minimize_dfa (⟨[⟨0, false, [('a', 1)]⟩, ⟨1, true, []⟩], 0⟩ : DFAAut)) ['a']) :=
  ⟨by decide, by decide,
   @c1_language_preservation (ASTNode.operand 'a')
     (⟨[⟨0, false, [('a', [1])], []⟩, ⟨1, true, [], []⟩], 0, 1⟩ : NFAAut)
     (⟨[⟨0, false, [('a', 1)]⟩, ⟨1, true, []⟩], 0⟩ : DFAAut)
     (by decide) (by decide) ['a']⟩

/-- C8: running the full pipeline (parse, Thompson build, subset
construction, minimize) on the regex `(a|b)*abb(a|b)*` succeeds, the
minimized DFA has exactly 4 reachable states, and the unminimized and
minimized DFAs both accept `"abb"`, `"aabba"`, `"ababb"` and both reject
`"ab"`, `"aa"`, `""`. -/
theorem c8_classic_example :
    (((parse "(a|b)*abb(a|b)*".toList).bind build_nfa_from_ast).bind nfa_to_dfa).map
      (fun dfa =>
        ((DFAAut.statesF (minimize_dfa dfa)).card,
         (["abb", "aabba", "ababb", "ab", "aa", ""].map
           (fun s => DFAAut.simulate dfa s.toList)),
         (["abb", "aabba", "ababb", "ab", "aa", ""].map
           (fun s => DFAAut.simulate (minimize_dfa dfa) s.toList)))) =
      some (4, [true, true, true, false, false, false],
               [true, true, true, false, false, false]) := by
  set_option maxRecDepth 10000 in decide

/-! ### Counting the minimized DFA's reachable states -/

theorem find?_key_nodup {l : List (Char × Nat)} {e : Char × Nat}
    (hnd : (l.map (fun p => p.1)).Nodup) (he : e ∈ l) :
    l.find? (fun p => p.1 == e.1) = some e := by
  induction l with
  | nil => simp at he
  | cons a l ih =>
      rw [List.map_cons, List.nodup_cons] at hnd
      rcases List.mem_cons.mp he with rfl | hel
      · exact List.find?_cons_of_pos _ (by simp)
      · rw [List.find?_cons_of_neg]
        · exact ih hnd.2 hel
        · simp only [beq_iff_eq, Bool.not_eq_true, decide_eq_false_iff_not]
          intro hae
          exact hnd.1 (hae ▸ List.mem_map_of_mem _ hel)

theorem dSucc_dTransOf {dfa : DFAAut} {p t : Nat}
    (hkeys : ∀ s ∈ dfa.arena, (s.transitions.map (fun e => e.1)).Nodup)
    (ht : t ∈ dSucc dfa p) : ∃ c, dTransOf dfa p c = some t := by
  unfold dSucc at ht
  cases hfind : dLookup dfa.arena p with
  | none => simp only [hfind] at ht; simp at ht
  | some s =>
      simp only [hfind] at ht
      obtain ⟨e, he, rfl⟩ := List.mem_map.mp ht
      refine ⟨e.1, ?_⟩
      unfold dTransOf
      simp only [hfind]
      have hs : s ∈ dfa.arena := List.mem_of_find?_eq_some hfind
      rw [find?_key_nodup (hkeys s hs) he]

theorem block_trans {dfa : DFAAut} {parts : List (Finset Nat)}
    (hinv : PartsInv dfa parts)
    (hstab : Stable dfa (sortedChars (dAlphabet dfa)) parts)
    {i : Nat} (hi : i < parts.length) {x : Nat} (hx : x ∈ parts.getD i ∅)
    (hxF : x ∈ DFAAut.statesF dfa) (c : Char) :
    dTransOf (build_minimized_dfa dfa parts) i c =
      (match dTransOf dfa x c with
       | none => none
       | some t => partIndexOf parts t) := by
  have hB := getD_mem_of_lt hi
  by_cases hc : c ∈ sortedChars (dAlphabet dfa)
  · rw [dTransOf_build hi c hc]
    have hsig := hstab _ hB x hx _ (sampleOf_mem (hinv.1 _ hB))
    have hpt := map_apply_eq_of_map_eq _ hsig c hc
    cases hs : dTransOf dfa (sampleOf (parts.getD i ∅)) c with
    | none =>
        simp only [hs] at hpt ⊢
        cases hx1 : dTransOf dfa x c with
        | none => rfl
        | some t =>
            simp only [hx1] at hpt ⊢
            exact hpt.symm
    | some t' =>
        simp only [hs] at hpt ⊢
        cases hx1 : dTransOf dfa x c with
        | none =>
            simp only [hx1] at hpt ⊢
            rw [← hpt]
        | some t =>
            simp only [hx1] at hpt ⊢
            rw [← hpt]
            cases hpp : partIndexOf parts t <;> rfl
  · rw [dTransOf_build_none hi c hc, dTransOf_none_of_not_alpha hxF hc]

theorem block_final {dfa : DFAAut} {parts : List (Finset Nat)}
    (hinv : PartsInv dfa parts)
    {i : Nat} (hi : i < parts.length) {x : Nat} (hx : x ∈ parts.getD i ∅) :
    dIsFinal (build_minimized_dfa dfa parts) i = dIsFinal dfa x := by
  have hB := getD_mem_of_lt hi
  rw [dIsFinal_build hi]
  cases hfq : dIsFinal dfa x with
  | true =>
      rw [decide_eq_true (⟨x, hx, hfq⟩ : ∃ y ∈ parts.getD i ∅,
        dIsFinal dfa y = true)]
  | false =>
      rw [decide_eq_false]
      rintro ⟨q', hq', hfq'⟩
      have h := hinv.2.2.2.2 _ hB x hx q' hq'
      rw [hfq, hfq'] at h
      exact absurd h (by simp)

theorem filterMap_key_mem {g : Char → Option (Char × Nat)}
    (hg : ∀ c' p, g c' = some p → p.1 = c') :
    ∀ (l : List Char), ∀ p ∈ l.filterMap g, p.1 ∈ l := by
  intro l
  induction l with
  | nil => intro p hp; simp at hp
  | cons a l ih =>
      intro p hp
      cases hga : g a with
      | none =>
          have heq : (a :: l).filterMap g = l.filterMap g := by
            simp [List.filterMap_cons, hga]
          rw [heq] at hp
          exact List.mem_cons_of_mem _ (ih p hp)
      | some e =>
          have heq : (a :: l).filterMap g = e :: l.filterMap g := by
            simp [List.filterMap_cons, hga]
          rw [heq] at hp
          rcases List.mem_cons.mp hp with rfl | hp'
          · rw [hg a p hga]; exact List.mem_cons_self _ _
          · exact List.mem_cons_of_mem _ (ih p hp')

theorem filterMap_keys_nodup {g : Char → Option (Char × Nat)}
    (hg : ∀ c' p, g c' = some p → p.1 = c') :
    ∀ (l : List Char), l.Nodup → ((l.filterMap g).map (fun p => p.1)).Nodup := by
  intro l
  induction l with
  | nil => intro _; simp
  | cons a l ih =>
      intro hnd
      obtain ⟨hal, hndl⟩ := List.nodup_cons.mp hnd
      cases hga : g a with
      | none =>
          have heq : (a :: l).filterMap g = l.filterMap g := by
            simp [List.filterMap_cons, hga]
          rw [heq]
          exact ih hndl
      | some e =>
          have heq : (a :: l).filterMap g = e :: l.filterMap g := by
            simp [List.filterMap_cons, hga]
          rw [heq, List.map_cons, List.nodup_cons]
          refine ⟨?_, ih hndl⟩
          intro hmem
          obtain ⟨p, hp, hpe⟩ := List.mem_map.mp hmem
          have h1 : p.1 ∈ l := filterMap_key_mem hg l p hp
          rw [hpe, hg a e hga] at h1
          exact hal h1

theorem build_keys_nodup (dfa : DFAAut) (parts : List (Finset Nat)) :
    ∀ s ∈ (build_minimized_dfa dfa parts).arena,
      (s.transitions.map (fun p => p.1)).Nodup := by
  intro s hs
  obtain ⟨e, he, rfl⟩ := List.mem_map.mp hs
  exact filterMap_keys_nodup (buildG_key dfa parts e.2) _ (sortedChars_nodup _)

theorem statesF_build_subset {dfa : DFAAut} {parts : List (Finset Nat)}
    (hlen : 0 < parts.length) :
    DFAAut.statesF (build_minimized_dfa dfa parts) ⊆ Finset.range parts.length := by
  apply iterStep_subset_of_closed
  · intro x hx
    rw [Finset.mem_singleton.mp hx]
    rw [Finset.mem_range]
    show (partIndexOf parts dfa.start).getD 0 < parts.length
    cases hp : partIndexOf parts dfa.start with
    | none => simpa using hlen
    | some i0 =>
        rw [partIndexOf_eq_rec] at hp
        obtain ⟨hi0, -⟩ := partIdxRec_some hp
        simpa using hi0
  · intro q hq t ht
    rw [Finset.mem_range] at hq ⊢
    unfold dSucc at ht
    cases hfind : dLookup (build_minimized_dfa dfa parts).arena q with
    | none => simp only [hfind] at ht; simp at ht
    | some s =>
        simp only [hfind] at ht
        rw [dLookup_build hq] at hfind
        obtain rfl := Option.some.inj hfind
        obtain ⟨p, hp, rfl⟩ := List.mem_map.mp ht
        obtain ⟨c', hc', hgc'⟩ := List.mem_filterMap.mp hp
        cases h1 : dTransOf dfa (sampleOf (parts.getD q ∅)) c' with
        | none =>
            simp only [h1] at hgc'
            exact absurd hgc' (by simp)
        | some t' =>
            simp only [h1] at hgc'
            cases h2 : partIndexOf parts t' with
            | none =>
                simp only [h2] at hgc'
                exact absurd hgc' (by simp)
            | some j =>
                simp only [h2] at hgc'
                obtain rfl := Option.some.inj hgc'
                rw [partIndexOf_eq_rec] at h2
                exact (partIdxRec_some h2).1

theorem statesF_build_superset {dfa : DFAAut} {parts : List (Finset Nat)}
    (hinv : PartsInv dfa parts)
    (hstab : Stable dfa (sortedChars (dAlphabet dfa)) parts)
    (hkeys : ∀ s ∈ dfa.arena, (s.transitions.map (fun e => e.1)).Nodup) :
    ∀ i, i < parts.length → i ∈ DFAAut.statesF (build_minimized_dfa dfa parts) := by
  have haux : ∀ (k : Nat), ∀ q ∈ (stepWith (dSucc dfa))^[k] {dfa.start},
      ∀ i, i < parts.length → q ∈ parts.getD i ∅ →
      i ∈ DFAAut.statesF (build_minimized_dfa dfa parts) := by
    intro k
    induction k with
    | zero =>
        intro q hq i hi hqi
        have hqs : q = dfa.start := by simpa using hq
        subst hqs
        have hrec : partIdxRec parts dfa.start = some i :=
          partIdxRec_unique hinv.2.1 hi hqi
        have hstart : (build_minimized_dfa dfa parts).start = i := by
          show (partIndexOf parts dfa.start).getD 0 = i
          rw [partIndexOf_eq_rec, hrec]
          rfl
        rw [← hstart]
        exact dStart_mem_statesF _
    | succ k ih =>
        intro q hq i hi hqi
        rw [Function.iterate_succ_apply'] at hq
        rcases mem_stepWith.mp hq with hq' | ⟨p, hp, hqsucc⟩
        · exact ih q hq' i hi hqi
        · have hpF : p ∈ DFAAut.statesF dfa :=
            iterStep_subset_of_closed (Finset.singleton_subset_iff.mpr
              (dStart_mem_statesF dfa)) (fun a ha t ht => dStatesF_closed dfa ha ht) k hp
          obtain ⟨c, hc⟩ := dSucc_dTransOf hkeys hqsucc
          obtain ⟨Bp, hBp, hpBp⟩ := hinv.2.2.2.1 p hpF
          have hpsome := partIdxRec_isSome_of_mem hBp hpBp
          cases hpj : partIdxRec parts p with
          | none => rw [hpj] at hpsome; simp at hpsome
          | some ip =>
              obtain ⟨hiplt, hpip⟩ := partIdxRec_some hpj
              have hipF := ih p hp ip hiplt hpip
              have hqrec : partIdxRec parts q = some i :=
                partIdxRec_unique hinv.2.1 hi hqi
              have htrans := block_trans hinv hstab hiplt hpip hpF c
              rw [hc] at htrans
              have htrans2 : dTransOf (build_minimized_dfa dfa parts) ip c = some i := by
                rw [htrans]
                show partIndexOf parts q = some i
                rw [partIndexOf_eq_rec, hqrec]
              exact dStatesF_closed_trans _ hipF htrans2
  intro i hi
  have hBne := hinv.1 _ (getD_mem_of_lt hi)
  obtain ⟨q, hq⟩ := hBne
  have hqF : q ∈ DFAAut.statesF dfa := hinv.2.2.1 _ (getD_mem_of_lt hi) q hq
  exact haux _ q hqF i hi hq

theorem statesF_build_eq {dfa : DFAAut} {parts : List (Finset Nat)}
    (hinv : PartsInv dfa parts)
    (hstab : Stable dfa (sortedChars (dAlphabet dfa)) parts)
    (hkeys : ∀ s ∈ dfa.arena, (s.transitions.map (fun e => e.1)).Nodup)
    (hlen : 0 < parts.length) :
    DFAAut.statesF (build_minimized_dfa dfa parts) = Finset.range parts.length := by
  apply Finset.Subset.antisymm (statesF_build_subset hlen)
  intro i hi
  exact statesF_build_superset hinv hstab hkeys i (Finset.mem_range.mp hi)

/-! ### The refinement fixpoint is the coarsest stable partition -/

theorem rel_stable_of_stable {dfa : DFAAut} {parts : List (Finset Nat)}
    (hinv : PartsInv dfa parts)
    (hstab : Stable dfa (sortedChars (dAlphabet dfa)) parts) :
    RelStable dfa parts := by
  rintro q q' ⟨B, hB, hq, hq'⟩ c
  have hqF : q ∈ DFAAut.statesF dfa := hinv.2.2.1 B hB q hq
  have hq'F : q' ∈ DFAAut.statesF dfa := hinv.2.2.1 B hB q' hq'
  by_cases hc : c ∈ sortedChars (dAlphabet dfa)
  · have hsig := hstab B hB q hq q' hq'
    have hpt := map_apply_eq_of_map_eq _ hsig c hc
    constructor
    · constructor
      · intro h1
        cases h2 : dTransOf dfa q' c with
        | none => rfl
        | some t' =>
            simp only [h1, h2] at hpt
            have ht'F : t' ∈ DFAAut.statesF dfa := dStatesF_closed_trans dfa hq'F h2
            obtain ⟨Bt, hBt, htBt⟩ := hinv.2.2.2.1 t' ht'F
            have hsome := partIdxRec_isSome_of_mem hBt htBt
            rw [partIndexOf_eq_rec] at hpt
            rw [← hpt] at hsome
            simp at hsome
      · intro h1
        cases h2 : dTransOf dfa q c with
        | none => rfl
        | some t =>
            simp only [h1, h2] at hpt
            have htF : t ∈ DFAAut.statesF dfa := dStatesF_closed_trans dfa hqF h2
            obtain ⟨Bt, hBt, htBt⟩ := hinv.2.2.2.1 t htF
            have hsome := partIdxRec_isSome_of_mem hBt htBt
            rw [partIndexOf_eq_rec] at hpt
            rw [hpt] at hsome
            simp at hsome
    · intro t t' h1 h2
      simp only [h1, h2] at hpt
      have htF : t ∈ DFAAut.statesF dfa := dStatesF_closed_trans dfa hqF h1
      obtain ⟨Bt, hBt, htBt⟩ := hinv.2.2.2.1 t htF
      have hsome := partIdxRec_isSome_of_mem hBt htBt
      cases hj : partIdxRec parts t with
      | none => rw [hj] at hsome; simp at hsome
      | some j =>
          obtain ⟨hjlt, htj⟩ := partIdxRec_some hj
          have h2' : partIdxRec parts t' = some j := by
            rw [← partIndexOf_eq_rec, ← hpt, partIndexOf_eq_rec, hj]
          obtain ⟨-, ht'j⟩ := partIdxRec_some h2'
          exact ⟨parts.getD j ∅, getD_mem_of_lt hjlt, htj, ht'j⟩
  · constructor
    · rw [dTransOf_none_of_not_alpha hqF hc, dTransOf_none_of_not_alpha hq'F hc]
    · intro t t' h1 h2
      rw [dTransOf_none_of_not_alpha hqF hc] at h1
      exact absurd h1 (by simp)

theorem refine_partition_sameBlock {dfa : DFAAut} {parts : List (Finset Nat)}
    {alpha : List Char} {B : Finset Nat} {q q' : Nat}
    (hq : q ∈ B) (hq' : q' ∈ B)
    (hsig : signatureOf dfa parts alpha q = signatureOf dfa parts alpha q') :
    ∃ S ∈ refine_partition dfa B parts alpha, q ∈ S ∧ q' ∈ S := by
  by_cases hcard : B.card = 1
  · have heq : refine_partition dfa B parts alpha = [B] := by
      unfold refine_partition; rw [if_pos hcard]
    exact ⟨B, by rw [heq]; exact List.mem_cons_self _ _, hq, hq'⟩
  · have hrw : refine_partition dfa B parts alpha =
        ((sortedNats B).foldl
          (fun groups q => insertSig (signatureOf dfa parts alpha q) q groups) []).map
          (fun e => e.2) := by
      unfold refine_partition; rw [if_neg hcard]
    obtain ⟨C1, C2, C3, C4⟩ :=
      foldGroups_spec dfa parts alpha (sortedNats B) [] (by simp) (by simp) (by simp)
    obtain ⟨e, he, hqe⟩ := (C4 q).mpr (Or.inr (mem_sortedNats.mpr hq))
    obtain ⟨e', he', hq'e⟩ := (C4 q').mpr (Or.inr (mem_sortedNats.mpr hq'))
    have hkey : e.1 = e'.1 := by
      rw [← C1 e he q hqe, ← C1 e' he' q' hq'e, hsig]
    have hee : e = e' := List.inj_on_of_nodup_map C3 he he' hkey
    rw [hrw]
    exact ⟨e.2, List.mem_map.mpr ⟨e, he, rfl⟩, hqe, hee ▸ hq'e⟩

theorem coarsest_pass {dfa : DFAAut} {alpha : List Char}
    {Q parts : List (Finset Nat)}
    (hQS : ∀ C ∈ Q, ∀ x ∈ C, x ∈ DFAAut.statesF dfa)
    (hSQ : RelStable dfa Q)
    (hinv : PartsInv dfa parts)
    (hRQ : Refines Q parts) :
    Refines Q (refinePass dfa alpha parts).1 := by
  intro q q' hqq'
  obtain ⟨B, hB, hq, hq'⟩ := hRQ q q' hqq'
  obtain ⟨C, hC, hqC, hq'C⟩ := hqq'
  have hsig : signatureOf dfa parts alpha q = signatureOf dfa parts alpha q' := by
    unfold signatureOf
    apply List.map_congr_left
    intro c hc
    obtain ⟨hnone, hsome⟩ := hSQ q q' ⟨C, hC, hqC, hq'C⟩ c
    cases h1 : dTransOf dfa q c with
    | none =>
        have h2 := hnone.mp h1
        rw [h2]
    | some t =>
        cases h2 : dTransOf dfa q' c with
        | none =>
            have h3 := hnone.mpr h2
            rw [h1] at h3
            exact absurd h3 (by simp)
        | some t' =>
            obtain ⟨B'', hB'', htB, ht'B⟩ := hRQ t t' (hsome t t' h1 h2)
            obtain ⟨k, hk, hgetk⟩ := List.getElem_of_mem hB''
            have hgetD : parts.getD k ∅ = B'' := by
              rw [List.getD_eq_getElem _ _ hk, hgetk]
            have r1 : partIdxRec parts t = some k :=
              partIdxRec_unique hinv.2.1 hk (by rw [hgetD]; exact htB)
            have r2 : partIdxRec parts t' = some k :=
              partIdxRec_unique hinv.2.1 hk (by rw [hgetD]; exact ht'B)
            show partIndexOf parts t = partIndexOf parts t'
            rw [partIndexOf_eq_rec, partIndexOf_eq_rec, r1, r2]
  obtain ⟨S, hS, hqS, hq'S⟩ := refine_partition_sameBlock hq hq' hsig
  exact ⟨S, mem_refinePass_fst.mpr ⟨B, hB, hS⟩, hqS, hq'S⟩

theorem coarsest_loop {dfa : DFAAut} {alpha : List Char} {Q : List (Finset Nat)}
    (hQS : ∀ C ∈ Q, ∀ x ∈ C, x ∈ DFAAut.statesF dfa)
    (hSQ : RelStable dfa Q) :
    ∀ (fuel : Nat) (parts : List (Finset Nat)), PartsInv dfa parts →
    Refines Q parts → Refines Q (refineLoop dfa alpha fuel parts) := by
  intro fuel
  induction fuel with
  | zero => intro parts _ hR; exact hR
  | succ fuel ih =>
      intro parts hinv hR
      cases hch : (refinePass dfa alpha parts).2 with
      | false =>
          have hred : refineLoop dfa alpha (fuel + 1) parts =
              (refinePass dfa alpha parts).1 := by
            simp [refineLoop, hch]
          rw [hred]
          exact coarsest_pass hQS hSQ hinv hR
      | true =>
          have hred : refineLoop dfa alpha (fuel + 1) parts =
              refineLoop dfa alpha fuel (refinePass dfa alpha parts).1 := by
            simp [refineLoop, hch]
          rw [hred]
          exact ih _ (@refinePass_inv dfa alpha parts hinv)
            (coarsest_pass hQS hSQ hinv hR)

theorem sameBlock_initParts {dfa : DFAAut} {q q' : Nat}
    (hq : q ∈ DFAAut.statesF dfa) (hq' : q' ∈ DFAAut.statesF dfa)
    (hfin : dIsFinal dfa q = dIsFinal dfa q') :
    sameBlock ((if DFAAut.statesF dfa \
        (DFAAut.statesF dfa).filter (fun x => dIsFinal dfa x = true) = ∅ then []
      else [DFAAut.statesF dfa \
        (DFAAut.statesF dfa).filter (fun x => dIsFinal dfa x = true)]) ++
      (if (DFAAut.statesF dfa).filter (fun x => dIsFinal dfa x = true) = ∅ then []
      else [(DFAAut.statesF dfa).filter (fun x => dIsFinal dfa x = true)])) q q' := by
  cases hf : dIsFinal dfa q with
  | true =>
      have hf' : dIsFinal dfa q' = true := by rw [← hfin, hf]
      have hqF : q ∈ (DFAAut.statesF dfa).filter (fun x => dIsFinal dfa x = true) :=
        Finset.mem_filter.mpr ⟨hq, hf⟩
      have hq'F : q' ∈ (DFAAut.statesF dfa).filter (fun x => dIsFinal dfa x = true) :=
        Finset.mem_filter.mpr ⟨hq', hf'⟩
      have hFne : (DFAAut.statesF dfa).filter (fun x => dIsFinal dfa x = true) ≠ ∅ :=
        fun h => by rw [h] at hqF; simp at hqF
      refine ⟨_, ?_, hqF, hq'F⟩
      rw [List.mem_append]
      right
      rw [if_neg hFne]
      exact List.mem_singleton_self _
  | false =>
      have hf' : dIsFinal dfa q' = false := by rw [← hfin, hf]
      have hqN : q ∈ DFAAut.statesF dfa \
          (DFAAut.statesF dfa).filter (fun x => dIsFinal dfa x = true) := by
        refine Finset.mem_sdiff.mpr ⟨hq, ?_⟩
        intro hmem
        have := (Finset.mem_filter.mp hmem).2
        rw [hf] at this
        exact absurd this (by simp)
      have hq'N : q' ∈ DFAAut.statesF dfa \
          (DFAAut.statesF dfa).filter (fun x => dIsFinal dfa x = true) := by
        refine Finset.mem_sdiff.mpr ⟨hq', ?_⟩
        intro hmem
        have := (Finset.mem_filter.mp hmem).2
        rw [hf'] at this
        exact absurd this (by simp)
      have hNne : DFAAut.statesF dfa \
          (DFAAut.statesF dfa).filter (fun x => dIsFinal dfa x = true) ≠ ∅ :=
        fun h => by rw [h] at hqN; simp at hqN
      refine ⟨_, ?_, hqN, hq'N⟩
      rw [List.mem_append]
      left
      rw [if_neg hNne]
      exact List.mem_singleton_self _

theorem parts_length_eq_card {dfa : DFAAut} {parts : List (Finset Nat)}
    (hinv : PartsInv dfa parts)
    (hsing : ∀ C ∈ parts, ∀ i ∈ C, ∀ j ∈ C, i = j) :
    parts.length = (DFAAut.statesF dfa).card := by
  obtain ⟨hne, hpw, hsub, hcov, -⟩ := hinv
  have hmapnd : (parts.map sampleOf).Nodup := by
    have hp : List.Pairwise (fun a b => a ≠ b) (parts.map sampleOf) := by
      rw [List.pairwise_map]
      refine hpw.imp_of_mem ?_
      intro A B hA hB hdisj hAB
      exact hdisj (sampleOf A) (sampleOf_mem (hne A hA))
        (hAB ▸ sampleOf_mem (hne B hB))
    exact hp
  have hset : (parts.map sampleOf).toFinset = DFAAut.statesF dfa := by
    apply Finset.Subset.antisymm
    · intro x hx
      obtain ⟨B, hB, rfl⟩ := List.mem_map.mp (List.mem_toFinset.mp hx)
      exact hsub B hB _ (sampleOf_mem (hne B hB))
    · intro x hx
      obtain ⟨C, hC, hxC⟩ := hcov x hx
      have hxs : x = sampleOf C := hsing C hC x hxC _ (sampleOf_mem (hne C hC))
      rw [List.mem_toFinset, hxs]
      exact List.mem_map_of_mem _ hC
  calc parts.length = (parts.map sampleOf).length := (List.length_map _ _).symm
    _ = (parts.map sampleOf).toFinset.card := (List.toFinset_card_of_nodup hmapnd).symm
    _ = _ := by rw [hset]

theorem parts_length_pos {dfa : DFAAut} {parts : List (Finset Nat)}
    (hinv : PartsInv dfa parts) : 0 < parts.length := by
  obtain ⟨B, hB, -⟩ := hinv.2.2.2.1 dfa.start (dStart_mem_statesF dfa)
  exact List.length_pos.mpr (fun h => by rw [h] at hB; simp at hB)

theorem build_card_le {dfa : DFAAut} {parts : List (Finset Nat)}
    (hlen : 0 < parts.length) :
    (DFAAut.statesF (build_minimized_dfa dfa parts)).card ≤ parts.length := by
  calc (DFAAut.statesF (build_minimized_dfa dfa parts)).card
      ≤ (Finset.range parts.length).card :=
        Finset.card_le_card (statesF_build_subset hlen)
    _ = parts.length := Finset.card_range _

theorem minimize_dfa_small {dfa : DFAAut}
    (h : (DFAAut.statesF dfa).card ≤ 1) : minimize_dfa dfa = dfa := by
  unfold minimize_dfa
  rw [if_pos h]

theorem minimize_dfa_spec {dfa : DFAAut}
    (hcard : ¬ (DFAAut.statesF dfa).card ≤ 1) :
    ∃ parts : List (Finset Nat),
      minimize_dfa dfa = build_minimized_dfa dfa parts ∧
      PartsInv dfa parts ∧
      Stable dfa (sortedChars (dAlphabet dfa)) parts ∧
      ∀ Q : List (Finset Nat),
        (∀ C ∈ Q, ∀ x ∈ C, x ∈ DFAAut.statesF dfa) →
        RelStable dfa Q →
        (∀ q q', sameBlock Q q q' → dIsFinal dfa q = dIsFinal dfa q') →
        Refines Q parts := by
  refine ⟨refineLoop dfa (sortedChars (dAlphabet dfa)) ((DFAAut.statesF dfa).card + 1)
    ((if DFAAut.statesF dfa \
        (DFAAut.statesF dfa).filter (fun x => dIsFinal dfa x = true) = ∅ then []
      else [DFAAut.statesF dfa \
        (DFAAut.statesF dfa).filter (fun x => dIsFinal dfa x = true)]) ++
     (if (DFAAut.statesF dfa).filter (fun x => dIsFinal dfa x = true) = ∅ then []
      else [(DFAAut.statesF dfa).filter (fun x => dIsFinal dfa x = true)])),
    ?_, ?_, ?_, ?_⟩
  · unfold minimize_dfa
    rw [if_neg hcard]
  · exact (@refineLoop_sound dfa (sortedChars (dAlphabet dfa)) _ _
      (initParts_inv dfa _ _ rfl rfl) (by omega)).1
  · exact (@refineLoop_sound dfa (sortedChars (dAlphabet dfa)) _ _
      (initParts_inv dfa _ _ rfl rfl) (by omega)).2
  · intro Q hQS hSQ hQfin
    refine coarsest_loop hQS hSQ _ _ (initParts_inv dfa _ _ rfl rfl) ?_
    intro q q' hqq'
    obtain ⟨C, hC, hqC, hq'C⟩ := hqq'
    exact sameBlock_initParts (hQS C hC q hqC) (hQS C hC q' hq'C)
      (hQfin q q' ⟨C, hC, hqC, hq'C⟩)

theorem minimize_card_le (dfa : DFAAut) :
    (DFAAut.statesF (minimize_dfa dfa)).card ≤ (DFAAut.statesF dfa).card := by
  by_cases hcard : (DFAAut.statesF dfa).card ≤ 1
  · rw [minimize_dfa_small hcard]
  · obtain ⟨parts, hmin, hinv, -, -⟩ := minimize_dfa_spec hcard
    rw [hmin]
    exact le_trans (build_card_le (parts_length_pos hinv)) (parts_length_le hinv)

theorem pullback_singletons {dfa : DFAAut} {parts parts2 : List (Finset Nat)}
    (hinv1 : PartsInv dfa parts)
    (hstab1 : Stable dfa (sortedChars (dAlphabet dfa)) parts)
    (hinv2 : PartsInv (build_minimized_dfa dfa parts) parts2)
    (hstab2 : Stable (build_minimized_dfa dfa parts)
      (sortedChars (dAlphabet (build_minimized_dfa dfa parts))) parts2)
    (hrange : DFAAut.statesF (build_minimized_dfa dfa parts) =
      Finset.range parts.length)
    (hcoarse : ∀ Q : List (Finset Nat),
        (∀ C ∈ Q, ∀ x ∈ C, x ∈ DFAAut.statesF dfa) →
        RelStable dfa Q →
        (∀ q q', sameBlock Q q q' → dIsFinal dfa q = dIsFinal dfa q') →
        Refines Q parts) :
    ∀ C ∈ parts2, ∀ i ∈ C, ∀ j ∈ C, i = j := by
  have hRel2 : RelStable (build_minimized_dfa dfa parts) parts2 :=
    rel_stable_of_stable hinv2 hstab2
  have hmemlt : ∀ {C i}, C ∈ parts2 → i ∈ C → i < parts.length := by
    intro C i hC hi
    have h := hinv2.2.2.1 C hC i hi
    rw [hrange] at h
    exact Finset.mem_range.mp h
  have hQS : ∀ C' ∈ parts2.map (fun C => C.biUnion (fun i => parts.getD i ∅)),
      ∀ x ∈ C', x ∈ DFAAut.statesF dfa := by
    intro C' hC' x hx
    obtain ⟨C0, hC0, rfl⟩ := List.mem_map.mp hC'
    obtain ⟨i0, hi0, hxi0⟩ := Finset.mem_biUnion.mp hx
    exact hinv1.2.2.1 _ (getD_mem_of_lt (hmemlt hC0 hi0)) x hxi0
  have hBT : ∀ {i x}, i < parts.length → x ∈ parts.getD i ∅ → ∀ c,
      dTransOf (build_minimized_dfa dfa parts) i c =
        (match dTransOf dfa x c with
         | none => none
         | some t => partIndexOf parts t) := by
    intro i x hi hx c
    exact block_trans hinv1 hstab1 hi hx
      (hinv1.2.2.1 _ (getD_mem_of_lt hi) x hx) c
  have hidx : ∀ {t}, t ∈ DFAAut.statesF dfa → ∃ j, partIndexOf parts t = some j ∧
      j < parts.length ∧ t ∈ parts.getD j ∅ := by
    intro t htF
    obtain ⟨Bt, hBt, htBt⟩ := hinv1.2.2.2.1 t htF
    have hsome := partIdxRec_isSome_of_mem hBt htBt
    cases hj : partIdxRec parts t with
    | none => rw [hj] at hsome; simp at hsome
    | some j =>
        obtain ⟨h1, h2⟩ := partIdxRec_some hj
        exact ⟨j, by rw [partIndexOf_eq_rec, hj], h1, h2⟩
  have hSQ : RelStable dfa
      (parts2.map (fun C => C.biUnion (fun i => parts.getD i ∅))) := by
    rintro x x' ⟨C', hC', hx, hx'⟩ c
    obtain ⟨C0, hC0, rfl⟩ := List.mem_map.mp hC'
    obtain ⟨i0, hi0, hxi0⟩ := Finset.mem_biUnion.mp hx
    obtain ⟨i0', hi0', hx'i0'⟩ := Finset.mem_biUnion.mp hx'
    have hxF : x ∈ DFAAut.statesF dfa :=
      hinv1.2.2.1 _ (getD_mem_of_lt (hmemlt hC0 hi0)) x hxi0
    have hx'F : x' ∈ DFAAut.statesF dfa :=
      hinv1.2.2.1 _ (getD_mem_of_lt (hmemlt hC0 hi0')) x' hx'i0'
    have hb := hBT (hmemlt hC0 hi0) hxi0 c
    have hb' := hBT (hmemlt hC0 hi0') hx'i0' c
    obtain ⟨hRnone, hRsome⟩ := hRel2 i0 i0' ⟨C0, hC0, hi0, hi0'⟩ c
    constructor
    · constructor
      · intro h1
        have hm : dTransOf (build_minimized_dfa dfa parts) i0 c = none := by
          rw [hb, h1]
        have hm' := hRnone.mp hm
        rw [hb'] at hm'
        cases h2 : dTransOf dfa x' c with
        | none => rfl
        | some t' =>
            simp only [h2] at hm'
            obtain ⟨j', hj', -, -⟩ := hidx (dStatesF_closed_trans dfa hx'F h2)
            rw [hj'] at hm'
            exact absurd hm' (by simp)
      · intro h1
        have hm : dTransOf (build_minimized_dfa dfa parts) i0' c = none := by
          rw [hb', h1]
        have hm' := hRnone.mpr hm
        rw [hb] at hm'
        cases h2 : dTransOf dfa x c with
        | none => rfl
        | some t =>
            simp only [h2] at hm'
            obtain ⟨j, hj, -, -⟩ := hidx (dStatesF_closed_trans dfa hxF h2)
            rw [hj] at hm'
            exact absurd hm' (by simp)
    · intro t t' h1 h2
      obtain ⟨j, hj, hjlt, htj⟩ := hidx (dStatesF_closed_trans dfa hxF h1)
      obtain ⟨j', hj', hj'lt, ht'j'⟩ := hidx (dStatesF_closed_trans dfa hx'F h2)
      have hm : dTransOf (build_minimized_dfa dfa parts) i0 c = some j := by
        rw [hb]
        simp only [h1]
        exact hj
      have hm' : dTransOf (build_minimized_dfa dfa parts) i0' c = some j' := by
        rw [hb']
        simp only [h2]
        exact hj'
      obtain ⟨C1, hC1, hjC1, hj'C1⟩ := hRsome j j' hm hm'
      exact ⟨C1.biUnion (fun i => parts.getD i ∅),
        List.mem_map.mpr ⟨C1, hC1, rfl⟩,
        Finset.mem_biUnion.mpr ⟨j, hjC1, htj⟩,
        Finset.mem_biUnion.mpr ⟨j', hj'C1, ht'j'⟩⟩
  have hQfin : ∀ q q',
      sameBlock (parts2.map (fun C => C.biUnion (fun i => parts.getD i ∅))) q q' →
      dIsFinal dfa q = dIsFinal dfa q' := by
    rintro x x' ⟨C', hC', hx, hx'⟩
    obtain ⟨C0, hC0, rfl⟩ := List.mem_map.mp hC'
    obtain ⟨i0, hi0, hxi0⟩ := Finset.mem_biUnion.mp hx
    obtain ⟨i0', hi0', hx'i0'⟩ := Finset.mem_biUnion.mp hx'
    have h1 := block_final hinv1 (hmemlt hC0 hi0) hxi0
    have h2 := block_final hinv1 (hmemlt hC0 hi0') hx'i0'
    have h3 := hinv2.2.2.2.2 C0 hC0 i0 hi0 i0' hi0'
    rw [← h1, h3, h2]
  have hRef := hcoarse _ hQS hSQ hQfin
  intro C hC i hiC j hjC
  have hilt := hmemlt hC hiC
  have hjlt := hmemlt hC hjC
  obtain ⟨qi, hqi⟩ := hinv1.1 _ (getD_mem_of_lt hilt)
  obtain ⟨qj, hqj⟩ := hinv1.1 _ (getD_mem_of_lt hjlt)
  have hsame : sameBlock
      (parts2.map (fun C => C.biUnion (fun i => parts.getD i ∅))) qi qj :=
    ⟨_, List.mem_map.mpr ⟨C, hC, rfl⟩,
      Finset.mem_biUnion.mpr ⟨i, hiC, hqi⟩,
      Finset.mem_biUnion.mpr ⟨j, hjC, hqj⟩⟩
  obtain ⟨Bk, hBk, hm1, hm2⟩ := hRef qi qj hsame
  obtain ⟨k, hk, hgetk⟩ := List.getElem_of_mem hBk
  have hgetD : parts.getD k ∅ = Bk := by
    rw [List.getD_eq_getElem _ _ hk, hgetk]
  have hik : i = k := by
    by_contra hik
    exact pairwise_disjoint_getD hinv1.2.1 hilt hk hik hqi
      (by rw [hgetD]; exact hm1)
  have hjk : j = k := by
    by_contra hjk
    exact pairwise_disjoint_getD hinv1.2.1 hjlt hk hjk hqj
      (by rw [hgetD]; exact hm2)
  exact hik.trans hjk.symm

theorem minimize_idem {dfa : DFAAut}
    (hkeys : ∀ s ∈ dfa.arena, (s.transitions.map (fun e => e.1)).Nodup) :
    (DFAAut.statesF (minimize_dfa (minimize_dfa dfa))).card =
      (DFAAut.statesF (minimize_dfa dfa)).card := by
  by_cases hcard : (DFAAut.statesF dfa).card ≤ 1
  · rw [minimize_dfa_small hcard, minimize_dfa_small hcard]
  · obtain ⟨parts, hmin, hinv1, hstab1, hcoarse⟩ := minimize_dfa_spec hcard
    have hlen1 : 0 < parts.length := parts_length_pos hinv1
    have hrange : DFAAut.statesF (build_minimized_dfa dfa parts) =
        Finset.range parts.length :=
      statesF_build_eq hinv1 hstab1 hkeys hlen1
    have hcard1 : (DFAAut.statesF (minimize_dfa dfa)).card = parts.length := by
      rw [hmin, hrange, Finset.card_range]
    by_cases hcard2 : (DFAAut.statesF (minimize_dfa dfa)).card ≤ 1
    · rw [minimize_dfa_small hcard2]
    · obtain ⟨parts2, hmin2, hinv2, hstab2, -⟩ := minimize_dfa_spec hcard2
      rw [hmin] at hinv2 hstab2
      have hkeys2 : ∀ s ∈ (build_minimized_dfa dfa parts).arena,
          (s.transitions.map (fun e => e.1)).Nodup := build_keys_nodup dfa parts
      have hlen2 : 0 < parts2.length := parts_length_pos hinv2
      have hrange2 : DFAAut.statesF (build_minimized_dfa
          (build_minimized_dfa dfa parts) parts2) = Finset.range parts2.length :=
        statesF_build_eq hinv2 hstab2 hkeys2 hlen2
      have hsing := pullback_singletons hinv1 hstab1 hinv2 hstab2 hrange hcoarse
      have hlen22 : parts2.length =
          (DFAAut.statesF (build_minimized_dfa dfa parts)).card :=
        parts_length_eq_card hinv2 hsing
      rw [hcard1, hmin2, hmin, hrange2, Finset.card_range, hlen22, hrange,
        Finset.card_range]

/-- C5: minimization never increases the number of reachable states, and
re-minimizing yields a DFA with the same number of reachable states as one
minimization (the transition tables being Python dicts, each state's
transition list carries pairwise-distinct symbols). -/
theorem c5_minimization_size {dfa : DFAAut}
    (hkeys : ∀ s ∈ dfa.arena, (s.transitions.map (fun e => e.1)).Nodup) :
    (DFAAut.statesF (minimize_dfa dfa)).card ≤ (DFAAut.statesF dfa).card ∧
    (DFAAut.statesF (minimize_dfa (minimize_dfa dfa))).card =
      (DFAAut.statesF (minimize_dfa dfa)).card :=
  ⟨minimize_card_le dfa, minimize_idem hkeys⟩

/-- Witness for C5 at the two-state DFA accepting `a`: its transition lists
have distinct symbols, and the size bound and idempotence hold at it. -/
theorem c5_witness :
    (∀ s ∈ (⟨[⟨0, false, [('a', 1)]⟩, ⟨1, true, []⟩], 0⟩ : DFAAut).arena,
      (s.transitions.map (fun e => e.1)).Nodup) ∧
    ((DFAAut.statesF (minimize_dfa (⟨[⟨0, false, [('a', 1)]⟩, ⟨1, true, []⟩], 0⟩ : DFAAut))).card ≤
      (DFAAut.statesF (⟨[⟨0, false, [('a', 1)]⟩, ⟨1, true, []⟩], 0⟩ : DFAAut)).card ∧
    (DFAAut.statesF (minimize_dfa (minimize_dfa
        (⟨[⟨0, false, [('a', 1)]⟩, ⟨1, true, []⟩], 0⟩ : DFAAut)))).card =
      (DFAAut.statesF (minimize_dfa
        (⟨[⟨0, false, [('a', 1)]⟩, ⟨1, true, []⟩], 0⟩ : DFAAut))).card) :=
  ⟨by decide, c5_minimization_size (by decide)⟩

end RegexLab
